import Mathlib

/-!
# MPMCSimpleQueue: a bounded multi-producer/multi-consumer ring (mpmc.hpp)

Shallow embedding of `src/mpmc.hpp` and of the executions of concurrent calls on it.

## The model

* `size_t` is the 64-bit unsigned type: every arithmetic result of the source is
  reduced modulo `SIZE = 2^64`.
* The queue object is `MPMCSimpleQueue T` (fields `slots_`, `head_`, `tail_`); the
  template parameter `N` is an explicit argument of every operation.
* A call of `push` or `pop` is split into the atomic steps of the source: the
  `fetch_add` on the ticket counter, one load of the slot's turn, the access to
  `storage`, the store of the new turn.  `Call` is the program counter of one call
  together with its locals; `MPMCSimpleQueue.push` and `MPMCSimpleQueue.pop` perform one
  atomic step of a call.
* The element type `T` of the template enters through what the move assignment
  `val = std::move(slot.storage)` leaves in the cell.  `MPMCSimpleQueue.pop`, `step` and
  `run` are the queue for a `T` that a move leaves unchanged (`int` in test.cpp);
  `MPMCSimpleQueue.popMove`, `stepMove` and `runMove` are the queue for any `T`, the
  content a move leaves behind being the argument `moved`.
* `step` lets one call of a `System` take one atomic step; `run` follows a schedule (the
  list of the calls that move, in order).  Memory is sequentially consistent.
* An access `slots_[ticket & Divisor]` outside the array is undefined behaviour in the
  source; the step answers `none` there.

## The results

* `Power2` accepts the powers of two and also `0` (`Power2_iff`).
* For every capacity `2 ^ k` every schedule runs to a state (`Inv_run`), and a pop leaves
  its wait loop only after the push holding its ticket has returned, whatever the element
  type (`pop_blocks_any_move`).
* With one slot the turn `ticket + 1` published by a push is awaited both by the pop
  holding `ticket` and by the push holding `ticket + 1`: FIFO order, the capacity bound
  and the ownership of the slot all fail (`fifo_capacity_one` and the theorems after it).
* With at least two slots they hold in every interleaving: `fifo_two_slots`,
  `ownership_two_slots`, `capacity_two_slots`, `no_loss_two_slots`; so do the monotony
  of the turns (`turn_monotone_two_slots`) and the freedom from deadlock
  (`blocking_two_slots`), which fail with one slot (`turn_decreases_capacity_one`,
  `deadlock_capacity_one`).
* With at least two slots what a move leaves in the cell is immaterial
  (`move_immaterial_two_slots`, `fifo_any_move_two_slots`); with one slot and a
  destructive move a pop returns the moved-from value, which no push passed
  (`unpushed_value_capacity_one`).
* The slot index never leaves the ring (`slot_index_in_bounds`), tickets are handed out in
  sequence modulo `2^64` (`ticket_allocation`) and keep their slots across the overflow
  (`wraparound_consistency`).
* Run one call at a time, the queue with at least two slots refines a FIFO list of
  capacity `N` (`sequential_refinement`), and push and pop in turn go round the ring for
  any number of laps (`multi_lap_round_trip`).
* The turns do not have the parity the comments of `push` and `pop` give them
  (`turn_parity_capacity_two`).
* `test_mpmc_integrity` (test.cpp) is embedded with the same `push` and `pop` steps: a
  consumer leaves its loop only on a count of at least `total_items`
  (`harness_exit_after_total`).
-/

namespace MPMC

/-! ## The queue and its operations -/

/-- Number of values of `size_t` (64-bit unsigned); arithmetic wraps modulo `SIZE`. -/
def SIZE : Nat := 2 ^ 64

/-- `concept Power2 = (N&(N-1))==0` (mpmc.hpp:8-9), with `N-1` computed in `size_t`. -/
def Power2 (N : Nat) : Bool := (N &&& ((N + SIZE - 1) % SIZE)) == 0

/-- `struct Slot` (mpmc.hpp:17-21): the turn counter and the storage cell.  `storage` is
`none` until it is first assigned (`T storage;` is not initialised by the constructor). -/
structure Slot (T : Type) where
  turn : Nat
  storage : Option T
deriving DecidableEq, Repr

/-- Data members of `MPMCSimpleQueue<T, N>` (mpmc.hpp:74-79). -/
structure MPMCSimpleQueue (T : Type) where
  slots_ : List (Slot T)
  head_ : Nat
  tail_ : Nat
deriving DecidableEq, Repr

/-- `static constexpr size_t Divisor = N-1` (mpmc.hpp:76), in `size_t` arithmetic. -/
def Divisor (N : Nat) : Nat := (N + SIZE - 1) % SIZE

/-- State of the members before the constructor body runs: `N` slots with the default
member initialiser `turn{0}`, `head_{0}`, `tail_{0}`. -/
def MPMCSimpleQueue.default (T : Type) (N : Nat) : MPMCSimpleQueue T :=
  { slots_ := List.replicate N { turn := 0, storage := none }, head_ := 0, tail_ := 0 }

/-- One iteration of the constructor loop: `slots_[i].turn.store(i)` (mpmc.hpp:27). -/
def MPMCSimpleQueue.storeTurn {T : Type} (q : MPMCSimpleQueue T) (i v : Nat) :
    MPMCSimpleQueue T :=
  { q with slots_ := q.slots_.modify (fun sl => { sl with turn := v }) i }

/-- Constructor `MPMCSimpleQueue()` (mpmc.hpp:23-29): `for (i = 0; i < N; ++i)` over the
default-initialised members. -/
def MPMCSimpleQueue.new (T : Type) (N : Nat) : MPMCSimpleQueue T :=
  (List.range N).foldl (fun q i => q.storeTurn i i) (MPMCSimpleQueue.default T N)

/-- Program counter and locals of one call.  The `ticket` is the local `size_t ticket`;
`val` of a push is its argument, `val` of a pop is what it read from `storage`. -/
inductive Call (T : Type) where
  /-- `push(val)` entered, before the `fetch_add` of line 34. -/
  | pushIdle (val : T)
  /-- In the wait loop of lines 39-43. -/
  | pushWait (ticket : Nat) (val : T)
  /-- Left the loop, before `slot.storage = val` (line 46). -/
  | pushStore (ticket : Nat) (val : T)
  /-- Stored, before `slot.turn.store(ticket + 1)` (line 49). -/
  | pushPublish (ticket : Nat) (val : T)
  /-- Returned. -/
  | pushDone (ticket : Nat) (val : T)
  /-- `pop(val)` entered, before the `fetch_add` of line 55. -/
  | popIdle
  /-- In the wait loop of lines 60-64. -/
  | popWait (ticket : Nat)
  /-- Left the loop, before `val = std::move(slot.storage)` (line 67). -/
  | popLoad (ticket : Nat)
  /-- Read `val`, before `slot.turn.store(ticket + N)` (line 71). -/
  | popPublish (ticket : Nat) (val : Option T)
  /-- Returned with `val`. -/
  | popDone (ticket : Nat) (val : Option T)
deriving DecidableEq, Repr

/-- What a caller asks of the queue: `push(val)` or `pop(val)`. -/
inductive Op (T : Type) where
  | push (val : T)
  | pop
deriving DecidableEq, Repr

/-- Entry state of a call. -/
def Op.start {T : Type} : Op T → Call T
  | .push v => .pushIdle v
  | .pop => .popIdle

/-- The operation a call belongs to. -/
def Call.op {T : Type} : Call T → Op T
  | .pushIdle v => .push v
  | .pushWait _ v => .push v
  | .pushStore _ v => .push v
  | .pushPublish _ v => .push v
  | .pushDone _ v => .push v
  | .popIdle => .pop
  | .popWait _ => .pop
  | .popLoad _ => .pop
  | .popPublish _ _ => .pop
  | .popDone _ _ => .pop

/-- One atomic step of a call of `push(const T& val)` (mpmc.hpp:31-50): the queue and the
call after the step.  A call that finds `slot.turn != ticket` goes round its loop: queue and
call are unchanged.  `none` is an access `slots_[ticket & Divisor]` out of bounds. -/
def MPMCSimpleQueue.push {T : Type} (N : Nat) (q : MPMCSimpleQueue T) :
    Call T → Option (MPMCSimpleQueue T × Call T)
  | .pushIdle v =>
      -- size_t ticket = head_.fetch_add(1); Slot& slot = slots_[ticket&Divisor]
      match q.slots_[q.head_ &&& Divisor N]? with
      | none => none
      | some _ => some ({ q with head_ := (q.head_ + 1) % SIZE }, .pushWait q.head_ v)
  | .pushWait t v =>
      -- while (slot.turn.load() != ticket) yield
      match q.slots_[t &&& Divisor N]? with
      | none => none
      | some slot => if slot.turn = t then some (q, .pushStore t v) else some (q, .pushWait t v)
  | .pushStore t v =>
      -- slot.storage = val
      match q.slots_[t &&& Divisor N]? with
      | none => none
      | some slot =>
          some ({ q with slots_ := q.slots_.set (t &&& Divisor N) { slot with storage := some v } },
                .pushPublish t v)
  | .pushPublish t v =>
      -- slot.turn.store(ticket + 1)
      match q.slots_[t &&& Divisor N]? with
      | none => none
      | some slot =>
          some ({ q with
                  slots_ := q.slots_.set (t &&& Divisor N) { slot with turn := (t + 1) % SIZE } },
                .pushDone t v)
  | c => some (q, c)

/-- One atomic step of a call of `pop(T& val)` (mpmc.hpp:52-72): the queue and the call
after the step.  A call that finds `slot.turn != ticket+1` goes round its loop.  The move
out of `storage` leaves the cell's content in place (as for the element type `int` of
test.cpp); `MPMCSimpleQueue.popMove` is the step for any element type. -/
def MPMCSimpleQueue.pop {T : Type} (N : Nat) (q : MPMCSimpleQueue T) :
    Call T → Option (MPMCSimpleQueue T × Call T)
  | .popIdle =>
      -- size_t ticket = tail_.fetch_add(1); Slot& slot = slots_[ticket&Divisor]
      match q.slots_[q.tail_ &&& Divisor N]? with
      | none => none
      | some _ => some ({ q with tail_ := (q.tail_ + 1) % SIZE }, .popWait q.tail_)
  | .popWait t =>
      -- while (slot.turn.load() != ticket+1) yield
      match q.slots_[t &&& Divisor N]? with
      | none => none
      | some slot =>
          if slot.turn = (t + 1) % SIZE then some (q, .popLoad t) else some (q, .popWait t)
  | .popLoad t =>
      -- val = std::move(slot.storage)
      match q.slots_[t &&& Divisor N]? with
      | none => none
      | some slot => some (q, .popPublish t slot.storage)
  | .popPublish t r =>
      -- slot.turn.store(ticket + N)
      match q.slots_[t &&& Divisor N]? with
      | none => none
      | some slot =>
          some ({ q with
                  slots_ := q.slots_.set (t &&& Divisor N) { slot with turn := (t + N) % SIZE } },
                .popDone t r)
  | c => some (q, c)

/-- The queue together with the calls made on it. -/
structure System (T : Type) where
  queue : MPMCSimpleQueue T
  calls : List (Call T)
deriving DecidableEq, Repr

/-- A freshly constructed queue of capacity `N` and the calls made on it, none of which
has taken a step yet. -/
def System.fresh {T : Type} (N : Nat) (ops : List (Op T)) : System T :=
  { queue := MPMCSimpleQueue.new T N, calls := ops.map Op.start }

/-- One atomic step of call `i`: the call advances by one step of `push` or of `pop`; an
index that names no call does nothing. -/
def step {T : Type} (N : Nat) (s : System T) (i : Nat) : Option (System T) :=
  match s.calls[i]? with
  | none => some s
  | some c =>
      (match c.op with
        | .push _ => s.queue.push N c
        | .pop => s.queue.pop N c).map
        (fun (qc : MPMCSimpleQueue T × Call T) => { queue := qc.1, calls := s.calls.set i qc.2 })

/-- Execution of a schedule: the calls named in `sched` take one atomic step each, in
that order. -/
def run {T : Type} (N : Nat) (s : System T) : List Nat → Option (System T)
  | [] => some s
  | i :: sched => (step N s i).bind (fun s' => run N s' sched)

/-- A state of a queue of capacity 2: `push(7)` has returned and a pop has not started. -/
def afterFirstPush : System Nat :=
  { queue := { slots_ := [{ turn := 1, storage := some 7 }, { turn := 1, storage := none }],
               head_ := 1, tail_ := 0 },
    calls := [.pushDone 0 7, .popIdle] }

/-- Schedule that runs the calls `0, 1, ..., n-1` one after the other, four atomic steps
each (no call ever goes round its wait loop). -/
def oneByOne : Nat → List Nat
  | 0 => []
  | n + 1 => oneByOne n ++ [n, n, n, n]

/-! ## What a call has done so far -/

/-- Ticket of a push that has claimed one. -/
def Call.pushTicket {T : Type} : Call T → Option Nat
  | .pushWait t _ => some t
  | .pushStore t _ => some t
  | .pushPublish t _ => some t
  | .pushDone t _ => some t
  | _ => none

/-- Ticket of a pop that has claimed one. -/
def Call.popTicket {T : Type} : Call T → Option Nat
  | .popWait t => some t
  | .popLoad t => some t
  | .popPublish t _ => some t
  | .popDone t _ => some t
  | _ => none

/-- A push that has claimed a ticket (the `fetch_add` on `head_` is behind it). -/
def Call.pushClaimed {T : Type} (c : Call T) : Bool := c.pushTicket.isSome

/-- A pop that has claimed a ticket (the `fetch_add` on `tail_` is behind it). -/
def Call.popClaimed {T : Type} (c : Call T) : Bool := c.popTicket.isSome

/-- Ticket of a push that has left its wait loop (lines 39-43). -/
def Call.pushPassed {T : Type} : Call T → Option Nat
  | .pushStore t _ => some t
  | .pushPublish t _ => some t
  | .pushDone t _ => some t
  | _ => none

/-- Ticket of a pop that has left its wait loop (lines 60-64). -/
def Call.popPassed {T : Type} : Call T → Option Nat
  | .popLoad t => some t
  | .popPublish t _ => some t
  | .popDone t _ => some t
  | _ => none

/-- Ticket of a push that has left its wait loop and not yet published the new turn. -/
def Call.pushOwner {T : Type} : Call T → Option Nat
  | .pushStore t _ => some t
  | .pushPublish t _ => some t
  | _ => none

/-- Ticket of a pop that has left its wait loop and not yet published the new turn. -/
def Call.popOwner {T : Type} : Call T → Option Nat
  | .popLoad t => some t
  | .popPublish t _ => some t
  | _ => none

/-- The value a pop has read from the slot (line 67), once it has. -/
def Call.popResult {T : Type} : Call T → Option (Option T)
  | .popPublish _ r => some r
  | .popDone _ r => some r
  | _ => none

/-- The value a pop has returned. -/
def Call.returned {T : Type} : Call T → Option (Option T)
  | .popDone _ r => some r
  | _ => none

/-- The call has returned. -/
def Call.isDone {T : Type} : Call T → Bool
  | .pushDone _ _ => true
  | .popDone _ _ => true
  | _ => false

/-- A push that has returned. -/
def Call.isPushDone {T : Type} : Call T → Bool
  | .pushDone _ _ => true
  | _ => false

/-- A pop that has returned. -/
def Call.isPopDone {T : Type} : Call T → Bool
  | .popDone _ _ => true
  | _ => false

/-- A push that has returned and whose ticket maps to slot `j`. -/
def Call.pushDoneAt {T : Type} (N j : Nat) : Call T → Bool
  | .pushDone t _ => t % N == j
  | _ => false

/-- A pop that has returned and whose ticket maps to slot `j`. -/
def Call.popDoneAt {T : Type} (N j : Nat) : Call T → Bool
  | .popDone t _ => t % N == j
  | _ => false

/-- The argument of a push. -/
def Op.value {T : Type} : Op T → Option T
  | .push v => some v
  | .pop => none

/-- The operation is a push. -/
def Op.isPush {T : Type} : Op T → Bool
  | .push _ => true
  | .pop => false

/-- The value passed to the push that holds ticket `t`. -/
def valueAt {T : Type} (calls : List (Call T)) (t : Nat) : Option T :=
  calls.findSome? (fun c => if c.pushTicket = some t then c.op.value else none)

/-! ## Invariants of the executions from a fresh queue -/

/-- Origin of the value `x` found in the turn of slot `j`: the constructor wrote `j`, or
a push that has returned wrote `ticket + 1`, or a pop that has returned wrote
`ticket + N`. -/
def TurnSrc {T : Type} (N : Nat) (calls : List (Call T)) (j x : Nat) : Prop :=
  x = j ∨
  (∃ t v, Call.pushDone t v ∈ calls ∧ x = (t + 1) % SIZE ∧ t % N = j) ∨
  (∃ t r, Call.popDone t r ∈ calls ∧ x = (t + N) % SIZE ∧ t % N = j)

/-- Invariant of the states reached from a fresh queue by the calls `ops`. -/
structure Inv {T : Type} (N : Nat) (ops : List (Op T)) (s : System T) : Prop where
  slots_len : s.queue.slots_.length = N
  calls_op : s.calls.map Call.op = ops
  head_lt : s.queue.head_ < SIZE
  tail_lt : s.queue.tail_ < SIZE
  push_ticket_lt : ∀ c ∈ s.calls, ∀ t, c.pushTicket = some t → t < SIZE
  pop_ticket_lt : ∀ c ∈ s.calls, ∀ t, c.popTicket = some t → t < SIZE
  turn_src : ∀ (j : Nat) (sl : Slot T), s.queue.slots_[j]? = some sl →
    TurnSrc N s.calls j sl.turn
  pop_after_push : ∀ c ∈ s.calls, ∀ t, c.popPassed = some t →
    ∃ v, Call.pushDone t v ∈ s.calls
  storage_src : ∀ (j : Nat) (sl : Slot T) (v : T), s.queue.slots_[j]? = some sl →
    sl.storage = some v → Op.push v ∈ ops
  result_src : ∀ c ∈ s.calls, ∀ r, c.popResult = some r →
    ∃ v, r = some v ∧ Op.push v ∈ ops
  stored : ∀ c ∈ s.calls, ∀ t v, (c = .pushPublish t v ∨ c = .pushDone t v) →
    ∃ (sl : Slot T) (w : T), s.queue.slots_[t % N]? = some sl ∧ sl.storage = some w
  pop_count : ops.length < SIZE →
    s.queue.tail_ = s.calls.countP Call.popClaimed ∧
    ∀ c ∈ s.calls, ∀ t, c.popTicket = some t → t < s.queue.tail_

/-- Invariant of the states reached from a fresh queue when no ticket is issued twice: a
call between its wait loop and its publication finds its turn still in the slot, and a
slot whose turn is not a push ticket of that slot holds the value of the push that
published it. -/
structure Own {T : Type} (N : Nat) (s : System T) : Prop where
  push_count : s.queue.head_ = s.calls.countP Call.pushClaimed
  push_lt_head : ∀ c ∈ s.calls, ∀ t, c.pushTicket = some t → t < s.queue.head_
  push_unique : ∀ (i j : Nat) (c d : Call T) (t : Nat), s.calls[i]? = some c →
    s.calls[j]? = some d → c.pushTicket = some t → d.pushTicket = some t → i = j
  pop_unique : ∀ (i j : Nat) (c d : Call T) (t : Nat), s.calls[i]? = some c →
    s.calls[j]? = some d → c.popTicket = some t → d.popTicket = some t → i = j
  push_owner : ∀ (n : Nat) (c : Call T) (t : Nat), s.calls[n]? = some c →
    c.pushOwner = some t → ∃ sl : Slot T, s.queue.slots_[t % N]? = some sl ∧ sl.turn = t
  pop_owner : ∀ (n : Nat) (c : Call T) (t : Nat), s.calls[n]? = some c →
    c.popOwner = some t →
    ∃ sl : Slot T, s.queue.slots_[t % N]? = some sl ∧ sl.turn = (t + 1) % SIZE
  push_value : ∀ (n t : Nat) (v : T), s.calls[n]? = some (.pushPublish t v) →
    ∃ sl : Slot T, s.queue.slots_[t % N]? = some sl ∧ sl.storage = some v
  readable : ∀ (j : Nat) (sl : Slot T), s.queue.slots_[j]? = some sl → sl.turn % N ≠ j →
    ∃ (t : Nat) (v : T), sl.turn = (t + 1) % SIZE ∧ sl.storage = some v ∧
      Call.pushDone t v ∈ s.calls
  fifo : ∀ c ∈ s.calls, ∀ (t : Nat) (r : Option T),
    (c = .popPublish t r ∨ c = .popDone t r) →
    ∃ v, r = some v ∧ Call.pushDone t v ∈ s.calls

/-- A push that has left its wait loop with a ticket `t ≥ N` did so after the pop holding
ticket `t - N` returned. -/
def PushAfterPop {T : Type} (N : Nat) (s : System T) : Prop :=
  ∀ c ∈ s.calls, ∀ t, c.pushPassed = some t →
    t < N ∨ (N ≤ t ∧ ∃ r, Call.popDone (t - N) r ∈ s.calls)

/-- On every slot the pushes that have returned are as many as the pops that have
returned, plus one while the slot holds a value not yet taken. -/
def Balanced {T : Type} (N : Nat) (s : System T) : Prop :=
  ∀ (j : Nat) (sl : Slot T), s.queue.slots_[j]? = some sl →
    s.calls.countP (Call.pushDoneAt N j) =
      s.calls.countP (Call.popDoneAt N j) + (if sl.turn % N = j then 0 else 1)

/-! ## Programs and states of the examples -/

/-- A state of a queue of capacity 1: two pushes and the pop holding ticket 1 have
returned, the pop holding ticket 0 is in its wait loop. -/
def stuckPop : System Nat :=
  { queue := { slots_ := [{ turn := 2, storage := some 20 }], head_ := 2, tail_ := 2 },
    calls := [.pushDone 0 10, .pushDone 1 20, .popWait 0, .popDone 1 (some 20)] }

/-- The calls `push(v_1), pop, push(v_2), pop, ...` for the values `vs`. -/
def roundTrip {T : Type} : List T → List (Op T)
  | [] => []
  | v :: vs => Op.push v :: Op.pop :: roundTrip vs

/-! ## The tickets handed out along a schedule -/

/-- The ticket call `i` received from `head_.fetch_add(1)` in the step from `s` to `s'`
(the local `ticket` of a push that was at its entry before the step), if that step was
its claim. -/
def pushClaim {T : Type} (s s' : System T) (i : Nat) : List Nat :=
  match s.calls[i]?, s'.calls[i]? with
  | some (.pushIdle _), some (.pushWait t _) => [t]
  | _, _ => []

/-- The ticket call `i` received from `tail_.fetch_add(1)` in the step from `s` to `s'`,
if that step was its claim. -/
def popClaim {T : Type} (s s' : System T) (i : Nat) : List Nat :=
  match s.calls[i]?, s'.calls[i]? with
  | some .popIdle, some (.popWait t) => [t]
  | _, _ => []

/-- The tickets the pushes receive along a schedule, in the order of their claims. -/
def pushClaims {T : Type} (N : Nat) : System T → List Nat → List Nat
  | _, [] => []
  | s, i :: sched =>
      match step N s i with
      | none => []
      | some s' => pushClaim s s' i ++ pushClaims N s' sched

/-- The tickets the pops receive along a schedule, in the order of their claims. -/
def popClaims {T : Type} (N : Nat) : System T → List Nat → List Nat
  | _, [] => []
  | s, i :: sched =>
      match step N s i with
      | none => []
      | some s' => popClaim s s' i ++ popClaims N s' sched

/-- The ticket counters count the claims: `head_` is the number of pushes that have claimed
a ticket, `tail_` the number of pops, both modulo `2 ^ 64`. -/
structure Alloc {T : Type} (N : Nat) (s : System T) : Prop where
  slots_len : s.queue.slots_.length = N
  head_eq : s.queue.head_ = s.calls.countP Call.pushClaimed % SIZE
  tail_eq : s.queue.tail_ = s.calls.countP Call.popClaimed % SIZE

/-- What one atomic step does to the ticket counters and to the number of claims. -/
structure AllocStep {T : Type} (s s' : System T) (i : Nat) : Prop where
  push_claim :
    (s'.calls.countP Call.pushClaimed = s.calls.countP Call.pushClaimed ∧
      s'.queue.head_ = s.queue.head_ ∧ pushClaim s s' i = []) ∨
    (s'.calls.countP Call.pushClaimed = s.calls.countP Call.pushClaimed + 1 ∧
      s'.queue.head_ = (s.queue.head_ + 1) % SIZE ∧ pushClaim s s' i = [s.queue.head_])
  pop_claim :
    (s'.calls.countP Call.popClaimed = s.calls.countP Call.popClaimed ∧
      s'.queue.tail_ = s.queue.tail_ ∧ popClaim s s' i = []) ∨
    (s'.calls.countP Call.popClaimed = s.calls.countP Call.popClaimed + 1 ∧
      s'.queue.tail_ = (s.queue.tail_ + 1) % SIZE ∧ popClaim s s' i = [s.queue.tail_])

/-! ## Calls run one at a time, and the list they refine -/

/-- One call run alone to completion: the four atomic steps of `op` on `q` with no other
call running.  The result is the queue the call leaves and the `val` it returns (a push
returns none).  `none` when the call does not return: it found its wait condition false,
and with no other call running it finds it false for ever. -/
def MPMCSimpleQueue.call {T : Type} (N : Nat) (q : MPMCSimpleQueue T) (op : Op T) :
    Option (MPMCSimpleQueue T × Option T) :=
  match run N { queue := q, calls := [op.start] } [0, 0, 0, 0] with
  | some s =>
      match s.calls with
      | [.pushDone _ _] => some (s.queue, none)
      | [.popDone _ r] => some (s.queue, r)
      | _ => none
  | none => none

/-- The calls `ops` run one at a time, each to completion, and what they return. -/
def MPMCSimpleQueue.callAll {T : Type} (N : Nat) :
    MPMCSimpleQueue T → List (Op T) → Option (MPMCSimpleQueue T × List (Option T))
  | q, [] => some (q, [])
  | q, op :: ops =>
      match q.call N op with
      | none => none
      | some (q', r) => (MPMCSimpleQueue.callAll N q' ops).map (fun qr => (qr.1, r :: qr.2))

/-- Abstract content of the queue: the storage of the slots of the tickets
`tail_, tail_ + 1, ..., head_ - 1` (in `size_t` arithmetic). -/
def MPMCSimpleQueue.content {T : Type} (N : Nat) (q : MPMCSimpleQueue T) : List (Option T) :=
  (List.range ((q.head_ + SIZE - q.tail_) % SIZE)).map
    (fun i => (q.slots_[((q.tail_ + i) % SIZE) &&& Divisor N]?).bind Slot.storage)

/-- Specification of a call on a FIFO list of capacity `N`: `push(v)` can complete iff fewer
than `N` values are held and then appends `v`; `pop` can complete iff a value is held and
then removes and returns the first. -/
def BoundedFifo.call {T : Type} (N : Nat) (l : List T) : Op T → Option (List T × Option T)
  | .push v => if l.length < N then some (l ++ [v], none) else none
  | .pop =>
      match l with
      | [] => none
      | x :: l' => some (l', some x)

/-- Specification of a sequence of calls on a FIFO list of capacity `N`. -/
def BoundedFifo.callAll {T : Type} (N : Nat) :
    List T → List (Op T) → Option (List T × List (Option T))
  | l, [] => some (l, [])
  | l, op :: ops =>
      match BoundedFifo.call N l op with
      | none => none
      | some (l', r) => (BoundedFifo.callAll N l' ops).map (fun lr => (lr.1, r :: lr.2))

/-- Simulation relation between the queue and the list `l` it holds, `a` pops having
returned: the counters are `a` and `a + |l|` modulo `2 ^ 64`, the slots of the tickets
`a, ..., a + |l| - 1` are readable and hold the values of `l`, the slots of the tickets
`a + |l|, ..., a + N - 1` are writable. -/
structure Holds {T : Type} (N : Nat) (q : MPMCSimpleQueue T) (l : List T) (a : Nat) : Prop where
  slots_len : q.slots_.length = N
  tail_eq : q.tail_ = a % SIZE
  head_eq : q.head_ = (a + l.length) % SIZE
  len_le : l.length ≤ N
  slot : ∀ p, a ≤ p → p < a + N → ∃ sl : Slot T, q.slots_[p % N]? = some sl ∧
    if p < a + l.length then sl.turn = (p + 1) % SIZE ∧ sl.storage = l[p - a]?
    else sl.turn = p % SIZE

/-- A call that goes round its loop when run alone never returns. -/
def NeverReturns {T : Type} (N : Nat) (q : MPMCSimpleQueue T) (op : Op T) : Prop :=
  ∀ n, ∃ s, run N { queue := q, calls := [op.start] } (List.replicate n 0) = some s ∧
    ∀ c ∈ s.calls, c.isDone = false

/-! ## The demonstration harness `test_mpmc_integrity` (test.cpp) -/

/-- `const size_t capacity = 1024` (test.cpp:28). -/
def capacity : Nat := 1024

/-- `const int num_producers = 5` (test.cpp:29). -/
def num_producers : Nat := 5

/-- `const int num_consumers = 5` (test.cpp:30). -/
def num_consumers : Nat := 5

/-- `const int total_items = 1000000` (test.cpp:31). -/
def total_items : Int := 1000000

/-- `const int items_per_producer = total_items/num_producers` (test.cpp:32). -/
def items_per_producer : Int := total_items / num_producers

/-- Value of an `int` after an atomic addition: two's complement, 32 bits. -/
def wrapInt (x : Int) : Int := (x + 2 ^ 31) % 2 ^ 32 - 2 ^ 31

/-- Program counter and locals of a consumer thread (the lambda of test.cpp:46-60). -/
inductive Consumer where
  /-- At the top of `while (true)`, before `items_popped.fetch_add(1)` (line 50). -/
  | loop (local_results : List (Option Int))
  /-- The `fetch_add` returned `current_count < total_items`; inside `queue.pop(val)`
  (line 54). -/
  | pop (current_count : Int) (call : Call Int) (local_results : List (Option Int))
  /-- Left the loop through `break` (line 51), before the merge under the lock
  (lines 58-59). -/
  | merge (current_count : Int) (local_results : List (Option Int))
  /-- The lambda has returned. -/
  | done (current_count : Int) (local_results : List (Option Int))
deriving DecidableEq, Repr

/-- Program counter and locals of a producer thread (the lambda of test.cpp:66-71). -/
inductive Producer where
  /-- At the test `j < items_per_producer` of the `for` (line 68). -/
  | loop (j : Int)
  /-- Inside `queue.push(start + j)` (line 69). -/
  | push (j : Int) (call : Call Int)
  /-- The lambda has returned. -/
  | done
deriving DecidableEq, Repr

/-- The threads of the test. -/
inductive Thread where
  | consumer (i : Nat)
  | producer (i : Nat)
deriving DecidableEq, Repr

/-- Shared objects of `test_mpmc_integrity` and the state of its threads. -/
structure TestState where
  queue : MPMCSimpleQueue Int
  results : List (Option Int)
  items_popped : Int
  consumers : List Consumer
  producers : List Producer
deriving DecidableEq, Repr

/-- State of `test_mpmc_integrity` (test.cpp:27-76) once its objects are constructed and its
threads launched, none of which has taken a step. -/
def test_mpmc_integrity : TestState :=
  { queue := MPMCSimpleQueue.new Int capacity,
    results := [],
    items_popped := 0,
    consumers := List.replicate num_consumers (.loop []),
    producers := List.replicate num_producers (.loop 0) }

/-- One atomic step of a consumer thread (test.cpp:48-59). -/
def TestState.consumerStep (s : TestState) (i : Nat) : Consumer → Option TestState
  | .loop local_results =>
      -- int current_count = items_popped.fetch_add(1);
      -- if (current_count >= total_items) break;
      some { s with
        items_popped := wrapInt (s.items_popped + 1),
        consumers := s.consumers.set i
          (if s.items_popped ≥ total_items then .merge s.items_popped local_results
           else .pop s.items_popped .popIdle local_results) }
  | .pop _ (.popDone _ val) local_results =>
      -- local_results.push_back(val);
      some { s with consumers := s.consumers.set i (.loop (local_results ++ [val])) }
  | .pop current_count call local_results =>
      -- queue.pop(val);
      (s.queue.pop capacity call).map (fun (qc : MPMCSimpleQueue Int × Call Int) =>
        { s with queue := qc.1,
                 consumers := s.consumers.set i (.pop current_count qc.2 local_results) })
  | .merge current_count local_results =>
      -- std::lock_guard lock(results_mutex); results.insert(results.end(), ...);
      some { s with results := s.results ++ local_results,
                    consumers := s.consumers.set i (.done current_count local_results) }
  | .done _ _ => some s

/-- One atomic step of producer thread `i` (test.cpp:67-70). -/
def TestState.producerStep (s : TestState) (i : Nat) : Producer → Option TestState
  | .loop j =>
      -- int start = i * items_per_producer; for (...; j < items_per_producer; ++j)
      some { s with
        producers := s.producers.set i
          (if j < items_per_producer then .push j (.pushIdle (i * items_per_producer + j))
           else .done) }
  | .push j (.pushDone _ _) =>
      -- ++j
      some { s with producers := s.producers.set i (.loop (j + 1)) }
  | .push j call =>
      -- queue.push(start + j);
      (s.queue.push capacity call).map (fun (qc : MPMCSimpleQueue Int × Call Int) =>
        { s with queue := qc.1, producers := s.producers.set i (.push j qc.2) })
  | .done => some s

/-- One atomic step of a thread; a thread that does not exist does nothing. -/
def TestState.step (s : TestState) : Thread → Option TestState
  | .consumer i =>
      match s.consumers[i]? with
      | none => some s
      | some c => s.consumerStep i c
  | .producer i =>
      match s.producers[i]? with
      | none => some s
      | some p => s.producerStep i p

/-- Execution of a schedule of the threads. -/
def TestState.run (s : TestState) : List Thread → Option TestState
  | [] => some s
  | t :: sched => (s.step t).bind (fun s' => s'.run sched)

/-- The consumer has left its loop. -/
def Consumer.exited : Consumer → Bool
  | .merge _ _ => true
  | .done _ _ => true
  | _ => false

/-- Number of calls of `queue.pop` the consumer has made. -/
def Consumer.popCalls : Consumer → Nat
  | .loop local_results => local_results.length
  | .pop _ _ local_results => local_results.length + 1
  | .merge _ local_results => local_results.length
  | .done _ local_results => local_results.length

/-- Number of calls of `queue.pop` the consumers have made in total. -/
def TestState.popCalls (s : TestState) : Nat := (s.consumers.map Consumer.popCalls).sum

/-- What the locals of a consumer say about the counter `items_popped`: inside `pop` the
count it received is below `total_items`; out of the loop the count it received is at least
`total_items`. -/
def Consumer.ok (items_popped : Int) : Consumer → Prop
  | .loop _ => True
  | .pop current_count _ _ =>
      0 ≤ current_count ∧ current_count < total_items ∧ current_count < items_popped
  | .merge current_count _ => total_items ≤ current_count ∧ current_count < items_popped
  | .done current_count _ => total_items ≤ current_count ∧ current_count < items_popped

/-- Invariant of the executions of the test. -/
structure TestInv (s : TestState) : Prop where
  slots_len : s.queue.slots_.length = capacity
  cons_len : s.consumers.length = num_consumers
  popped_nonneg : 0 ≤ s.items_popped
  popped_le : s.items_popped ≤ total_items + s.consumers.countP Consumer.exited
  pops : (s.popCalls : Int) = min s.items_popped total_items
  ok : ∀ c ∈ s.consumers, c.ok s.items_popped

/-! ## Progress: published turns and pending calls -/

/-- Each published turn stays in its slot until the call it lets through has left its wait loop:
the turn `t + 1` of a returned push until the pop holding `t` has, the turn `t + N` of a
returned pop until the push holding `t + N` has, the turn `j` of the constructor until the
push holding `j` has. -/
structure Handoff {T : Type} (N : Nat) (s : System T) : Prop where
  push_done : ∀ (t : Nat) (v : T), Call.pushDone t v ∈ s.calls →
    (∃ sl : Slot T, s.queue.slots_[t % N]? = some sl ∧ sl.turn = (t + 1) % SIZE) ∨
    (∃ c ∈ s.calls, c.popPassed = some t)
  pop_done : ∀ (t : Nat) (r : Option T), Call.popDone t r ∈ s.calls →
    (∃ sl : Slot T, s.queue.slots_[t % N]? = some sl ∧ sl.turn = (t + N) % SIZE) ∨
    (∃ c ∈ s.calls, c.pushPassed = some (t + N))
  initial : ∀ j, j < N →
    (∃ sl : Slot T, s.queue.slots_[j]? = some sl ∧ sl.turn = j) ∨
    (∃ c ∈ s.calls, c.pushPassed = some j)

/-- A pending call: it has claimed its ticket and has not returned. -/
def Call.pending {T : Type} (c : Call T) : Bool :=
  (c.pushClaimed || c.popClaimed) && !c.isDone

/-! ## Element types with a destructive move

`MPMCSimpleQueue` is a template over the element type `T`.  What the move assignment of
mpmc.hpp:67 leaves in the cell depends on `T`; `MPMCSimpleQueue.popMove` takes it as the
argument `moved`, and `MPMCSimpleQueue.pop` is the case of a `T` that a move leaves
unchanged (`popMove_id`). -/

/-- One atomic step of a call of `pop(T& val)` (mpmc.hpp:52-72) for any element type `T`:
the queue and the call after the step.  A call that finds `slot.turn != ticket+1` goes
round its loop.  `moved v` is what the move assignment `val = std::move(slot.storage)` of
line 67 leaves in a cell that held `v`: `v` itself for a trivially copyable type such as
`int`, the emptied value for a type with a destructive move such as `std::vector`.  The
call receives the content the cell had. -/
def MPMCSimpleQueue.popMove {T : Type} (moved : T → T) (N : Nat) (q : MPMCSimpleQueue T) :
    Call T → Option (MPMCSimpleQueue T × Call T)
  | .popIdle =>
      -- size_t ticket = tail_.fetch_add(1); Slot& slot = slots_[ticket&Divisor]
      match q.slots_[q.tail_ &&& Divisor N]? with
      | none => none
      | some _ => some ({ q with tail_ := (q.tail_ + 1) % SIZE }, .popWait q.tail_)
  | .popWait t =>
      -- while (slot.turn.load() != ticket+1) yield
      match q.slots_[t &&& Divisor N]? with
      | none => none
      | some slot =>
          if slot.turn = (t + 1) % SIZE then some (q, .popLoad t) else some (q, .popWait t)
  | .popLoad t =>
      -- val = std::move(slot.storage)
      match q.slots_[t &&& Divisor N]? with
      | none => none
      | some slot =>
          some ({ q with
                  slots_ := q.slots_.set (t &&& Divisor N)
                    { slot with storage := slot.storage.map moved } },
                .popPublish t slot.storage)
  | .popPublish t r =>
      -- slot.turn.store(ticket + N)
      match q.slots_[t &&& Divisor N]? with
      | none => none
      | some slot =>
          some ({ q with
                  slots_ := q.slots_.set (t &&& Divisor N) { slot with turn := (t + N) % SIZE } },
                .popDone t r)
  | c => some (q, c)

/-- One atomic step of call `i` for an element type whose move leaves `moved v` behind. -/
def stepMove {T : Type} (moved : T → T) (N : Nat) (s : System T) (i : Nat) :
    Option (System T) :=
  match s.calls[i]? with
  | none => some s
  | some c =>
      (match c.op with
        | .push _ => s.queue.push N c
        | .pop => s.queue.popMove moved N c).map
        (fun (qc : MPMCSimpleQueue T × Call T) => { queue := qc.1, calls := s.calls.set i qc.2 })

/-- Execution of a schedule for an element type whose move leaves `moved v` behind. -/
def runMove {T : Type} (moved : T → T) (N : Nat) (s : System T) : List Nat → Option (System T)
  | [] => some s
  | i :: sched => (stepMove moved N s i).bind (fun s' => runMove moved N s' sched)

/-! ## The queue with its values forgotten -/

/-- The call with its values forgotten: which step it is at and which ticket it holds. -/
def Call.erase {T : Type} : Call T → Call Unit
  | .pushIdle _ => .pushIdle ()
  | .pushWait t _ => .pushWait t ()
  | .pushStore t _ => .pushStore t ()
  | .pushPublish t _ => .pushPublish t ()
  | .pushDone t _ => .pushDone t ()
  | .popIdle => .popIdle
  | .popWait t => .popWait t
  | .popLoad t => .popLoad t
  | .popPublish t r => .popPublish t (r.map (fun _ => ()))
  | .popDone t r => .popDone t (r.map (fun _ => ()))

/-- The slot with its value forgotten: its turn, and whether it was ever assigned. -/
def Slot.erase {T : Type} (sl : Slot T) : Slot Unit :=
  { turn := sl.turn, storage := sl.storage.map (fun _ => ()) }

/-- The queue with its values forgotten. -/
def MPMCSimpleQueue.erase {T : Type} (q : MPMCSimpleQueue T) : MPMCSimpleQueue Unit :=
  { slots_ := q.slots_.map Slot.erase, head_ := q.head_, tail_ := q.tail_ }

/-- The queue and the calls with their values forgotten. -/
def System.erase {T : Type} (s : System T) : System Unit :=
  { queue := s.queue.erase, calls := s.calls.map Call.erase }

/-- The operation with its value forgotten. -/
def Op.erase {T : Type} : Op T → Op Unit
  | .push _ => .push ()
  | .pop => .pop

/-! ## Executions for two element types, side by side -/

/-- The storage of slot `j` (whose turn is `turn`) is live: it holds a value that a pop is
still to read.  Either a push has stored and not yet published, or the slot is readable and
no pop has read it yet. -/
def Live {T : Type} (N : Nat) (calls : List (Call T)) (j turn : Nat) : Prop :=
  (turn % N ≠ j ∧ ∀ (t : Nat) (r : Option T), Call.popPublish t r ∈ calls → t % N ≠ j) ∨
  (∃ (t : Nat) (v : T), Call.pushPublish t v ∈ calls ∧ t % N = j)

/-- The execution `g` for an element type with any move against the execution `c` of the
same schedule for an element type that a move leaves unchanged: the same calls, counters
and turns, and the same storage wherever it is live. -/
structure Sim {T : Type} (N : Nat) (g c : System T) : Prop where
  calls_eq : g.calls = c.calls
  head_eq : g.queue.head_ = c.queue.head_
  tail_eq : g.queue.tail_ = c.queue.tail_
  slots_len : g.queue.slots_.length = N
  slot : ∀ (j : Nat) (slg slc : Slot T), g.queue.slots_[j]? = some slg →
    c.queue.slots_[j]? = some slc →
    slg.turn = slc.turn ∧ (Live N c.calls j slc.turn → slg.storage = slc.storage)

/-! ## Arithmetic of `size_t` and of the slot index -/

theorem SIZE_pos : 0 < SIZE := by decide

theorem two_pow_lt_SIZE {k : Nat} (hk : k < 64) : 2 ^ k < SIZE := by
  unfold SIZE
  exact Nat.pow_lt_pow_right (by decide) hk

theorem two_pow_dvd_SIZE {k : Nat} (hk : k < 64) : 2 ^ k ∣ SIZE := by
  unfold SIZE
  exact Nat.pow_dvd_pow 2 (Nat.le_of_lt hk)

theorem Divisor_two_pow {k : Nat} (hk : k < 64) : Divisor (2 ^ k) = 2 ^ k - 1 := by
  have h1 : 0 < 2 ^ k := Nat.pow_pos (by decide)
  have h2 := two_pow_lt_SIZE hk
  unfold Divisor
  have : 2 ^ k + SIZE - 1 = (2 ^ k - 1) + SIZE := by omega
  rw [this, Nat.add_mod_right, Nat.mod_eq_of_lt (by omega)]

theorem and_Divisor {k : Nat} (hk : k < 64) (t : Nat) : t &&& Divisor (2 ^ k) = t % 2 ^ k := by
  rw [Divisor_two_pow hk, Nat.and_pow_two_sub_one_eq_mod]

theorem mod_SIZE_mod {k : Nat} (hk : k < 64) (x : Nat) : x % SIZE % 2 ^ k = x % 2 ^ k :=
  Nat.mod_mod_of_dvd x (two_pow_dvd_SIZE hk)

theorem storeTurn_slots {T : Type} (q : MPMCSimpleQueue T) (i v j : Nat) :
    (q.storeTurn i v).slots_[j]? =
      (q.slots_[j]?).map (fun sl => if i = j then { sl with turn := v } else sl) := by
  simp [MPMCSimpleQueue.storeTurn, List.getElem?_modify]

theorem foldl_storeTurn_slots {T : Type} (n : Nat) (q : MPMCSimpleQueue T) (j : Nat) :
    ((List.range n).foldl (fun q i => q.storeTurn i i) q).slots_[j]? =
      (q.slots_[j]?).map (fun sl => if j < n then { sl with turn := j } else sl) := by
  induction n with
  | zero => simp
  | succ n ih =>
    rw [List.range_succ, List.foldl_append, List.foldl_cons, List.foldl_nil, storeTurn_slots, ih]
    cases q.slots_[j]? with
    | none => simp
    | some sl =>
      by_cases h1 : n = j
      · subst h1; simp
      · by_cases h2 : j < n
        · simp [h1, h2, Nat.lt_succ_of_lt h2]
        · have : ¬ j < n + 1 := by omega
          simp [h1, h2, this]

theorem foldl_storeTurn_head {T : Type} (n : Nat) (q : MPMCSimpleQueue T) :
    ((List.range n).foldl (fun q i => q.storeTurn i i) q).head_ = q.head_ ∧
    ((List.range n).foldl (fun q i => q.storeTurn i i) q).tail_ = q.tail_ := by
  induction n with
  | zero => simp
  | succ n ih =>
    rw [List.range_succ, List.foldl_append]
    simpa [MPMCSimpleQueue.storeTurn] using ih

theorem new_eq {T : Type} (N : Nat) :
    MPMCSimpleQueue.new T N =
      { slots_ := (List.range N).map (fun i => { turn := i, storage := none }),
        head_ := 0, tail_ := 0 } := by
  have hh := foldl_storeTurn_head (T := T) N (MPMCSimpleQueue.default T N)
  have hs : (MPMCSimpleQueue.new T N).slots_ =
      (List.range N).map (fun i => { turn := i, storage := none }) := by
    apply List.ext_getElem?
    intro j
    unfold MPMCSimpleQueue.new
    rw [foldl_storeTurn_slots]
    simp only [MPMCSimpleQueue.default, List.getElem?_replicate, List.getElem?_map]
    by_cases h : j < N
    · simp [h, List.getElem?_range h]
    · simp [h, List.getElem?_eq_none (l := List.range N) (by simpa using Nat.le_of_not_lt h)]
  unfold MPMCSimpleQueue.new at hs hh ⊢
  cases hq : (List.foldl (fun q i => q.storeTurn i i) (MPMCSimpleQueue.default T N)
      (List.range N)) with
  | mk a b c =>
    rw [hq] at hs hh
    simp only [MPMCSimpleQueue.default] at hh
    simp only at hs
    simp [hs, hh.1, hh.2]

/-! ### Lists: replacing one element -/

theorem mem_set_of_ne {α : Type} {l : List α} {i : Nat} {old c d : α}
    (h : l[i]? = some old) (hd : d ∈ l) (hne : d ≠ old) : d ∈ l.set i c := by
  obtain ⟨n, hn⟩ := List.mem_iff_getElem?.1 hd
  have hni : i ≠ n := by
    rintro rfl
    rw [h] at hn
    exact hne (Option.some.inj hn).symm
  exact List.mem_iff_getElem?.2 ⟨n, by rw [List.getElem?_set_ne hni]; exact hn⟩

theorem mem_set_new {α : Type} {l : List α} {i : Nat} {old c : α}
    (h : l[i]? = some old) : c ∈ l.set i c := by
  obtain ⟨hi, _⟩ := List.getElem?_eq_some.1 h
  exact List.mem_iff_getElem?.2 ⟨i, by simp [List.getElem?_set, hi]⟩

theorem mem_of_getElem? {α : Type} {l : List α} {i : Nat} {a : α} (h : l[i]? = some a) :
    a ∈ l :=
  List.mem_iff_getElem?.2 ⟨i, h⟩

theorem countP_set_same {α : Type} (p : α → Bool) {l : List α} {i : Nat} {old c : α}
    (h : l[i]? = some old) (hp : p c = p old) : (l.set i c).countP p = l.countP p := by
  induction l generalizing i with
  | nil => simp
  | cons a l ih =>
    cases i with
    | zero =>
      simp only [List.getElem?_cons_zero, Option.some.injEq] at h
      subst h
      simp [List.countP_cons, hp]
    | succ i =>
      simp only [List.getElem?_cons_succ] at h
      simp [List.countP_cons, ih h]

theorem countP_set_new {α : Type} (p : α → Bool) {l : List α} {i : Nat} {old c : α}
    (h : l[i]? = some old) (hold : p old = false) (hc : p c = true) :
    (l.set i c).countP p = l.countP p + 1 := by
  induction l generalizing i with
  | nil => simp at h
  | cons a l ih =>
    cases i with
    | zero =>
      simp only [List.getElem?_cons_zero, Option.some.injEq] at h
      subst h
      simp [List.countP_cons, hold, hc]
    | succ i =>
      simp only [List.getElem?_cons_succ] at h
      simp only [List.set_cons_succ, List.countP_cons, ih h]
      omega

/-! ### The atomic steps, one equation each -/

section steps
variable {T : Type} {N : Nat} {s : System T} {i : Nat}

theorem set_same {α : Type} {l : List α} {i : Nat} {a : α} (h : l[i]? = some a) :
    l.set i a = l := by
  apply List.ext_getElem?
  intro n
  rw [List.getElem?_set]
  split
  · rename_i hin
    subst hin
    rw [h, if_pos (List.getElem?_eq_some.1 h).1]
  · rfl

theorem step_none (h : s.calls[i]? = none) : step N s i = some s := by
  simp [step, h]

theorem step_pushIdle {v : T} {sl : Slot T} (h : s.calls[i]? = some (.pushIdle v))
    (hsl : s.queue.slots_[s.queue.head_ &&& Divisor N]? = some sl) :
    step N s i = some { queue := { s.queue with head_ := (s.queue.head_ + 1) % SIZE },
                        calls := s.calls.set i (.pushWait s.queue.head_ v) } := by
  simp [step, h, Call.op, MPMCSimpleQueue.push, hsl]

theorem step_pushWait {t : Nat} {v : T} {sl : Slot T} (h : s.calls[i]? = some (.pushWait t v))
    (hsl : s.queue.slots_[t &&& Divisor N]? = some sl) :
    step N s i = some (if sl.turn = t then { s with calls := s.calls.set i (.pushStore t v) }
                       else s) := by
  simp only [step, h, Call.op, MPMCSimpleQueue.push, hsl]
  split
  · rfl
  · simp [set_same h]

theorem step_pushStore {t : Nat} {v : T} {sl : Slot T} (h : s.calls[i]? = some (.pushStore t v))
    (hsl : s.queue.slots_[t &&& Divisor N]? = some sl) :
    step N s i = some { queue := { s.queue with
                          slots_ := s.queue.slots_.set (t &&& Divisor N)
                            { sl with storage := some v } },
                        calls := s.calls.set i (.pushPublish t v) } := by
  simp [step, h, Call.op, MPMCSimpleQueue.push, hsl]

theorem step_pushPublish {t : Nat} {v : T} {sl : Slot T}
    (h : s.calls[i]? = some (.pushPublish t v))
    (hsl : s.queue.slots_[t &&& Divisor N]? = some sl) :
    step N s i = some { queue := { s.queue with
                          slots_ := s.queue.slots_.set (t &&& Divisor N)
                            { sl with turn := (t + 1) % SIZE } },
                        calls := s.calls.set i (.pushDone t v) } := by
  simp [step, h, Call.op, MPMCSimpleQueue.push, hsl]

theorem step_pushDone {t : Nat} {v : T} (h : s.calls[i]? = some (.pushDone t v)) :
    step N s i = some s := by
  simp [step, h, Call.op, MPMCSimpleQueue.push, set_same h]

theorem step_popIdle {sl : Slot T} (h : s.calls[i]? = some .popIdle)
    (hsl : s.queue.slots_[s.queue.tail_ &&& Divisor N]? = some sl) :
    step N s i = some { queue := { s.queue with tail_ := (s.queue.tail_ + 1) % SIZE },
                        calls := s.calls.set i (.popWait s.queue.tail_) } := by
  simp [step, h, Call.op, MPMCSimpleQueue.pop, hsl]

theorem step_popWait {t : Nat} {sl : Slot T} (h : s.calls[i]? = some (.popWait t))
    (hsl : s.queue.slots_[t &&& Divisor N]? = some sl) :
    step N s i = some (if sl.turn = (t + 1) % SIZE
                       then { s with calls := s.calls.set i (.popLoad t) } else s) := by
  simp only [step, h, Call.op, MPMCSimpleQueue.pop, hsl]
  split
  · rfl
  · simp [set_same h]

theorem step_popLoad {t : Nat} {sl : Slot T} (h : s.calls[i]? = some (.popLoad t))
    (hsl : s.queue.slots_[t &&& Divisor N]? = some sl) :
    step N s i = some { s with calls := s.calls.set i (.popPublish t sl.storage) } := by
  simp [step, h, Call.op, MPMCSimpleQueue.pop, hsl]

theorem step_popPublish {t : Nat} {r : Option T} {sl : Slot T}
    (h : s.calls[i]? = some (.popPublish t r))
    (hsl : s.queue.slots_[t &&& Divisor N]? = some sl) :
    step N s i = some { queue := { s.queue with
                          slots_ := s.queue.slots_.set (t &&& Divisor N)
                            { sl with turn := (t + N) % SIZE } },
                        calls := s.calls.set i (.popDone t r) } := by
  simp [step, h, Call.op, MPMCSimpleQueue.pop, hsl]

theorem step_popDone {t : Nat} {r : Option T} (h : s.calls[i]? = some (.popDone t r)) :
    step N s i = some s := by
  simp [step, h, Call.op, MPMCSimpleQueue.pop, set_same h]

end steps

theorem run_append {T : Type} (N : Nat) (s : System T) (a b : List Nat) :
    run N s (a ++ b) = (run N s a).bind (fun s' => run N s' b) := by
  induction a generalizing s with
  | nil => simp [run]
  | cons i a ih =>
    simp only [List.cons_append, run]
    cases step N s i with
    | none => simp
    | some s1 => simp [ih]

theorem two_pow_of_and_pred {N : Nat} (h1 : 1 ≤ N) (h : N &&& (N - 1) = 0) :
    ∃ k, N = 2 ^ k := by
  induction N using Nat.strong_induction_on with
  | _ N ih =>
    have hdiv : N / 2 &&& (N - 1) / 2 = 0 := by
      rw [← Nat.and_div_two, h]
    rcases Nat.mod_two_eq_zero_or_one N with h0 | h0
    · have hm : 1 ≤ N / 2 := by omega
      have hpred : (N - 1) / 2 = N / 2 - 1 := by omega
      rw [hpred] at hdiv
      obtain ⟨j, hj⟩ := ih (N / 2) (by omega) hm hdiv
      exact ⟨j + 1, by rw [Nat.pow_succ, ← hj]; omega⟩
    · have hpred : (N - 1) / 2 = N / 2 := by omega
      rw [hpred, Nat.and_self] at hdiv
      exact ⟨0, by simp; omega⟩

/-- The constraint `Power2<N>` holds for `N = 0` and for the powers of two, and for no
other `size_t` value. -/
theorem Power2_iff {N : Nat} (hN : N < SIZE) :
    Power2 N = true ↔ N = 0 ∨ ∃ k, k < 64 ∧ N = 2 ^ k := by
  constructor
  · intro h
    by_cases h0 : N = 0
    · exact Or.inl h0
    · right
      have hd : (N + SIZE - 1) % SIZE = N - 1 := by
        have : N + SIZE - 1 = (N - 1) + SIZE := by omega
        rw [this, Nat.add_mod_right, Nat.mod_eq_of_lt (by omega)]
      simp only [Power2, hd, beq_iff_eq] at h
      obtain ⟨k, hk⟩ := two_pow_of_and_pred (by omega) h
      refine ⟨k, ?_, hk⟩
      by_contra hk64
      have : 2 ^ 64 ≤ 2 ^ k := Nat.pow_le_pow_right (by decide) (by omega)
      unfold SIZE at hN
      omega
  · rintro (rfl | ⟨k, hk, rfl⟩)
    · decide
    · have h := and_Divisor hk (2 ^ k)
      rw [Nat.mod_self] at h
      simp only [Power2, beq_iff_eq]
      exact h

section inv
variable {T : Type}

theorem TurnSrc.mono {N : Nat} {calls calls' : List (Call T)} {j x : Nat}
    (h : ∀ d ∈ calls, d.isDone = true → d ∈ calls') (hx : TurnSrc N calls j x) :
    TurnSrc N calls' j x := by
  rcases hx with hx | ⟨t, v, hm, hx⟩ | ⟨t, r, hm, hx⟩
  · exact Or.inl hx
  · exact Or.inr (Or.inl ⟨t, v, h _ hm rfl, hx⟩)
  · exact Or.inr (Or.inr ⟨t, r, h _ hm rfl, hx⟩)

theorem done_mem_set {calls : List (Call T)} {i : Nat} {old c : Call T}
    (hc : calls[i]? = some old) (hold : old.isDone = false) :
    ∀ d ∈ calls, d.isDone = true → d ∈ calls.set i c := by
  intro d hd hdone
  refine mem_set_of_ne hc hd ?_
  rintro rfl
  rw [hold] at hdone
  exact Bool.noConfusion hdone

theorem Inv_fresh (N : Nat) (ops : List (Op T)) : Inv N ops (System.fresh N ops) := by
  have hstart : ∀ c ∈ ops.map Op.start,
      c = Call.popIdle ∨ ∃ v : T, c = Call.pushIdle v := by
    intro c hc
    obtain ⟨o, _, rfl⟩ := List.mem_map.1 hc
    cases o with
    | push v => exact Or.inr ⟨v, rfl⟩
    | pop => exact Or.inl rfl
  have hslot : ∀ (j : Nat) (sl : Slot T), (MPMCSimpleQueue.new T N).slots_[j]? = some sl →
      sl.turn = j ∧ sl.storage = none := by
    intro j sl h
    rw [new_eq] at h
    simp only [List.getElem?_map] at h
    by_cases hj : j < N
    · rw [List.getElem?_range hj] at h
      simp only [Option.map_some', Option.some.injEq] at h
      subst h
      exact ⟨rfl, rfl⟩
    · rw [List.getElem?_eq_none (by simpa using Nat.le_of_not_lt hj)] at h
      simp at h
  have hnone : ∀ c ∈ ops.map Op.start, c.pushTicket = none ∧ c.popTicket = none ∧
      c.popPassed = none ∧ c.popResult = none ∧ c.popClaimed = false ∧
      (∀ t v, c ≠ .pushPublish t v ∧ c ≠ .pushDone t v) := by
    intro c hc
    rcases hstart c hc with rfl | ⟨v, rfl⟩ <;>
      simp [Call.pushTicket, Call.popTicket, Call.popPassed, Call.popResult, Call.popClaimed]
  refine
    { slots_len := ?_, calls_op := ?_, head_lt := ?_, tail_lt := ?_, push_ticket_lt := ?_,
      pop_ticket_lt := ?_, turn_src := ?_, pop_after_push := ?_, storage_src := ?_,
      result_src := ?_, stored := ?_, pop_count := ?_ }
  · simp [System.fresh, new_eq]
  · simp only [System.fresh, List.map_map]
    have : (Call.op ∘ Op.start : Op T → Op T) = id := by
      funext o; cases o <;> rfl
    rw [this, List.map_id]
  · simp [System.fresh, new_eq, SIZE_pos]
  · simp [System.fresh, new_eq, SIZE_pos]
  · intro c hc t ht
    rw [(hnone c hc).1] at ht
    exact Option.noConfusion ht
  · intro c hc t ht
    rw [(hnone c hc).2.1] at ht
    exact Option.noConfusion ht
  · intro j sl h
    exact Or.inl (hslot j sl h).1
  · intro c hc t ht
    rw [(hnone c hc).2.2.1] at ht
    exact Option.noConfusion ht
  · intro j sl v h hv
    rw [(hslot j sl h).2] at hv
    exact Option.noConfusion hv
  · intro c hc r hr
    rw [(hnone c hc).2.2.2.1] at hr
    exact Option.noConfusion hr
  · intro c hc t v h
    rcases h with h | h
    · exact absurd h ((hnone c hc).2.2.2.2.2 t v).1
    · exact absurd h ((hnone c hc).2.2.2.2.2 t v).2
  · intro _
    constructor
    · have : (ops.map Op.start).countP Call.popClaimed = 0 := by
        rw [List.countP_eq_zero]
        intro c hc
        simp [(hnone c hc).2.2.2.2.1]
      simp [System.fresh, new_eq, this]
    · intro c hc t ht
      rw [(hnone c hc).2.1] at ht
      exact Option.noConfusion ht

end inv

section inv
variable {T : Type}

/-- Re-establishing the invariant after call `i` moved from `old` to `c` and the queue
became `q`. -/
theorem Inv_update {N : Nat} {ops : List (Op T)} {s : System T} {i : Nat} {old c : Call T}
    {q : MPMCSimpleQueue T} (hinv : Inv N ops s)
    (hc : s.calls[i]? = some old) (hold : old.isDone = false) (hop : c.op = old.op)
    (hlen : q.slots_.length = N) (hhead : q.head_ < SIZE) (htail : q.tail_ < SIZE)
    (hpush_lt : ∀ t, c.pushTicket = some t → t < SIZE)
    (hpop_lt : ∀ t, c.popTicket = some t → t < SIZE)
    (hturn : ∀ (j : Nat) (sl : Slot T), q.slots_[j]? = some sl →
      TurnSrc N (s.calls.set i c) j sl.turn)
    (hpap : ∀ t, c.popPassed = some t → ∃ v, Call.pushDone t v ∈ s.calls)
    (hstorage : ∀ (j : Nat) (sl : Slot T) (v : T), q.slots_[j]? = some sl →
      sl.storage = some v → Op.push v ∈ ops)
    (hres : ∀ r, c.popResult = some r → ∃ v, r = some v ∧ Op.push v ∈ ops)
    (hstored_new : ∀ t v, (c = .pushPublish t v ∨ c = .pushDone t v) →
      ∃ (sl : Slot T) (w : T), q.slots_[t % N]? = some sl ∧ sl.storage = some w)
    (hstored_old : ∀ (j : Nat) (sl : Slot T) (w : T), s.queue.slots_[j]? = some sl →
      sl.storage = some w → ∃ (sl' : Slot T) (w' : T), q.slots_[j]? = some sl' ∧
        sl'.storage = some w')
    (hcount : ops.length < SIZE →
      q.tail_ = (s.calls.set i c).countP Call.popClaimed ∧
      (∀ t, c.popTicket = some t → t < q.tail_) ∧ s.queue.tail_ ≤ q.tail_) :
    Inv N ops { queue := q, calls := s.calls.set i c } := by
  have hdone := done_mem_set (c := c) hc hold
  have hcases : ∀ d ∈ s.calls.set i c, d = c ∨ d ∈ s.calls := fun d hd =>
    (List.mem_or_eq_of_mem_set hd).symm
  refine
    { slots_len := hlen, calls_op := ?_, head_lt := hhead, tail_lt := htail,
      push_ticket_lt := ?_, pop_ticket_lt := ?_, turn_src := hturn, pop_after_push := ?_,
      storage_src := hstorage, result_src := ?_, stored := ?_, pop_count := ?_ }
  · show (s.calls.set i c).map Call.op = ops
    rw [List.map_set, hop, ← hinv.calls_op]
    apply List.ext_getElem?
    intro n
    rw [List.getElem?_set]
    split
    · rename_i h
      subst h
      obtain ⟨hi, hget⟩ := List.getElem?_eq_some.1 hc
      simp [List.getElem?_map, hi, hget]
    · rfl
  · intro d hd t ht
    rcases hcases d hd with rfl | hd
    · exact hpush_lt t ht
    · exact hinv.push_ticket_lt d hd t ht
  · intro d hd t ht
    rcases hcases d hd with rfl | hd
    · exact hpop_lt t ht
    · exact hinv.pop_ticket_lt d hd t ht
  · intro d hd t ht
    rcases hcases d hd with rfl | hd
    · obtain ⟨v, hv⟩ := hpap t ht
      exact ⟨v, hdone _ hv rfl⟩
    · obtain ⟨v, hv⟩ := hinv.pop_after_push d hd t ht
      exact ⟨v, hdone _ hv rfl⟩
  · intro d hd r hr
    rcases hcases d hd with rfl | hd
    · exact hres r hr
    · exact hinv.result_src d hd r hr
  · intro d hd t v h
    rcases hcases d hd with rfl | hd
    · exact hstored_new t v h
    · obtain ⟨sl, w, h1, h2⟩ := hinv.stored d hd t v h
      exact hstored_old _ sl w h1 h2
  · intro hb
    obtain ⟨h1, h2, h3⟩ := hcount hb
    refine ⟨h1, ?_⟩
    intro d hd t ht
    rcases hcases d hd with rfl | hd
    · exact h2 t ht
    · exact Nat.lt_of_lt_of_le ((hinv.pop_count hb).2 d hd t ht) h3

end inv

section inv
variable {T : Type}

theorem getElem?_set_cases {α : Type} {l : List α} {j n : Nat} {a b : α}
    (h : (l.set j a)[n]? = some b) : (n = j ∧ b = a) ∨ (n ≠ j ∧ l[n]? = some b) := by
  rw [List.getElem?_set] at h
  split at h
  · rename_i hjn
    split at h
    · exact Or.inl ⟨hjn.symm, (Option.some.inj h).symm⟩
    · exact Option.noConfusion h
  · rename_i hjn
    exact Or.inr ⟨fun e => hjn e.symm, h⟩

theorem succ_mod_ne {N : Nat} (hN : 2 ≤ N) (t : Nat) : (t + 1) % N ≠ t % N := by
  intro h
  have h1 : N ∣ (t + 1) - t := (Nat.modEq_iff_dvd' (Nat.le_succ t)).1 h.symm
  have h2 : (t + 1) - t = 1 := by omega
  rw [h2] at h1
  have := Nat.le_of_dvd (by decide) h1
  omega

theorem succ_mod_SIZE_inj {a b : Nat} (ha : a < SIZE) (hb : b < SIZE)
    (h : (a + 1) % SIZE = (b + 1) % SIZE) : a = b := by
  unfold SIZE at *
  omega

theorem slot_exists {k : Nat} (hk : k < 64) {ops : List (Op T)} {s : System T}
    (hinv : Inv (2 ^ k) ops s) (t : Nat) :
    ∃ sl, s.queue.slots_[t &&& Divisor (2 ^ k)]? = some sl := by
  have h : t &&& Divisor (2 ^ k) < s.queue.slots_.length := by
    rw [and_Divisor hk, hinv.slots_len]
    exact Nat.mod_lt _ (Nat.pow_pos (by decide))
  exact ⟨_, List.getElem?_eq_getElem h⟩

theorem Inv.op_mem {N : Nat} {ops : List (Op T)} {s : System T} (hinv : Inv N ops s)
    {c : Call T} (hc : c ∈ s.calls) : c.op ∈ ops := by
  rw [← hinv.calls_op]
  exact List.mem_map_of_mem _ hc

theorem Inv.calls_len {N : Nat} {ops : List (Op T)} {s : System T} (hinv : Inv N ops s) :
    s.calls.length = ops.length := by
  rw [← hinv.calls_op, List.length_map]

end inv

section inv
variable {T : Type} {k : Nat} {ops : List (Op T)} {s : System T} {i : Nat}

theorem Inv_pushIdle {v : T} (hinv : Inv (2 ^ k) ops s)
    (hc : s.calls[i]? = some (.pushIdle v)) :
    Inv (2 ^ k) ops { queue := { s.queue with head_ := (s.queue.head_ + 1) % SIZE },
                      calls := s.calls.set i (.pushWait s.queue.head_ v) } := by
  refine Inv_update hinv hc rfl rfl hinv.slots_len (Nat.mod_lt _ SIZE_pos) hinv.tail_lt ?_ ?_ ?_ ?_
    hinv.storage_src ?_ ?_ ?_ ?_
  · intro t ht
    simp only [Call.pushTicket, Option.some.injEq] at ht
    exact ht ▸ hinv.head_lt
  · intro t ht; simp [Call.popTicket] at ht
  · intro j sl h
    exact (hinv.turn_src j sl h).mono (done_mem_set hc rfl)
  · intro t ht; simp [Call.popPassed] at ht
  · intro r hr; simp [Call.popResult] at hr
  · intro t w h; simp at h
  · intro j sl w h1 h2; exact ⟨sl, w, h1, h2⟩
  · intro hb
    refine ⟨?_, ?_, Nat.le_refl _⟩
    · exact (hinv.pop_count hb).1.trans (countP_set_same Call.popClaimed hc (by rfl)).symm
    · intro t ht; simp [Call.popTicket] at ht

theorem Inv_pushWait {t : Nat} {v : T} (hinv : Inv (2 ^ k) ops s)
    (hc : s.calls[i]? = some (.pushWait t v)) :
    Inv (2 ^ k) ops { s with calls := s.calls.set i (.pushStore t v) } := by
  refine Inv_update hinv hc rfl rfl hinv.slots_len hinv.head_lt hinv.tail_lt ?_ ?_ ?_ ?_
    hinv.storage_src ?_ ?_ ?_ ?_
  · intro t' ht
    exact hinv.push_ticket_lt _ (mem_of_getElem? hc) t' ht
  · intro t ht; simp [Call.popTicket] at ht
  · intro j sl h
    exact (hinv.turn_src j sl h).mono (done_mem_set hc rfl)
  · intro t ht; simp [Call.popPassed] at ht
  · intro r hr; simp [Call.popResult] at hr
  · intro t w h; simp at h
  · intro j sl w h1 h2; exact ⟨sl, w, h1, h2⟩
  · intro hb
    refine ⟨?_, ?_, Nat.le_refl _⟩
    · exact (hinv.pop_count hb).1.trans (countP_set_same Call.popClaimed hc (by rfl)).symm
    · intro t ht; simp [Call.popTicket] at ht

theorem Inv_pushStore (hk : k < 64) {t : Nat} {v : T} {sl : Slot T} (hinv : Inv (2 ^ k) ops s)
    (hc : s.calls[i]? = some (.pushStore t v))
    (hsl : s.queue.slots_[t &&& Divisor (2 ^ k)]? = some sl) :
    Inv (2 ^ k) ops
      { queue := { s.queue with
          slots_ := s.queue.slots_.set (t &&& Divisor (2 ^ k)) { sl with storage := some v } },
        calls := s.calls.set i (.pushPublish t v) } := by
  have hj := (List.getElem?_eq_some.1 hsl).1
  refine Inv_update hinv hc rfl rfl (by simp [hinv.slots_len]) hinv.head_lt hinv.tail_lt
    ?_ ?_ ?_ ?_ ?_ ?_ ?_ ?_ ?_
  · intro t' ht
    exact hinv.push_ticket_lt _ (mem_of_getElem? hc) t' ht
  · intro t ht; simp [Call.popTicket] at ht
  · intro j sl' h
    refine TurnSrc.mono (done_mem_set hc rfl) ?_
    rcases getElem?_set_cases h with ⟨rfl, rfl⟩ | ⟨_, h'⟩
    · exact hinv.turn_src _ sl hsl
    · exact hinv.turn_src j sl' h'
  · intro t ht; simp [Call.popPassed] at ht
  · intro j sl' w h hw
    rcases getElem?_set_cases h with ⟨rfl, rfl⟩ | ⟨_, h'⟩
    · simp only [Option.some.injEq] at hw
      subst hw
      exact hinv.op_mem (mem_of_getElem? hc)
    · exact hinv.storage_src j sl' w h' hw
  · intro r hr; simp [Call.popResult] at hr
  · intro t' w h
    rcases h with h | h
    · cases h
      refine ⟨{ sl with storage := some v }, v, ?_, rfl⟩
      rw [← and_Divisor hk]
      exact List.getElem?_set_self hj
    · cases h
  · intro j sl' w h1 h2
    by_cases hjj : j = t &&& Divisor (2 ^ k)
    · subst hjj
      exact ⟨_, v, List.getElem?_set_self hj, rfl⟩
    · exact ⟨sl', w, by rw [List.getElem?_set_ne (Ne.symm hjj)]; exact h1, h2⟩
  · intro hb
    refine ⟨?_, ?_, Nat.le_refl _⟩
    · exact (hinv.pop_count hb).1.trans (countP_set_same Call.popClaimed hc (by rfl)).symm
    · intro t ht; simp [Call.popTicket] at ht

theorem Inv_pushPublish (hk : k < 64) {t : Nat} {v : T} {sl : Slot T}
    (hinv : Inv (2 ^ k) ops s) (hc : s.calls[i]? = some (.pushPublish t v))
    (hsl : s.queue.slots_[t &&& Divisor (2 ^ k)]? = some sl) :
    Inv (2 ^ k) ops
      { queue := { s.queue with
          slots_ := s.queue.slots_.set (t &&& Divisor (2 ^ k))
            { sl with turn := (t + 1) % SIZE } },
        calls := s.calls.set i (.pushDone t v) } := by
  have hj := (List.getElem?_eq_some.1 hsl).1
  have hold : ∀ (j : Nat) (sl' : Slot T) (w : T), s.queue.slots_[j]? = some sl' →
      sl'.storage = some w → ∃ (sl'' : Slot T) (w' : T),
        (s.queue.slots_.set (t &&& Divisor (2 ^ k)) { sl with turn := (t + 1) % SIZE })[j]? =
          some sl'' ∧ sl''.storage = some w' := by
    intro j sl' w h1 h2
    by_cases hjj : j = t &&& Divisor (2 ^ k)
    · subst hjj
      rw [hsl] at h1
      obtain rfl := Option.some.inj h1
      exact ⟨_, w, List.getElem?_set_self hj, h2⟩
    · exact ⟨sl', w, by rw [List.getElem?_set_ne (Ne.symm hjj)]; exact h1, h2⟩
  refine Inv_update hinv hc rfl rfl (by simp [hinv.slots_len]) hinv.head_lt hinv.tail_lt
    ?_ ?_ ?_ ?_ ?_ ?_ ?_ hold ?_
  · intro t' ht
    exact hinv.push_ticket_lt _ (mem_of_getElem? hc) t' ht
  · intro t ht; simp [Call.popTicket] at ht
  · intro j sl' h
    rcases getElem?_set_cases h with ⟨rfl, rfl⟩ | ⟨_, h'⟩
    · exact Or.inr (Or.inl ⟨t, v, mem_set_new hc, rfl, (and_Divisor hk t).symm⟩)
    · exact (hinv.turn_src j sl' h').mono (done_mem_set hc rfl)
  · intro t ht; simp [Call.popPassed] at ht
  · intro j sl' w h hw
    rcases getElem?_set_cases h with ⟨rfl, rfl⟩ | ⟨_, h'⟩
    · exact hinv.storage_src _ sl w hsl hw
    · exact hinv.storage_src j sl' w h' hw
  · intro r hr; simp [Call.popResult] at hr
  · intro t' w h
    rcases h with h | h
    · cases h
    · cases h
      obtain ⟨sl0, w0, h1, h2⟩ := hinv.stored _ (mem_of_getElem? hc) t v (Or.inl rfl)
      exact hold _ sl0 w0 h1 h2
  · intro hb
    refine ⟨?_, ?_, Nat.le_refl _⟩
    · exact (hinv.pop_count hb).1.trans (countP_set_same Call.popClaimed hc (by rfl)).symm
    · intro t ht; simp [Call.popTicket] at ht

end inv

section inv
variable {T : Type} {k : Nat} {ops : List (Op T)} {s : System T} {i : Nat}

theorem Inv_popIdle (hinv : Inv (2 ^ k) ops s) (hc : s.calls[i]? = some .popIdle) :
    Inv (2 ^ k) ops { queue := { s.queue with tail_ := (s.queue.tail_ + 1) % SIZE },
                      calls := s.calls.set i (.popWait s.queue.tail_) } := by
  refine Inv_update hinv hc rfl rfl hinv.slots_len hinv.head_lt (Nat.mod_lt _ SIZE_pos) ?_ ?_ ?_ ?_
    hinv.storage_src ?_ ?_ ?_ ?_
  · intro t ht; simp [Call.pushTicket] at ht
  · intro t ht
    simp only [Call.popTicket, Option.some.injEq] at ht
    exact ht ▸ hinv.tail_lt
  · intro j sl h
    exact (hinv.turn_src j sl h).mono (done_mem_set hc rfl)
  · intro t ht; simp [Call.popPassed] at ht
  · intro r hr; simp [Call.popResult] at hr
  · intro t w h; simp at h
  · intro j sl w h1 h2; exact ⟨sl, w, h1, h2⟩
  · intro hb
    have hcnt : (s.calls.set i (.popWait s.queue.tail_)).countP Call.popClaimed =
        s.calls.countP Call.popClaimed + 1 :=
      countP_set_new Call.popClaimed hc (by rfl) (by rfl)
    have hle : (s.calls.set i (.popWait s.queue.tail_)).countP Call.popClaimed ≤
        ops.length := by
      have := List.countP_le_length Call.popClaimed (l := s.calls.set i (.popWait s.queue.tail_))
      rw [List.length_set, hinv.calls_len] at this
      exact this
    have htl := (hinv.pop_count hb).1
    have hmod : (s.queue.tail_ + 1) % SIZE = s.queue.tail_ + 1 :=
      Nat.mod_eq_of_lt (by omega)
    refine ⟨?_, ?_, ?_⟩
    · show (s.queue.tail_ + 1) % SIZE = _
      rw [hmod, hcnt, htl]
    · intro t ht
      simp only [Call.popTicket, Option.some.injEq] at ht
      show t < (s.queue.tail_ + 1) % SIZE
      rw [hmod]; omega
    · show s.queue.tail_ ≤ (s.queue.tail_ + 1) % SIZE
      rw [hmod]; omega

theorem Inv_popWait (hk : k < 64) (hb : 2 ≤ 2 ^ k ∨ ops.length < SIZE) {t : Nat} {sl : Slot T}
    (hinv : Inv (2 ^ k) ops s) (hc : s.calls[i]? = some (.popWait t))
    (hsl : s.queue.slots_[t &&& Divisor (2 ^ k)]? = some sl)
    (hturn : sl.turn = (t + 1) % SIZE) :
    Inv (2 ^ k) ops { s with calls := s.calls.set i (.popLoad t) } := by
  have htlt : t < SIZE := hinv.pop_ticket_lt _ (mem_of_getElem? hc) t rfl
  refine Inv_update hinv hc rfl rfl hinv.slots_len hinv.head_lt hinv.tail_lt ?_ ?_ ?_ ?_
    hinv.storage_src ?_ ?_ ?_ ?_
  · intro t ht; simp [Call.pushTicket] at ht
  · intro t' ht
    exact hinv.pop_ticket_lt _ (mem_of_getElem? hc) t' ht
  · intro j sl h
    exact (hinv.turn_src j sl h).mono (done_mem_set hc rfl)
  · intro t' ht
    simp only [Call.popPassed, Option.some.injEq] at ht
    subst ht
    -- the turn `t + 1` read by the pop was written by the push holding ticket `t`
    have hsrc := hinv.turn_src _ sl hsl
    rw [and_Divisor hk] at hsrc
    -- with one slot the residues are no help: `2 ^ k = 1` is the case to treat apart
    have hone : ¬ 2 ≤ 2 ^ k → (t + 1) % SIZE = t + 1 := by
      intro h2
      have hlen : ops.length < SIZE := by
        rcases hb with hb | hb
        · exact absurd hb h2
        · exact hb
      have h1 := (hinv.pop_count hlen).2 _ (mem_of_getElem? hc) t rfl
      have h3 := (hinv.pop_count hlen).1
      have h4 := List.countP_le_length Call.popClaimed (l := s.calls)
      rw [hinv.calls_len] at h4
      exact Nat.mod_eq_of_lt (by omega)
    rcases hsrc with h | ⟨t', v, hm, hx, hj⟩ | ⟨t', r, hm, hx, hj⟩
    · exfalso
      rw [hturn] at h
      by_cases h2 : 2 ≤ 2 ^ k
      · have := congrArg (· % 2 ^ k) h
        simp only [mod_SIZE_mod hk, Nat.mod_mod] at this
        exact succ_mod_ne h2 t this
      · rw [hone h2] at h
        have := Nat.mod_le t (2 ^ k)
        omega
    · have ht' : t' < SIZE := hinv.push_ticket_lt _ hm t' rfl
      rw [hturn] at hx
      obtain rfl := succ_mod_SIZE_inj htlt ht' hx
      exact ⟨v, hm⟩
    · have ht' : t' < SIZE := hinv.pop_ticket_lt _ hm t' rfl
      rw [hturn] at hx
      by_cases h2 : 2 ≤ 2 ^ k
      · exfalso
        have := congrArg (· % 2 ^ k) hx
        simp only [mod_SIZE_mod hk, Nat.add_mod_right, hj] at this
        exact succ_mod_ne h2 t this
      · have h1 : 2 ^ k = 1 := by
          have := Nat.pow_pos (n := k) (show 0 < 2 by decide)
          omega
        rw [h1] at hx
        obtain rfl := succ_mod_SIZE_inj htlt ht' hx
        exact hinv.pop_after_push _ hm t rfl
  · intro r hr; simp [Call.popResult] at hr
  · intro t w h; simp at h
  · intro j sl w h1 h2; exact ⟨sl, w, h1, h2⟩
  · intro hb
    refine ⟨?_, ?_, Nat.le_refl _⟩
    · exact (hinv.pop_count hb).1.trans (countP_set_same Call.popClaimed hc (by rfl)).symm
    · intro t' ht
      exact (hinv.pop_count hb).2 _ (mem_of_getElem? hc) t' ht

theorem Inv_popLoad (hk : k < 64) {t : Nat} {sl : Slot T}
    (hinv : Inv (2 ^ k) ops s) (hc : s.calls[i]? = some (.popLoad t))
    (hsl : s.queue.slots_[t &&& Divisor (2 ^ k)]? = some sl) :
    Inv (2 ^ k) ops { s with calls := s.calls.set i (.popPublish t sl.storage) } := by
  refine Inv_update hinv hc rfl rfl hinv.slots_len hinv.head_lt hinv.tail_lt ?_ ?_ ?_ ?_
    hinv.storage_src ?_ ?_ ?_ ?_
  · intro t ht; simp [Call.pushTicket] at ht
  · intro t' ht
    exact hinv.pop_ticket_lt _ (mem_of_getElem? hc) t' ht
  · intro j sl h
    exact (hinv.turn_src j sl h).mono (done_mem_set hc rfl)
  · intro t' ht
    exact hinv.pop_after_push _ (mem_of_getElem? hc) t' ht
  · intro r hr
    simp only [Call.popResult, Option.some.injEq] at hr
    subst hr
    obtain ⟨v, hv⟩ := hinv.pop_after_push _ (mem_of_getElem? hc) t rfl
    obtain ⟨sl', w, h1, h2⟩ := hinv.stored _ hv t v (Or.inr rfl)
    rw [← and_Divisor hk, hsl] at h1
    obtain rfl := Option.some.inj h1
    exact ⟨w, h2, hinv.storage_src _ _ w hsl h2⟩
  · intro t w h; simp at h
  · intro j sl w h1 h2; exact ⟨sl, w, h1, h2⟩
  · intro hb
    refine ⟨?_, ?_, Nat.le_refl _⟩
    · exact (hinv.pop_count hb).1.trans (countP_set_same Call.popClaimed hc (by rfl)).symm
    · intro t' ht
      exact (hinv.pop_count hb).2 _ (mem_of_getElem? hc) t' ht

theorem Inv_popPublish (hk : k < 64) {t : Nat} {r : Option T} {sl : Slot T}
    (hinv : Inv (2 ^ k) ops s) (hc : s.calls[i]? = some (.popPublish t r))
    (hsl : s.queue.slots_[t &&& Divisor (2 ^ k)]? = some sl) :
    Inv (2 ^ k) ops
      { queue := { s.queue with
          slots_ := s.queue.slots_.set (t &&& Divisor (2 ^ k))
            { sl with turn := (t + 2 ^ k) % SIZE } },
        calls := s.calls.set i (.popDone t r) } := by
  have hj := (List.getElem?_eq_some.1 hsl).1
  refine Inv_update hinv hc rfl rfl (by simp [hinv.slots_len]) hinv.head_lt hinv.tail_lt
    ?_ ?_ ?_ ?_ ?_ ?_ ?_ ?_ ?_
  · intro t ht; simp [Call.pushTicket] at ht
  · intro t' ht
    exact hinv.pop_ticket_lt _ (mem_of_getElem? hc) t' ht
  · intro j sl' h
    rcases getElem?_set_cases h with ⟨rfl, rfl⟩ | ⟨_, h'⟩
    · exact Or.inr (Or.inr ⟨t, r, mem_set_new hc, rfl, (and_Divisor hk t).symm⟩)
    · exact (hinv.turn_src j sl' h').mono (done_mem_set hc rfl)
  · intro t' ht
    exact hinv.pop_after_push _ (mem_of_getElem? hc) t' ht
  · intro j sl' w h hw
    rcases getElem?_set_cases h with ⟨rfl, rfl⟩ | ⟨_, h'⟩
    · exact hinv.storage_src _ sl w hsl hw
    · exact hinv.storage_src j sl' w h' hw
  · intro r' hr
    exact hinv.result_src _ (mem_of_getElem? hc) r' hr
  · intro t w h; simp at h
  · intro j sl' w h1 h2
    by_cases hjj : j = t &&& Divisor (2 ^ k)
    · subst hjj
      rw [hsl] at h1
      obtain rfl := Option.some.inj h1
      exact ⟨_, w, List.getElem?_set_self hj, h2⟩
    · exact ⟨sl', w, by rw [List.getElem?_set_ne (Ne.symm hjj)]; exact h1, h2⟩
  · intro hb
    refine ⟨?_, ?_, Nat.le_refl _⟩
    · exact (hinv.pop_count hb).1.trans (countP_set_same Call.popClaimed hc (by rfl)).symm
    · intro t' ht
      exact (hinv.pop_count hb).2 _ (mem_of_getElem? hc) t' ht

/-- Every atomic step is defined on a state that satisfies the invariant, and keeps it. -/
theorem Inv_step (hk : k < 64) (hb : 2 ≤ 2 ^ k ∨ ops.length < SIZE)
    (hinv : Inv (2 ^ k) ops s) (i : Nat) :
    ∃ s', step (2 ^ k) s i = some s' ∧ Inv (2 ^ k) ops s' := by
  cases hc : s.calls[i]? with
  | none => exact ⟨s, step_none hc, hinv⟩
  | some c =>
    cases c with
    | pushIdle v =>
      obtain ⟨sl, hsl⟩ := slot_exists hk hinv s.queue.head_
      exact ⟨_, step_pushIdle hc hsl, Inv_pushIdle hinv hc⟩
    | pushWait t v =>
      obtain ⟨sl, hsl⟩ := slot_exists hk hinv t
      refine ⟨_, step_pushWait hc hsl, ?_⟩
      split
      · exact Inv_pushWait hinv hc
      · exact hinv
    | pushStore t v =>
      obtain ⟨sl, hsl⟩ := slot_exists hk hinv t
      exact ⟨_, step_pushStore hc hsl, Inv_pushStore hk hinv hc hsl⟩
    | pushPublish t v =>
      obtain ⟨sl, hsl⟩ := slot_exists hk hinv t
      exact ⟨_, step_pushPublish hc hsl, Inv_pushPublish hk hinv hc hsl⟩
    | pushDone t v => exact ⟨s, step_pushDone hc, hinv⟩
    | popIdle =>
      obtain ⟨sl, hsl⟩ := slot_exists hk hinv s.queue.tail_
      exact ⟨_, step_popIdle hc hsl, Inv_popIdle hinv hc⟩
    | popWait t =>
      obtain ⟨sl, hsl⟩ := slot_exists hk hinv t
      refine ⟨_, step_popWait hc hsl, ?_⟩
      split
      · rename_i hturn
        exact Inv_popWait hk hb hinv hc hsl hturn
      · exact hinv
    | popLoad t =>
      obtain ⟨sl, hsl⟩ := slot_exists hk hinv t
      exact ⟨_, step_popLoad hc hsl, Inv_popLoad hk hinv hc hsl⟩
    | popPublish t r =>
      obtain ⟨sl, hsl⟩ := slot_exists hk hinv t
      exact ⟨_, step_popPublish hc hsl, Inv_popPublish hk hinv hc hsl⟩
    | popDone t r => exact ⟨s, step_popDone hc, hinv⟩

/-- Every schedule runs to a state, and the invariant holds there. -/
theorem Inv_run (hk : k < 64) (hb : 2 ≤ 2 ^ k ∨ ops.length < SIZE)
    (hinv : Inv (2 ^ k) ops s) (sched : List Nat) :
    ∃ s', run (2 ^ k) s sched = some s' ∧ Inv (2 ^ k) ops s' := by
  induction sched generalizing s with
  | nil => exact ⟨s, rfl, hinv⟩
  | cons i sched ih =>
    obtain ⟨s1, h1, hinv1⟩ := Inv_step hk hb hinv i
    obtain ⟨s2, h2, hinv2⟩ := ih hinv1
    exact ⟨s2, by simp [run, h1, h2], hinv2⟩

end inv

section calls
variable {T : Type} {N : Nat} {s : System T} {i : Nat}

/-- A push whose slot shows its ticket runs through in four steps. -/
theorem push_call_run {v : T} {sl : Slot T} (hc : s.calls[i]? = some (.pushIdle v))
    (hsl : s.queue.slots_[s.queue.head_ &&& Divisor N]? = some sl)
    (hturn : sl.turn = s.queue.head_) :
    run N s [i, i, i, i] =
      some { queue :=
               { slots_ := s.queue.slots_.set (s.queue.head_ &&& Divisor N)
                   { turn := (s.queue.head_ + 1) % SIZE, storage := some v },
                 head_ := (s.queue.head_ + 1) % SIZE,
                 tail_ := s.queue.tail_ },
             calls := s.calls.set i (.pushDone s.queue.head_ v) } := by
  have hi := (List.getElem?_eq_some.1 hc).1
  have hj := (List.getElem?_eq_some.1 hsl).1
  have h1 := step_pushIdle (N := N) hc hsl
  have h2 := step_pushWait (N := N)
    (s := { queue := { s.queue with head_ := (s.queue.head_ + 1) % SIZE },
            calls := s.calls.set i (.pushWait s.queue.head_ v) })
    (List.getElem?_set_self hi) hsl
  rw [if_pos hturn] at h2
  have h3 := step_pushStore (N := N)
    (s := { queue := { s.queue with head_ := (s.queue.head_ + 1) % SIZE },
            calls := (s.calls.set i (.pushWait s.queue.head_ v)).set i
              (.pushStore s.queue.head_ v) })
    (List.getElem?_set_self (by simpa using hi)) hsl
  have h4 := step_pushPublish (N := N)
    (s := { queue := { s.queue with
              head_ := (s.queue.head_ + 1) % SIZE
              slots_ := s.queue.slots_.set (s.queue.head_ &&& Divisor N)
                { sl with storage := some v } },
            calls := ((s.calls.set i (.pushWait s.queue.head_ v)).set i
              (.pushStore s.queue.head_ v)).set i (.pushPublish s.queue.head_ v) })
    (List.getElem?_set_self (by simpa using hi)) (List.getElem?_set_self hj)
  simp only [run, Option.bind_eq_bind, h1, Option.some_bind, h2, h3, h4]
  simp [List.set_set]

/-- A push whose slot shows another turn claims its ticket and then goes round its loop. -/
theorem push_call_spin {v : T} {sl : Slot T} (hc : s.calls[i]? = some (.pushIdle v))
    (hsl : s.queue.slots_[s.queue.head_ &&& Divisor N]? = some sl)
    (hturn : sl.turn ≠ s.queue.head_) (n : Nat) :
    run N s (i :: List.replicate n i) =
      some { queue := { s.queue with head_ := (s.queue.head_ + 1) % SIZE },
             calls := s.calls.set i (.pushWait s.queue.head_ v) } := by
  have hi := (List.getElem?_eq_some.1 hc).1
  have h2 := step_pushWait (N := N)
    (s := { queue := { s.queue with head_ := (s.queue.head_ + 1) % SIZE },
            calls := s.calls.set i (.pushWait s.queue.head_ v) })
    (List.getElem?_set_self hi) hsl
  rw [if_neg hturn] at h2
  simp only [run, Option.bind_eq_bind, step_pushIdle hc hsl, Option.some_bind]
  induction n with
  | zero => rfl
  | succ n ih =>
    simp only [List.replicate_succ, run, Option.bind_eq_bind, h2, Option.some_bind]
    exact ih

/-- A pop whose slot shows its ticket plus one runs through in four steps. -/
theorem pop_call_run {sl : Slot T} (hc : s.calls[i]? = some .popIdle)
    (hsl : s.queue.slots_[s.queue.tail_ &&& Divisor N]? = some sl)
    (hturn : sl.turn = (s.queue.tail_ + 1) % SIZE) :
    run N s [i, i, i, i] =
      some { queue :=
               { slots_ := s.queue.slots_.set (s.queue.tail_ &&& Divisor N)
                   { turn := (s.queue.tail_ + N) % SIZE, storage := sl.storage },
                 head_ := s.queue.head_,
                 tail_ := (s.queue.tail_ + 1) % SIZE },
             calls := s.calls.set i (.popDone s.queue.tail_ sl.storage) } := by
  have hi := (List.getElem?_eq_some.1 hc).1
  have hj := (List.getElem?_eq_some.1 hsl).1
  have h1 := step_popIdle (N := N) hc hsl
  have h2 := step_popWait (N := N)
    (s := { queue := { s.queue with tail_ := (s.queue.tail_ + 1) % SIZE },
            calls := s.calls.set i (.popWait s.queue.tail_) })
    (List.getElem?_set_self hi) hsl
  rw [if_pos hturn] at h2
  have h3 := step_popLoad (N := N)
    (s := { queue := { s.queue with tail_ := (s.queue.tail_ + 1) % SIZE },
            calls := (s.calls.set i (.popWait s.queue.tail_)).set i (.popLoad s.queue.tail_) })
    (List.getElem?_set_self (by simpa using hi)) hsl
  have h4 := step_popPublish (N := N)
    (s := { queue := { s.queue with tail_ := (s.queue.tail_ + 1) % SIZE },
            calls := ((s.calls.set i (.popWait s.queue.tail_)).set i
              (.popLoad s.queue.tail_)).set i (.popPublish s.queue.tail_ sl.storage) })
    (List.getElem?_set_self (by simpa using hi)) hsl
  simp only [run, Option.bind_eq_bind, h1, Option.some_bind, h2, h3, h4]
  simp [List.set_set]

/-- A pop whose slot shows another turn claims its ticket and then goes round its loop. -/
theorem pop_call_spin {sl : Slot T} (hc : s.calls[i]? = some .popIdle)
    (hsl : s.queue.slots_[s.queue.tail_ &&& Divisor N]? = some sl)
    (hturn : sl.turn ≠ (s.queue.tail_ + 1) % SIZE) (n : Nat) :
    run N s (i :: List.replicate n i) =
      some { queue := { s.queue with tail_ := (s.queue.tail_ + 1) % SIZE },
             calls := s.calls.set i (.popWait s.queue.tail_) } := by
  have hi := (List.getElem?_eq_some.1 hc).1
  have h2 := step_popWait (N := N)
    (s := { queue := { s.queue with tail_ := (s.queue.tail_ + 1) % SIZE },
            calls := s.calls.set i (.popWait s.queue.tail_) })
    (List.getElem?_set_self hi) hsl
  rw [if_neg hturn] at h2
  simp only [run, Option.bind_eq_bind, step_popIdle hc hsl, Option.some_bind]
  induction n with
  | zero => rfl
  | succ n ih =>
    simp only [List.replicate_succ, run, Option.bind_eq_bind, h2, Option.some_bind]
    exact ih

end calls

section own
variable {T : Type}

theorem Own_fresh (N : Nat) (ops : List (Op T)) : Own N (System.fresh N ops) := by
  have hnone : ∀ (n : Nat) (c : Call T), (ops.map Op.start)[n]? = some c →
      c.pushTicket = none ∧ c.popTicket = none ∧ c.pushOwner = none ∧ c.popOwner = none ∧
      c.pushClaimed = false ∧ (∀ t v, c ≠ .pushPublish t v) ∧
      (∀ t r, c ≠ .popPublish t r ∧ c ≠ .popDone t r) := by
    intro n c hc
    rw [List.getElem?_map] at hc
    cases ho : ops[n]? with
    | none => rw [ho] at hc; simp at hc
    | some o =>
      rw [ho] at hc
      simp only [Option.map_some', Option.some.injEq] at hc
      subst hc
      cases o <;>
        simp [Op.start, Call.pushTicket, Call.popTicket, Call.pushOwner, Call.popOwner,
          Call.pushClaimed]
  have hmem : ∀ c ∈ ops.map Op.start, ∃ n, (ops.map Op.start)[n]? = some c :=
    fun c hc => List.mem_iff_getElem?.1 hc
  refine
    { push_count := ?_, push_lt_head := ?_, push_unique := ?_, pop_unique := ?_,
      push_owner := ?_, pop_owner := ?_, push_value := ?_, readable := ?_, fifo := ?_ }
  · have : (ops.map Op.start).countP Call.pushClaimed = 0 := by
      rw [List.countP_eq_zero]
      intro c hc
      obtain ⟨n, hn⟩ := hmem c hc
      simp [(hnone n c hn).2.2.2.2.1]
    simp [System.fresh, new_eq, this]
  · intro c hc t ht
    obtain ⟨n, hn⟩ := hmem c hc
    rw [(hnone n c hn).1] at ht
    exact Option.noConfusion ht
  · intro i j c d t hc _ ht _
    rw [(hnone i c hc).1] at ht
    exact Option.noConfusion ht
  · intro i j c d t hc _ ht _
    rw [(hnone i c hc).2.1] at ht
    exact Option.noConfusion ht
  · intro n c t hc ht
    rw [(hnone n c hc).2.2.1] at ht
    exact Option.noConfusion ht
  · intro n c t hc ht
    rw [(hnone n c hc).2.2.2.1] at ht
    exact Option.noConfusion ht
  · intro n t v hc
    exact absurd rfl ((hnone n _ hc).2.2.2.2.2.1 t v)
  · intro j sl h hne
    exfalso
    apply hne
    simp only [System.fresh, new_eq, List.getElem?_map] at h
    by_cases hj : j < N
    · rw [List.getElem?_range hj] at h
      simp only [Option.map_some', Option.some.injEq] at h
      subst h
      exact Nat.mod_eq_of_lt hj
    · rw [List.getElem?_eq_none (by simpa using Nat.le_of_not_lt hj)] at h
      simp at h
  · intro c hc t r h
    obtain ⟨n, hn⟩ := hmem c hc
    rcases h with h | h
    · exact absurd h ((hnone n c hn).2.2.2.2.2.2 t r).1
    · exact absurd h ((hnone n c hn).2.2.2.2.2.2 t r).2

/-- Re-establishing `Own` after call `i` moved from `old` to `c` and the queue became
`q`; what concerns the slots is left to the step at hand. -/
theorem Own_update {N : Nat} {s : System T} {i : Nat} {old c : Call T}
    {q : MPMCSimpleQueue T} (hown : Own N s)
    (hc : s.calls[i]? = some old) (hold : old.isDone = false)
    (hcount : q.head_ = (s.calls.set i c).countP Call.pushClaimed)
    (hlt_new : ∀ t, c.pushTicket = some t → t < q.head_)
    (hhead : s.queue.head_ ≤ q.head_)
    (hpush_new : ∀ t, c.pushTicket = some t →
      old.pushTicket = some t ∨ ∀ d ∈ s.calls, d.pushTicket ≠ some t)
    (hpop_new : ∀ t, c.popTicket = some t →
      old.popTicket = some t ∨ ∀ d ∈ s.calls, d.popTicket ≠ some t)
    (hpush_owner : ∀ (n : Nat) (d : Call T) (t : Nat), (s.calls.set i c)[n]? = some d →
      d.pushOwner = some t → ∃ sl : Slot T, q.slots_[t % N]? = some sl ∧ sl.turn = t)
    (hpop_owner : ∀ (n : Nat) (d : Call T) (t : Nat), (s.calls.set i c)[n]? = some d →
      d.popOwner = some t →
      ∃ sl : Slot T, q.slots_[t % N]? = some sl ∧ sl.turn = (t + 1) % SIZE)
    (hpush_value : ∀ (n t : Nat) (v : T), (s.calls.set i c)[n]? = some (.pushPublish t v) →
      ∃ sl : Slot T, q.slots_[t % N]? = some sl ∧ sl.storage = some v)
    (hreadable : ∀ (j : Nat) (sl : Slot T), q.slots_[j]? = some sl → sl.turn % N ≠ j →
      ∃ (t : Nat) (v : T), sl.turn = (t + 1) % SIZE ∧ sl.storage = some v ∧
        Call.pushDone t v ∈ s.calls.set i c)
    (hfifo : ∀ (t : Nat) (r : Option T), (c = .popPublish t r ∨ c = .popDone t r) →
      ∃ v, r = some v ∧ Call.pushDone t v ∈ s.calls) :
    Own N { queue := q, calls := s.calls.set i c } := by
  have hdone := done_mem_set (c := c) hc hold
  have hcases : ∀ d ∈ s.calls.set i c, d = c ∨ d ∈ s.calls := fun d hd =>
    (List.mem_or_eq_of_mem_set hd).symm
  refine
    { push_count := hcount, push_lt_head := ?_, push_unique := ?_, pop_unique := ?_,
      push_owner := hpush_owner, pop_owner := hpop_owner, push_value := hpush_value,
      readable := hreadable, fifo := ?_ }
  · intro d hd t ht
    rcases hcases d hd with rfl | hd
    · exact hlt_new t ht
    · exact Nat.lt_of_lt_of_le (hown.push_lt_head d hd t ht) hhead
  · intro a b c1 d1 t h1 h2 ht1 ht2
    rcases getElem?_set_cases h1 with ⟨rfl, rfl⟩ | ⟨ha, h1'⟩
    · rcases getElem?_set_cases h2 with ⟨rfl, _⟩ | ⟨hb, h2'⟩
      · rfl
      · rcases hpush_new t ht1 with h | h
        · exact hown.push_unique _ _ old d1 t hc h2' h ht2
        · exact absurd ht2 (h d1 (mem_of_getElem? h2'))
    · rcases getElem?_set_cases h2 with ⟨rfl, rfl⟩ | ⟨hb, h2'⟩
      · rcases hpush_new t ht2 with h | h
        · exact hown.push_unique _ _ c1 old t h1' hc ht1 h
        · exact absurd ht1 (h c1 (mem_of_getElem? h1'))
      · exact hown.push_unique a b c1 d1 t h1' h2' ht1 ht2
  · intro a b c1 d1 t h1 h2 ht1 ht2
    rcases getElem?_set_cases h1 with ⟨rfl, rfl⟩ | ⟨ha, h1'⟩
    · rcases getElem?_set_cases h2 with ⟨rfl, _⟩ | ⟨hb, h2'⟩
      · rfl
      · rcases hpop_new t ht1 with h | h
        · exact hown.pop_unique _ _ old d1 t hc h2' h ht2
        · exact absurd ht2 (h d1 (mem_of_getElem? h2'))
    · rcases getElem?_set_cases h2 with ⟨rfl, rfl⟩ | ⟨hb, h2'⟩
      · rcases hpop_new t ht2 with h | h
        · exact hown.pop_unique _ _ c1 old t h1' hc ht1 h
        · exact absurd ht1 (h c1 (mem_of_getElem? h1'))
      · exact hown.pop_unique a b c1 d1 t h1' h2' ht1 ht2
  · intro d hd t r h
    rcases hcases d hd with rfl | hd
    · obtain ⟨v, hv, hm⟩ := hfifo t r h
      exact ⟨v, hv, hdone _ hm rfl⟩
    · obtain ⟨v, hv, hm⟩ := hown.fifo d hd t r h
      exact ⟨v, hv, hdone _ hm rfl⟩

/-- The same when the step leaves the slots alone. -/
theorem Own_update_calls {N : Nat} {s : System T} {i : Nat} {old c : Call T}
    {q : MPMCSimpleQueue T} (hown : Own N s)
    (hc : s.calls[i]? = some old) (hold : old.isDone = false)
    (hslots : q.slots_ = s.queue.slots_)
    (hcount : q.head_ = (s.calls.set i c).countP Call.pushClaimed)
    (hlt_new : ∀ t, c.pushTicket = some t → t < q.head_)
    (hhead : s.queue.head_ ≤ q.head_)
    (hpush_new : ∀ t, c.pushTicket = some t →
      old.pushTicket = some t ∨ ∀ d ∈ s.calls, d.pushTicket ≠ some t)
    (hpop_new : ∀ t, c.popTicket = some t →
      old.popTicket = some t ∨ ∀ d ∈ s.calls, d.popTicket ≠ some t)
    (hpush_owner : ∀ t, c.pushOwner = some t →
      ∃ sl : Slot T, s.queue.slots_[t % N]? = some sl ∧ sl.turn = t)
    (hpop_owner : ∀ t, c.popOwner = some t →
      ∃ sl : Slot T, s.queue.slots_[t % N]? = some sl ∧ sl.turn = (t + 1) % SIZE)
    (hpush_value : ∀ t v, c ≠ .pushPublish t v)
    (hfifo : ∀ (t : Nat) (r : Option T), (c = .popPublish t r ∨ c = .popDone t r) →
      ∃ v, r = some v ∧ Call.pushDone t v ∈ s.calls) :
    Own N { queue := q, calls := s.calls.set i c } := by
  refine Own_update hown hc hold hcount hlt_new hhead hpush_new hpop_new ?_ ?_ ?_ ?_ hfifo
  · intro n d t hd ht
    rw [hslots]
    rcases getElem?_set_cases hd with ⟨_, rfl⟩ | ⟨_, hd'⟩
    · exact hpush_owner t ht
    · exact hown.push_owner n d t hd' ht
  · intro n d t hd ht
    rw [hslots]
    rcases getElem?_set_cases hd with ⟨_, rfl⟩ | ⟨_, hd'⟩
    · exact hpop_owner t ht
    · exact hown.pop_owner n d t hd' ht
  · intro n t v hd
    rw [hslots]
    rcases getElem?_set_cases hd with ⟨_, h⟩ | ⟨_, hd'⟩
    · exact absurd h.symm (hpush_value t v)
    · exact hown.push_value n t v hd'
  · intro j sl hj hne
    rw [hslots] at hj
    obtain ⟨t, v, h1, h2, h3⟩ := hown.readable j sl hj hne
    exact ⟨t, v, h1, h2, done_mem_set hc hold _ h3 rfl⟩

end own

section own
variable {T : Type} {k : Nat} {ops : List (Op T)} {s : System T} {i : Nat}

theorem Own_pushIdle (hb : ops.length < SIZE) {v : T} (hinv : Inv (2 ^ k) ops s)
    (hown : Own (2 ^ k) s) (hc : s.calls[i]? = some (.pushIdle v)) :
    Own (2 ^ k) { queue := { s.queue with head_ := (s.queue.head_ + 1) % SIZE },
                  calls := s.calls.set i (.pushWait s.queue.head_ v) } := by
  have hcnt : (s.calls.set i (.pushWait s.queue.head_ v)).countP Call.pushClaimed =
      s.calls.countP Call.pushClaimed + 1 :=
    countP_set_new Call.pushClaimed hc (by rfl) (by rfl)
  have hle : (s.calls.set i (.pushWait s.queue.head_ v)).countP Call.pushClaimed ≤
      ops.length := by
    have := List.countP_le_length Call.pushClaimed (l := s.calls.set i (.pushWait s.queue.head_ v))
    rw [List.length_set, hinv.calls_len] at this
    exact this
  have hhd := hown.push_count
  have hmod : (s.queue.head_ + 1) % SIZE = s.queue.head_ + 1 := Nat.mod_eq_of_lt (by omega)
  refine Own_update_calls hown hc rfl rfl ?_ ?_ ?_ ?_ ?_ ?_ ?_ ?_ ?_
  · show (s.queue.head_ + 1) % SIZE = _
    rw [hmod, hcnt, hhd]
  · intro t ht
    simp only [Call.pushTicket, Option.some.injEq] at ht
    show t < (s.queue.head_ + 1) % SIZE
    rw [hmod]; omega
  · show s.queue.head_ ≤ (s.queue.head_ + 1) % SIZE
    rw [hmod]; omega
  · intro t ht
    simp only [Call.pushTicket, Option.some.injEq] at ht
    right
    intro d hd hdt
    have := hown.push_lt_head d hd t hdt
    omega
  · intro t ht; simp [Call.popTicket] at ht
  · intro t ht; simp [Call.pushOwner] at ht
  · intro t ht; simp [Call.popOwner] at ht
  · intro t w h; cases h
  · intro t r h; rcases h with h | h <;> cases h

theorem Own_pushWait {t : Nat} {v : T} {sl : Slot T} (hk : k < 64)
    (hown : Own (2 ^ k) s) (hc : s.calls[i]? = some (.pushWait t v))
    (hsl : s.queue.slots_[t &&& Divisor (2 ^ k)]? = some sl) (hturn : sl.turn = t) :
    Own (2 ^ k) { s with calls := s.calls.set i (.pushStore t v) } := by
  rw [and_Divisor hk] at hsl
  refine Own_update_calls hown hc rfl rfl ?_ ?_ ?_ ?_ ?_ ?_ ?_ ?_ ?_
  · exact hown.push_count.trans (countP_set_same Call.pushClaimed hc (by rfl)).symm
  · intro t' ht
    exact hown.push_lt_head _ (mem_of_getElem? hc) t' ht
  · exact Nat.le_refl _
  · intro t' ht; exact Or.inl ht
  · intro t' ht; simp [Call.popTicket] at ht
  · intro t' ht
    simp only [Call.pushOwner, Option.some.injEq] at ht
    subst ht
    exact ⟨sl, hsl, hturn⟩
  · intro t' ht; simp [Call.popOwner] at ht
  · intro t' w h; cases h
  · intro t' r h; rcases h with h | h <;> cases h

theorem Own_popIdle (hb : ops.length < SIZE) (hinv : Inv (2 ^ k) ops s)
    (hown : Own (2 ^ k) s) (hc : s.calls[i]? = some .popIdle) :
    Own (2 ^ k) { queue := { s.queue with tail_ := (s.queue.tail_ + 1) % SIZE },
                  calls := s.calls.set i (.popWait s.queue.tail_) } := by
  refine Own_update_calls hown hc rfl rfl ?_ ?_ ?_ ?_ ?_ ?_ ?_ ?_ ?_
  · exact hown.push_count.trans (countP_set_same Call.pushClaimed hc (by rfl)).symm
  · intro t ht; simp [Call.pushTicket] at ht
  · exact Nat.le_refl _
  · intro t ht; simp [Call.pushTicket] at ht
  · intro t ht
    simp only [Call.popTicket, Option.some.injEq] at ht
    right
    intro d hd hdt
    have := (hinv.pop_count hb).2 d hd t hdt
    omega
  · intro t ht; simp [Call.pushOwner] at ht
  · intro t ht; simp [Call.popOwner] at ht
  · intro t w h; cases h
  · intro t r h; rcases h with h | h <;> cases h

theorem Own_popWait {t : Nat} {sl : Slot T} (hk : k < 64)
    (hown : Own (2 ^ k) s) (hc : s.calls[i]? = some (.popWait t))
    (hsl : s.queue.slots_[t &&& Divisor (2 ^ k)]? = some sl)
    (hturn : sl.turn = (t + 1) % SIZE) :
    Own (2 ^ k) { s with calls := s.calls.set i (.popLoad t) } := by
  rw [and_Divisor hk] at hsl
  refine Own_update_calls hown hc rfl rfl ?_ ?_ ?_ ?_ ?_ ?_ ?_ ?_ ?_
  · exact hown.push_count.trans (countP_set_same Call.pushClaimed hc (by rfl)).symm
  · intro t' ht; simp [Call.pushTicket] at ht
  · exact Nat.le_refl _
  · intro t' ht; simp [Call.pushTicket] at ht
  · intro t' ht; exact Or.inl ht
  · intro t' ht; simp [Call.pushOwner] at ht
  · intro t' ht
    simp only [Call.popOwner, Option.some.injEq] at ht
    subst ht
    exact ⟨sl, hsl, hturn⟩
  · intro t' w h; cases h
  · intro t' r h; rcases h with h | h <;> cases h

theorem Own_popLoad {t : Nat} {sl : Slot T} (hk : k < 64) (h2 : 2 ≤ 2 ^ k)
    (hinv : Inv (2 ^ k) ops s) (hown : Own (2 ^ k) s)
    (hc : s.calls[i]? = some (.popLoad t))
    (hsl : s.queue.slots_[t &&& Divisor (2 ^ k)]? = some sl) :
    Own (2 ^ k) { s with calls := s.calls.set i (.popPublish t sl.storage) } := by
  rw [and_Divisor hk] at hsl
  refine Own_update_calls hown hc rfl rfl ?_ ?_ ?_ ?_ ?_ ?_ ?_ ?_ ?_
  · exact hown.push_count.trans (countP_set_same Call.pushClaimed hc (by rfl)).symm
  · intro t' ht; simp [Call.pushTicket] at ht
  · exact Nat.le_refl _
  · intro t' ht; simp [Call.pushTicket] at ht
  · intro t' ht; exact Or.inl ht
  · intro t' ht; simp [Call.pushOwner] at ht
  · intro t' ht
    exact hown.pop_owner i _ t' hc ht
  · intro t' w h; cases h
  · intro t' r h
    rcases h with h | h
    · cases h
      -- the slot is readable: it holds the value of the push that published `t + 1`
      obtain ⟨sl', hsl', hturn⟩ := hown.pop_owner i _ t hc rfl
      rw [hsl] at hsl'
      obtain rfl := Option.some.inj hsl'
      have hne : sl.turn % 2 ^ k ≠ t % 2 ^ k := by
        rw [hturn, mod_SIZE_mod hk]
        exact succ_mod_ne h2 t
      obtain ⟨t0, v, h1, h3, h4⟩ := hown.readable _ sl hsl hne
      have ht0 : t0 < SIZE := hinv.push_ticket_lt _ h4 t0 rfl
      have ht : t < SIZE := hinv.pop_ticket_lt _ (mem_of_getElem? hc) t rfl
      rw [hturn] at h1
      obtain rfl := succ_mod_SIZE_inj ht ht0 h1
      exact ⟨v, h3, h4⟩
    · cases h

end own

section own
variable {T : Type} {k : Nat} {ops : List (Op T)} {s : System T} {i : Nat}

/-- Looking up a slot after slot `j` was replaced. -/
theorem slot_after_set {slots : List (Slot T)} {j a : Nat} {sl old : Slot T}
    (new : Slot T) (hj : slots[j]? = some old) (ha : slots[a]? = some sl) :
    (a = j ∧ sl = old ∧ (slots.set j new)[a]? = some new) ∨
    (a ≠ j ∧ (slots.set j new)[a]? = some sl) := by
  by_cases h : a = j
  · subst h
    rw [hj] at ha
    obtain rfl := Option.some.inj ha
    exact Or.inl ⟨rfl, rfl, List.getElem?_set_self (List.getElem?_eq_some.1 hj).1⟩
  · exact Or.inr ⟨h, by rw [List.getElem?_set_ne (Ne.symm h)]; exact ha⟩

theorem Own_pushStore {t : Nat} {v : T} {sl : Slot T} (hk : k < 64)
    (hown : Own (2 ^ k) s) (hc : s.calls[i]? = some (.pushStore t v))
    (hsl : s.queue.slots_[t &&& Divisor (2 ^ k)]? = some sl) :
    Own (2 ^ k)
      { queue := { s.queue with
          slots_ := s.queue.slots_.set (t &&& Divisor (2 ^ k)) { sl with storage := some v } },
        calls := s.calls.set i (.pushPublish t v) } := by
  rw [and_Divisor hk] at hsl ⊢
  have hN : 0 < 2 ^ k := Nat.pow_pos (by decide)
  -- the storing call owns the slot: its turn is `t`
  obtain ⟨sl0, hsl0, hturn⟩ := hown.push_owner i _ t hc rfl
  rw [hsl] at hsl0
  obtain rfl := Option.some.inj hsl0
  refine Own_update hown hc rfl ?_ ?_ (Nat.le_refl _) ?_ ?_ ?_ ?_ ?_ ?_ ?_
  · exact hown.push_count.trans (countP_set_same Call.pushClaimed hc (by rfl)).symm
  · intro t' ht
    exact hown.push_lt_head _ (mem_of_getElem? hc) t' ht
  · intro t' ht; exact Or.inl ht
  · intro t' ht; simp [Call.popTicket] at ht
  · intro n d t' hd ht
    have hold : ∃ sl' : Slot T, s.queue.slots_[t' % 2 ^ k]? = some sl' ∧ sl'.turn = t' := by
      rcases getElem?_set_cases hd with ⟨_, rfl⟩ | ⟨_, hd'⟩
      · simp only [Call.pushOwner, Option.some.injEq] at ht
        subst ht
        exact ⟨sl, hsl, hturn⟩
      · exact hown.push_owner n d t' hd' ht
    obtain ⟨sl', h1, h2⟩ := hold
    rcases slot_after_set { sl with storage := some v } hsl h1 with
      ⟨_, rfl, h⟩ | ⟨_, h⟩
    · exact ⟨_, h, h2⟩
    · exact ⟨_, h, h2⟩
  · intro n d t' hd ht
    have hold : ∃ sl' : Slot T, s.queue.slots_[t' % 2 ^ k]? = some sl' ∧
        sl'.turn = (t' + 1) % SIZE := by
      rcases getElem?_set_cases hd with ⟨_, rfl⟩ | ⟨_, hd'⟩
      · simp [Call.popOwner] at ht
      · exact hown.pop_owner n d t' hd' ht
    obtain ⟨sl', h1, h2⟩ := hold
    rcases slot_after_set { sl with storage := some v } hsl h1 with
      ⟨_, rfl, h⟩ | ⟨_, h⟩
    · exact ⟨_, h, h2⟩
    · exact ⟨_, h, h2⟩
  · intro n t' w hd
    rcases getElem?_set_cases hd with ⟨_, h⟩ | ⟨hn, hd'⟩
    · cases h
      exact ⟨_, List.getElem?_set_self (List.getElem?_eq_some.1 hsl).1, rfl⟩
    · obtain ⟨sl', h1, h2⟩ := hown.push_value n t' w hd'
      rcases slot_after_set { sl with storage := some v } hsl h1 with
        ⟨hjj, rfl, _⟩ | ⟨_, h⟩
      · -- another push between store and publish on the same slot holds the same ticket
        exfalso
        obtain ⟨sl'', h3, h4⟩ := hown.push_owner n _ t' hd' rfl
        rw [hjj, hsl] at h3
        obtain rfl := Option.some.inj h3
        rw [hturn] at h4
        subst h4
        exact hn (hown.push_unique n i _ _ t hd' hc rfl rfl)
      · exact ⟨_, h, h2⟩
  · intro a sl' ha hne
    rcases getElem?_set_cases ha with ⟨rfl, rfl⟩ | ⟨_, ha'⟩
    · exact absurd (by simpa using congrArg (· % 2 ^ k) hturn) hne
    · obtain ⟨t0, v0, h1, h2, h3⟩ := hown.readable a sl' ha' hne
      exact ⟨t0, v0, h1, h2, done_mem_set hc rfl _ h3 rfl⟩
  · intro t' r h; rcases h with h | h <;> cases h

theorem Own_pushPublish {t : Nat} {v : T} {sl : Slot T} (hk : k < 64) (h2 : 2 ≤ 2 ^ k)
    (hown : Own (2 ^ k) s) (hc : s.calls[i]? = some (.pushPublish t v))
    (hsl : s.queue.slots_[t &&& Divisor (2 ^ k)]? = some sl) :
    Own (2 ^ k)
      { queue := { s.queue with
          slots_ := s.queue.slots_.set (t &&& Divisor (2 ^ k))
            { sl with turn := (t + 1) % SIZE } },
        calls := s.calls.set i (.pushDone t v) } := by
  rw [and_Divisor hk] at hsl ⊢
  obtain ⟨sl0, hsl0, hturn⟩ := hown.push_owner i _ t hc rfl
  rw [hsl] at hsl0
  obtain rfl := Option.some.inj hsl0
  obtain ⟨sl1, hsl1, hval⟩ := hown.push_value i t v hc
  rw [hsl] at hsl1
  obtain rfl := Option.some.inj hsl1
  refine Own_update hown hc rfl ?_ ?_ (Nat.le_refl _) ?_ ?_ ?_ ?_ ?_ ?_ ?_
  · exact hown.push_count.trans (countP_set_same Call.pushClaimed hc (by rfl)).symm
  · intro t' ht
    exact hown.push_lt_head _ (mem_of_getElem? hc) t' ht
  · intro t' ht; exact Or.inl ht
  · intro t' ht; simp [Call.popTicket] at ht
  · intro n d t' hd ht
    rcases getElem?_set_cases hd with ⟨_, rfl⟩ | ⟨hn, hd'⟩
    · simp [Call.pushOwner] at ht
    · obtain ⟨sl', h1, h3⟩ := hown.push_owner n d t' hd' ht
      rcases slot_after_set { sl with turn := (t + 1) % SIZE } hsl h1 with
        ⟨_, rfl, _⟩ | ⟨_, h⟩
      · exfalso
        rw [hturn] at h3
        subst h3
        have hdt : d.pushTicket = some t := by
          cases d <;> simp_all [Call.pushOwner, Call.pushTicket]
        exact hn (hown.push_unique n i _ _ t hd' hc hdt rfl)
      · exact ⟨_, h, h3⟩
  · intro n d t' hd ht
    rcases getElem?_set_cases hd with ⟨_, rfl⟩ | ⟨hn, hd'⟩
    · simp [Call.popOwner] at ht
    · obtain ⟨sl', h1, h3⟩ := hown.pop_owner n d t' hd' ht
      rcases slot_after_set { sl with turn := (t + 1) % SIZE } hsl h1 with
        ⟨hjj, rfl, _⟩ | ⟨_, h⟩
      · exfalso
        rw [hturn] at h3
        have := congrArg (· % 2 ^ k) h3
        simp only [mod_SIZE_mod hk, hjj.symm] at this
        exact succ_mod_ne h2 t' this.symm
      · exact ⟨_, h, h3⟩
  · intro n t' w hd
    rcases getElem?_set_cases hd with ⟨_, h⟩ | ⟨hn, hd'⟩
    · cases h
    · obtain ⟨sl', h1, h3⟩ := hown.push_value n t' w hd'
      rcases slot_after_set { sl with turn := (t + 1) % SIZE } hsl h1 with
        ⟨_, rfl, h⟩ | ⟨_, h⟩
      · exact ⟨_, h, h3⟩
      · exact ⟨_, h, h3⟩
  · intro a sl' ha hne
    rcases getElem?_set_cases ha with ⟨rfl, rfl⟩ | ⟨_, ha'⟩
    · exact ⟨t, v, rfl, hval, mem_set_new hc⟩
    · obtain ⟨t0, v0, h1, h3, h4⟩ := hown.readable a sl' ha' hne
      exact ⟨t0, v0, h1, h3, done_mem_set hc rfl _ h4 rfl⟩
  · intro t' r h; rcases h with h | h <;> cases h

theorem Own_popPublish {t : Nat} {r : Option T} {sl : Slot T} (hk : k < 64) (h2 : 2 ≤ 2 ^ k)
    (hinv : Inv (2 ^ k) ops s) (hown : Own (2 ^ k) s)
    (hc : s.calls[i]? = some (.popPublish t r))
    (hsl : s.queue.slots_[t &&& Divisor (2 ^ k)]? = some sl) :
    Own (2 ^ k)
      { queue := { s.queue with
          slots_ := s.queue.slots_.set (t &&& Divisor (2 ^ k))
            { sl with turn := (t + 2 ^ k) % SIZE } },
        calls := s.calls.set i (.popDone t r) } := by
  rw [and_Divisor hk] at hsl ⊢
  have htlt : t < SIZE := hinv.pop_ticket_lt _ (mem_of_getElem? hc) t rfl
  obtain ⟨sl0, hsl0, hturn⟩ := hown.pop_owner i _ t hc rfl
  rw [hsl] at hsl0
  obtain rfl := Option.some.inj hsl0
  refine Own_update hown hc rfl ?_ ?_ (Nat.le_refl _) ?_ ?_ ?_ ?_ ?_ ?_ ?_
  · exact hown.push_count.trans (countP_set_same Call.pushClaimed hc (by rfl)).symm
  · intro t' ht; simp [Call.pushTicket] at ht
  · intro t' ht; simp [Call.pushTicket] at ht
  · intro t' ht; exact Or.inl ht
  · intro n d t' hd ht
    rcases getElem?_set_cases hd with ⟨_, rfl⟩ | ⟨hn, hd'⟩
    · simp [Call.pushOwner] at ht
    · obtain ⟨sl', h1, h3⟩ := hown.push_owner n d t' hd' ht
      rcases slot_after_set { sl with turn := (t + 2 ^ k) % SIZE } hsl h1 with
        ⟨hjj, rfl, _⟩ | ⟨_, h⟩
      · exfalso
        rw [hturn] at h3
        have := congrArg (· % 2 ^ k) h3
        simp only [mod_SIZE_mod hk, hjj] at this
        exact succ_mod_ne h2 t this
      · exact ⟨_, h, h3⟩
  · intro n d t' hd ht
    rcases getElem?_set_cases hd with ⟨_, rfl⟩ | ⟨hn, hd'⟩
    · simp [Call.popOwner] at ht
    · obtain ⟨sl', h1, h3⟩ := hown.pop_owner n d t' hd' ht
      rcases slot_after_set { sl with turn := (t + 2 ^ k) % SIZE } hsl h1 with
        ⟨_, rfl, _⟩ | ⟨_, h⟩
      · exfalso
        have hdt : d.popTicket = some t' := by
          cases d <;> simp_all [Call.popOwner, Call.popTicket]
        have ht' : t' < SIZE := hinv.pop_ticket_lt _ (mem_of_getElem? hd') t' hdt
        rw [hturn] at h3
        obtain rfl := succ_mod_SIZE_inj htlt ht' h3
        exact hn (hown.pop_unique n i _ _ t hd' hc hdt rfl)
      · exact ⟨_, h, h3⟩
  · intro n t' w hd
    rcases getElem?_set_cases hd with ⟨_, h⟩ | ⟨hn, hd'⟩
    · cases h
    · obtain ⟨sl', h1, h3⟩ := hown.push_value n t' w hd'
      rcases slot_after_set { sl with turn := (t + 2 ^ k) % SIZE } hsl h1 with
        ⟨_, rfl, h⟩ | ⟨_, h⟩
      · exact ⟨_, h, h3⟩
      · exact ⟨_, h, h3⟩
  · intro a sl' ha hne
    rcases getElem?_set_cases ha with ⟨rfl, rfl⟩ | ⟨_, ha'⟩
    · exfalso
      apply hne
      show (t + 2 ^ k) % SIZE % 2 ^ k = t % 2 ^ k
      rw [mod_SIZE_mod hk, Nat.add_mod_right]
    · obtain ⟨t0, v0, h1, h3, h4⟩ := hown.readable a sl' ha' hne
      exact ⟨t0, v0, h1, h3, done_mem_set hc rfl _ h4 rfl⟩
  · intro t' r' h
    rcases h with h | h
    · cases h
    · cases h
      exact hown.fifo _ (mem_of_getElem? hc) t r (Or.inl rfl)

end own

section own
variable {T : Type} {k : Nat} {ops : List (Op T)} {s : System T}

/-- Case analysis of one atomic step on a state whose ring has `2 ^ k` slots: the step is
defined, and what holds of each possible successor holds of the state it leads to. -/
theorem step_elim (hk : k < 64) (hlen : s.queue.slots_.length = 2 ^ k) (i : Nat)
    {P : System T → Prop} (hsame : P s)
    (hpushIdle : ∀ v, s.calls[i]? = some (.pushIdle v) →
      P { queue := { s.queue with head_ := (s.queue.head_ + 1) % SIZE },
          calls := s.calls.set i (.pushWait s.queue.head_ v) })
    (hpushWait : ∀ t v sl, s.calls[i]? = some (.pushWait t v) →
      s.queue.slots_[t &&& Divisor (2 ^ k)]? = some sl → sl.turn = t →
      P { s with calls := s.calls.set i (.pushStore t v) })
    (hpushStore : ∀ t v sl, s.calls[i]? = some (.pushStore t v) →
      s.queue.slots_[t &&& Divisor (2 ^ k)]? = some sl →
      P { queue := { s.queue with
            slots_ := s.queue.slots_.set (t &&& Divisor (2 ^ k))
              { sl with storage := some v } },
          calls := s.calls.set i (.pushPublish t v) })
    (hpushPublish : ∀ t v sl, s.calls[i]? = some (.pushPublish t v) →
      s.queue.slots_[t &&& Divisor (2 ^ k)]? = some sl →
      P { queue := { s.queue with
            slots_ := s.queue.slots_.set (t &&& Divisor (2 ^ k))
              { sl with turn := (t + 1) % SIZE } },
          calls := s.calls.set i (.pushDone t v) })
    (hpopIdle : s.calls[i]? = some .popIdle →
      P { queue := { s.queue with tail_ := (s.queue.tail_ + 1) % SIZE },
          calls := s.calls.set i (.popWait s.queue.tail_) })
    (hpopWait : ∀ t sl, s.calls[i]? = some (.popWait t) →
      s.queue.slots_[t &&& Divisor (2 ^ k)]? = some sl → sl.turn = (t + 1) % SIZE →
      P { s with calls := s.calls.set i (.popLoad t) })
    (hpopLoad : ∀ t sl, s.calls[i]? = some (.popLoad t) →
      s.queue.slots_[t &&& Divisor (2 ^ k)]? = some sl →
      P { s with calls := s.calls.set i (.popPublish t sl.storage) })
    (hpopPublish : ∀ t r sl, s.calls[i]? = some (.popPublish t r) →
      s.queue.slots_[t &&& Divisor (2 ^ k)]? = some sl →
      P { queue := { s.queue with
            slots_ := s.queue.slots_.set (t &&& Divisor (2 ^ k))
              { sl with turn := (t + 2 ^ k) % SIZE } },
          calls := s.calls.set i (.popDone t r) }) :
    ∃ s', step (2 ^ k) s i = some s' ∧ P s' := by
  have hslot : ∀ t, ∃ sl, s.queue.slots_[t &&& Divisor (2 ^ k)]? = some sl := by
    intro t
    have h : t &&& Divisor (2 ^ k) < s.queue.slots_.length := by
      rw [and_Divisor hk, hlen]
      exact Nat.mod_lt _ (Nat.pow_pos (by decide))
    exact ⟨_, List.getElem?_eq_getElem h⟩
  cases hc : s.calls[i]? with
  | none => exact ⟨s, step_none hc, hsame⟩
  | some c =>
    cases c with
    | pushIdle v =>
      obtain ⟨sl, hsl⟩ := hslot s.queue.head_
      exact ⟨_, step_pushIdle hc hsl, hpushIdle v hc⟩
    | pushWait t v =>
      obtain ⟨sl, hsl⟩ := hslot t
      refine ⟨_, step_pushWait hc hsl, ?_⟩
      split
      · rename_i hturn
        exact hpushWait t v sl hc hsl hturn
      · exact hsame
    | pushStore t v =>
      obtain ⟨sl, hsl⟩ := hslot t
      exact ⟨_, step_pushStore hc hsl, hpushStore t v sl hc hsl⟩
    | pushPublish t v =>
      obtain ⟨sl, hsl⟩ := hslot t
      exact ⟨_, step_pushPublish hc hsl, hpushPublish t v sl hc hsl⟩
    | pushDone t v => exact ⟨s, step_pushDone hc, hsame⟩
    | popIdle =>
      obtain ⟨sl, hsl⟩ := hslot s.queue.tail_
      exact ⟨_, step_popIdle hc hsl, hpopIdle hc⟩
    | popWait t =>
      obtain ⟨sl, hsl⟩ := hslot t
      refine ⟨_, step_popWait hc hsl, ?_⟩
      split
      · rename_i hturn
        exact hpopWait t sl hc hsl hturn
      · exact hsame
    | popLoad t =>
      obtain ⟨sl, hsl⟩ := hslot t
      exact ⟨_, step_popLoad hc hsl, hpopLoad t sl hc hsl⟩
    | popPublish t r =>
      obtain ⟨sl, hsl⟩ := hslot t
      exact ⟨_, step_popPublish hc hsl, hpopPublish t r sl hc hsl⟩
    | popDone t r => exact ⟨s, step_popDone hc, hsame⟩

/-- With at least two slots and fewer than `2 ^ 64` calls, every atomic step keeps both
invariants. -/
theorem Own_step (hk : k < 64) (h2 : 2 ≤ 2 ^ k) (hb : ops.length < SIZE)
    (hinv : Inv (2 ^ k) ops s) (hown : Own (2 ^ k) s) (i : Nat) :
    ∃ s', step (2 ^ k) s i = some s' ∧ Inv (2 ^ k) ops s' ∧ Own (2 ^ k) s' := by
  refine step_elim hk hinv.slots_len i (P := fun s' => Inv (2 ^ k) ops s' ∧ Own (2 ^ k) s')
    ⟨hinv, hown⟩ ?_ ?_ ?_ ?_ ?_ ?_ ?_ ?_
  · intro v hc
    exact ⟨Inv_pushIdle hinv hc, Own_pushIdle hb hinv hown hc⟩
  · intro t v sl hc hsl hturn
    exact ⟨Inv_pushWait hinv hc, Own_pushWait hk hown hc hsl hturn⟩
  · intro t v sl hc hsl
    exact ⟨Inv_pushStore hk hinv hc hsl, Own_pushStore hk hown hc hsl⟩
  · intro t v sl hc hsl
    exact ⟨Inv_pushPublish hk hinv hc hsl, Own_pushPublish hk h2 hown hc hsl⟩
  · intro hc
    exact ⟨Inv_popIdle hinv hc, Own_popIdle hb hinv hown hc⟩
  · intro t sl hc hsl hturn
    exact ⟨Inv_popWait hk (Or.inl h2) hinv hc hsl hturn, Own_popWait hk hown hc hsl hturn⟩
  · intro t sl hc hsl
    exact ⟨Inv_popLoad hk hinv hc hsl, Own_popLoad hk h2 hinv hown hc hsl⟩
  · intro t r sl hc hsl
    exact ⟨Inv_popPublish hk hinv hc hsl, Own_popPublish hk h2 hinv hown hc hsl⟩

/-- The same along a schedule. -/
theorem Own_run (hk : k < 64) (h2 : 2 ≤ 2 ^ k) (hb : ops.length < SIZE)
    (hinv : Inv (2 ^ k) ops s) (hown : Own (2 ^ k) s) (sched : List Nat) :
    ∃ s', run (2 ^ k) s sched = some s' ∧ Inv (2 ^ k) ops s' ∧ Own (2 ^ k) s' := by
  induction sched generalizing s with
  | nil => exact ⟨s, rfl, hinv, hown⟩
  | cons i sched ih =>
    obtain ⟨s1, h1, hinv1, hown1⟩ := Own_step hk h2 hb hinv hown i
    obtain ⟨s', h', hinv', hown'⟩ := ih hinv1 hown1
    exact ⟨s', by simp [run, h1, h'], hinv', hown'⟩

end own

/-- Strict FIFO by ticket for every capacity `2 ^ k ≥ 2` (fewer than `2 ^ 64` calls): in
every state reached from the fresh queue, a pop that has read with ticket `t` has read
the value passed to the one push holding ticket `t`, and that push has returned. -/
theorem fifo_two_slots {T : Type} (k : Nat) (hk : k < 64) (h2 : 2 ≤ 2 ^ k) (ops : List (Op T))
    (hb : ops.length < SIZE) (sched : List Nat) :
    ∃ s, run (2 ^ k) (System.fresh (2 ^ k) ops) sched = some s ∧
      ∀ (i t : Nat) (r : Option T),
        (s.calls[i]? = some (Call.popPublish t r) ∨ s.calls[i]? = some (Call.popDone t r)) →
        ∃ (j : Nat) (v : T), r = some v ∧ ops[j]? = some (Op.push v) ∧
          s.calls[j]? = some (Call.pushDone t v) ∧
          ∀ (n : Nat) (d : Call T), s.calls[n]? = some d → d.pushTicket = some t → n = j := by
  obtain ⟨s, hrun, hinv, hown⟩ :=
    Own_run hk h2 hb (Inv_fresh (2 ^ k) ops) (Own_fresh (2 ^ k) ops) sched
  refine ⟨s, hrun, ?_⟩
  intro i t r hc
  have hfifo : ∃ v, r = some v ∧ Call.pushDone t v ∈ s.calls := by
    rcases hc with hc | hc
    · exact hown.fifo _ (mem_of_getElem? hc) t r (Or.inl rfl)
    · exact hown.fifo _ (mem_of_getElem? hc) t r (Or.inr rfl)
  obtain ⟨v, hv, hm⟩ := hfifo
  obtain ⟨j, hj⟩ := List.mem_iff_getElem?.1 hm
  refine ⟨j, v, hv, ?_, hj, ?_⟩
  · rw [← hinv.calls_op, List.getElem?_map, hj]
    rfl
  · intro n d hd hdt
    exact hown.push_unique n j d _ t hd hj hdt rfl

/-- Exclusive slot ownership for every capacity `2 ^ k ≥ 2` (fewer than `2 ^ 64` calls):
in every state reached from the fresh queue, two distinct calls that have left their
wait loop and not yet published are on different slots. -/
theorem ownership_two_slots {T : Type} (k : Nat) (hk : k < 64) (h2 : 2 ≤ 2 ^ k)
    (ops : List (Op T)) (hb : ops.length < SIZE) (sched : List Nat) :
    ∃ s, run (2 ^ k) (System.fresh (2 ^ k) ops) sched = some s ∧
      ∀ (i j : Nat) (c d : Call T) (a b : Nat), i ≠ j →
        s.calls[i]? = some c → s.calls[j]? = some d →
        (c.pushOwner = some a ∨ c.popOwner = some a) →
        (d.pushOwner = some b ∨ d.popOwner = some b) →
        a &&& Divisor (2 ^ k) ≠ b &&& Divisor (2 ^ k) := by
  obtain ⟨s, hrun, hinv, hown⟩ :=
    Own_run hk h2 hb (Inv_fresh (2 ^ k) ops) (Own_fresh (2 ^ k) ops) sched
  refine ⟨s, hrun, ?_⟩
  intro i j c d a b hij hc hd ha hb' hslot
  rw [and_Divisor hk, and_Divisor hk] at hslot
  have hpush : ∀ (c : Call T) (t : Nat), c.pushOwner = some t → c.pushTicket = some t := by
    intro c t h
    cases c <;> simp_all [Call.pushOwner, Call.pushTicket]
  have hpop : ∀ (c : Call T) (t : Nat), c.popOwner = some t → c.popTicket = some t := by
    intro c t h
    cases c <;> simp_all [Call.popOwner, Call.popTicket]
  rcases ha with ha | ha <;> rcases hb' with hb' | hb'
  · obtain ⟨sl, h1, h3⟩ := hown.push_owner i c a hc ha
    obtain ⟨sl', h1', h3'⟩ := hown.push_owner j d b hd hb'
    rw [hslot, h1'] at h1
    obtain rfl := Option.some.inj h1
    rw [h3] at h3'
    subst h3'
    exact hij (hown.push_unique i j c d _ hc hd (hpush c _ ha) (hpush d _ hb'))
  · obtain ⟨sl, h1, h3⟩ := hown.push_owner i c a hc ha
    obtain ⟨sl', h1', h3'⟩ := hown.pop_owner j d b hd hb'
    rw [hslot, h1'] at h1
    obtain rfl := Option.some.inj h1
    rw [h3] at h3'
    have := congrArg (· % 2 ^ k) h3'
    simp only [mod_SIZE_mod hk, hslot] at this
    exact succ_mod_ne h2 b this.symm
  · obtain ⟨sl, h1, h3⟩ := hown.pop_owner i c a hc ha
    obtain ⟨sl', h1', h3'⟩ := hown.push_owner j d b hd hb'
    rw [hslot, h1'] at h1
    obtain rfl := Option.some.inj h1
    rw [h3'] at h3
    have := congrArg (· % 2 ^ k) h3
    simp only [mod_SIZE_mod hk, ← hslot] at this
    exact succ_mod_ne h2 a this.symm
  · obtain ⟨sl, h1, h3⟩ := hown.pop_owner i c a hc ha
    obtain ⟨sl', h1', h3'⟩ := hown.pop_owner j d b hd hb'
    rw [hslot, h1'] at h1
    obtain rfl := Option.some.inj h1
    rw [h3] at h3'
    have ha' : a < SIZE := hinv.pop_ticket_lt _ (mem_of_getElem? hc) a (hpop c _ ha)
    have hb'' : b < SIZE := hinv.pop_ticket_lt _ (mem_of_getElem? hd) b (hpop d _ hb')
    obtain rfl := succ_mod_SIZE_inj ha' hb'' h3'
    exact hij (hown.pop_unique i j c d _ hc hd (hpop c _ ha) (hpop d _ hb'))

section cap
variable {T : Type} {k : Nat} {ops : List (Op T)} {s : System T} {i : Nat}

theorem PushAfterPop_update {N : Nat} {old c : Call T} {q : MPMCSimpleQueue T}
    (h : PushAfterPop N s) (hc : s.calls[i]? = some old) (hold : old.isDone = false)
    (hnew : ∀ t, c.pushPassed = some t →
      old.pushPassed = some t ∨ t < N ∨
        (N ≤ t ∧ ∃ r, Call.popDone (t - N) r ∈ s.calls)) :
    PushAfterPop N { queue := q, calls := s.calls.set i c } := by
  have hdone := done_mem_set (c := c) hc hold
  intro d hd t ht
  have key : t < N ∨ (N ≤ t ∧ ∃ r, Call.popDone (t - N) r ∈ s.calls) := by
    rcases (List.mem_or_eq_of_mem_set hd) with hd | rfl
    · exact h d hd t ht
    · rcases hnew t ht with h1 | h1
      · exact h old (mem_of_getElem? hc) t h1
      · exact h1
  rcases key with h1 | ⟨h1, r, hr⟩
  · exact Or.inl h1
  · exact Or.inr ⟨h1, r, hdone _ hr rfl⟩

theorem PushAfterPop_fresh (N : Nat) (ops : List (Op T)) :
    PushAfterPop N (System.fresh N ops) := by
  intro c hc t ht
  obtain ⟨o, _, rfl⟩ := List.mem_map.1 hc
  cases o <;> simp [Op.start, Call.pushPassed] at ht

/-- With at least two slots and no turn that can wrap, a push leaves its wait loop on the
turn the constructor wrote or on the turn `t' + N` written by the pop holding `t - N`. -/
theorem PushAfterPop_step (hk : k < 64) (h2 : 2 ≤ 2 ^ k) (hcap : ops.length + 2 ^ k ≤ SIZE)
    (hinv : Inv (2 ^ k) ops s) (h : PushAfterPop (2 ^ k) s) (i : Nat) :
    ∃ s', step (2 ^ k) s i = some s' ∧ PushAfterPop (2 ^ k) s' := by
  refine step_elim hk hinv.slots_len i h ?_ ?_ ?_ ?_ ?_ ?_ ?_ ?_
  · intro v hc
    exact PushAfterPop_update h hc rfl (fun t ht => by simp [Call.pushPassed] at ht)
  · intro t v sl hc hsl hturn
    refine PushAfterPop_update h hc rfl ?_
    intro t' ht
    simp only [Call.pushPassed, Option.some.injEq] at ht
    subst ht
    right
    have hsrc := hinv.turn_src _ sl hsl
    rw [and_Divisor hk, hturn] at hsrc
    rcases hsrc with h1 | ⟨t', w, hm, hx, hj⟩ | ⟨t', r, hm, hx, hj⟩
    · left
      rw [h1]
      exact Nat.mod_lt _ (by omega)
    · exfalso
      have := congrArg (· % 2 ^ k) hx
      simp only [mod_SIZE_mod hk, ← hj] at this
      exact succ_mod_ne h2 t' this.symm
    · right
      have hb : ops.length < SIZE := by omega
      have h1 := (hinv.pop_count hb).2 _ hm t' rfl
      have h3 := (hinv.pop_count hb).1
      have h4 := List.countP_le_length Call.popClaimed (l := s.calls)
      rw [hinv.calls_len] at h4
      rw [Nat.mod_eq_of_lt (by omega)] at hx
      refine ⟨by omega, r, ?_⟩
      have : t - 2 ^ k = t' := by omega
      rw [this]
      exact hm
  · intro t v sl hc hsl
    exact PushAfterPop_update h hc rfl (fun t' ht => Or.inl ht)
  · intro t v sl hc hsl
    exact PushAfterPop_update h hc rfl (fun t' ht => Or.inl ht)
  · intro hc
    exact PushAfterPop_update h hc rfl (fun t ht => by simp [Call.pushPassed] at ht)
  · intro t sl hc hsl hturn
    exact PushAfterPop_update h hc rfl (fun t ht => by simp [Call.pushPassed] at ht)
  · intro t sl hc hsl
    exact PushAfterPop_update h hc rfl (fun t ht => by simp [Call.pushPassed] at ht)
  · intro t r sl hc hsl
    exact PushAfterPop_update h hc rfl (fun t ht => by simp [Call.pushPassed] at ht)

theorem Balanced_fresh (N : Nat) (ops : List (Op T)) : Balanced N (System.fresh N ops) := by
  intro j sl hj
  have h1 : (System.fresh N ops).calls.countP (Call.pushDoneAt N j) = 0 := by
    rw [List.countP_eq_zero]
    intro c hc
    obtain ⟨o, _, rfl⟩ := List.mem_map.1 hc
    cases o <;> simp [Op.start, Call.pushDoneAt]
  have h2 : (System.fresh N ops).calls.countP (Call.popDoneAt N j) = 0 := by
    rw [List.countP_eq_zero]
    intro c hc
    obtain ⟨o, _, rfl⟩ := List.mem_map.1 hc
    cases o <;> simp [Op.start, Call.popDoneAt]
  rw [h1, h2]
  simp only [System.fresh, new_eq, List.getElem?_map] at hj
  by_cases hjN : j < N
  · rw [List.getElem?_range hjN] at hj
    simp only [Option.map_some', Option.some.injEq] at hj
    subst hj
    simp [Nat.mod_eq_of_lt hjN]
  · rw [List.getElem?_eq_none (by simpa using Nat.le_of_not_lt hjN)] at hj
    simp at hj

/-- A step that publishes nothing keeps the balance of every slot. -/
theorem Balanced_update_calls {N : Nat} {old c : Call T} {q : MPMCSimpleQueue T}
    (h : Balanced N s) (hc : s.calls[i]? = some old)
    (hturn : ∀ (j : Nat) (sl : Slot T), q.slots_[j]? = some sl →
      ∃ sl' : Slot T, s.queue.slots_[j]? = some sl' ∧ sl'.turn = sl.turn)
    (hold : old.isDone = false) (hnew : c.isDone = false) :
    Balanced N { queue := q, calls := s.calls.set i c } := by
  intro j sl hj
  obtain ⟨sl', h1, h3⟩ := hturn j sl hj
  have hp : ∀ d : Call T, d.isDone = false →
      Call.pushDoneAt N j d = false ∧ Call.popDoneAt N j d = false := by
    intro d hd
    cases d <;> simp_all [Call.isDone, Call.pushDoneAt, Call.popDoneAt]
  show (s.calls.set i c).countP _ = (s.calls.set i c).countP _ + _
  rw [countP_set_same _ hc (by rw [(hp c hnew).1, (hp old hold).1]),
    countP_set_same _ hc (by rw [(hp c hnew).2, (hp old hold).2]), ← h3]
  exact h j sl' h1

end cap

section cap
variable {T : Type} {k : Nat} {ops : List (Op T)} {s : System T} {i : Nat}

/-- With at least two slots every atomic step keeps the balance of every slot. -/
theorem Balanced_step (hk : k < 64) (h2 : 2 ≤ 2 ^ k) (hinv : Inv (2 ^ k) ops s)
    (hown : Own (2 ^ k) s) (h : Balanced (2 ^ k) s) (i : Nat) :
    ∃ s', step (2 ^ k) s i = some s' ∧ Balanced (2 ^ k) s' := by
  have hid : ∀ (j : Nat) (sl : Slot T), s.queue.slots_[j]? = some sl →
      ∃ sl' : Slot T, s.queue.slots_[j]? = some sl' ∧ sl'.turn = sl.turn :=
    fun j sl hj => ⟨sl, hj, rfl⟩
  refine step_elim hk hinv.slots_len i h ?_ ?_ ?_ ?_ ?_ ?_ ?_ ?_
  · intro v hc
    exact Balanced_update_calls h hc hid rfl rfl
  · intro t v sl hc hsl hturn
    exact Balanced_update_calls h hc hid rfl rfl
  · intro t v sl hc hsl
    refine Balanced_update_calls h hc ?_ rfl rfl
    intro j sl' hj
    rcases getElem?_set_cases hj with ⟨rfl, rfl⟩ | ⟨_, hj'⟩
    · exact ⟨sl, hsl, rfl⟩
    · exact ⟨sl', hj', rfl⟩
  · intro t v sl hc hsl
    rw [and_Divisor hk] at hsl ⊢
    obtain ⟨sl0, hsl0, hturn⟩ := hown.push_owner i _ t hc rfl
    rw [hsl] at hsl0
    obtain rfl := Option.some.inj hsl0
    have hbal := h _ sl hsl
    rw [if_pos (by rw [hturn])] at hbal
    intro j sl' hj
    show (s.calls.set i (.pushDone t v)).countP _ = (s.calls.set i (.pushDone t v)).countP _ + _
    rw [countP_set_same (Call.popDoneAt (2 ^ k) j) hc (by rfl)]
    rcases getElem?_set_cases hj with ⟨rfl, rfl⟩ | ⟨hne, hj'⟩
    · rw [countP_set_new _ hc (by rfl) (by simp [Call.pushDoneAt]), hbal]
      have : ¬ (t + 1) % SIZE % 2 ^ k = t % 2 ^ k := by
        rw [mod_SIZE_mod hk]
        exact succ_mod_ne h2 t
      simp [this]
    · rw [countP_set_same _ hc
        (by simp [Call.pushDoneAt]; exact fun e => hne e.symm)]
      exact h j sl' hj'
  · intro hc
    exact Balanced_update_calls h hc hid rfl rfl
  · intro t sl hc hsl hturn
    exact Balanced_update_calls h hc hid rfl rfl
  · intro t sl hc hsl
    exact Balanced_update_calls h hc hid rfl rfl
  · intro t r sl hc hsl
    rw [and_Divisor hk] at hsl ⊢
    obtain ⟨sl0, hsl0, hturn⟩ := hown.pop_owner i _ t hc rfl
    rw [hsl] at hsl0
    obtain rfl := Option.some.inj hsl0
    have hbal := h _ sl hsl
    rw [if_neg (by rw [hturn, mod_SIZE_mod hk]; exact succ_mod_ne h2 t)] at hbal
    intro j sl' hj
    show (s.calls.set i (.popDone t r)).countP _ = (s.calls.set i (.popDone t r)).countP _ + _
    rw [countP_set_same (Call.pushDoneAt (2 ^ k) j) hc (by rfl)]
    rcases getElem?_set_cases hj with ⟨rfl, rfl⟩ | ⟨hne, hj'⟩
    · rw [countP_set_new _ hc (by rfl) (by simp [Call.popDoneAt]), hbal]
      have : (t + 2 ^ k) % SIZE % 2 ^ k = t % 2 ^ k := by
        rw [mod_SIZE_mod hk, Nat.add_mod_right]
      simp [this]
    · rw [countP_set_same _ hc
        (by simp [Call.popDoneAt]; exact fun e => hne e.symm)]
      exact h j sl' hj'

/-- Counting the returned pushes slot by slot. -/
theorem countP_pushDone_eq_sum {N : Nat} (hN : 0 < N) (l : List (Call T)) :
    l.countP Call.isPushDone = ∑ j ∈ Finset.range N, l.countP (Call.pushDoneAt N j) := by
  induction l with
  | nil => simp
  | cons c l ih =>
    simp only [List.countP_cons, Finset.sum_add_distrib, ih]
    congr 1
    cases c with
    | pushDone t v =>
      have hmem : t % N ∈ Finset.range N := Finset.mem_range.2 (Nat.mod_lt _ hN)
      simp [Call.isPushDone, Call.pushDoneAt, Finset.sum_ite_eq, hmem]
    | _ => simp [Call.isPushDone, Call.pushDoneAt]

/-- Counting the returned pops slot by slot. -/
theorem countP_popDone_eq_sum {N : Nat} (hN : 0 < N) (l : List (Call T)) :
    l.countP Call.isPopDone = ∑ j ∈ Finset.range N, l.countP (Call.popDoneAt N j) := by
  induction l with
  | nil => simp
  | cons c l ih =>
    simp only [List.countP_cons, Finset.sum_add_distrib, ih]
    congr 1
    cases c with
    | popDone t v =>
      have hmem : t % N ∈ Finset.range N := Finset.mem_range.2 (Nat.mod_lt _ hN)
      simp [Call.isPopDone, Call.popDoneAt, Finset.sum_ite_eq, hmem]
    | _ => simp [Call.isPopDone, Call.popDoneAt]

/-- A balanced ring of `N` slots: at most `N` more pushes than pops have returned. -/
theorem Balanced.bound {N : Nat} (hN : 0 < N) (hlen : s.queue.slots_.length = N)
    (h : Balanced N s) :
    s.calls.countP Call.isPushDone ≤ s.calls.countP Call.isPopDone + N := by
  rw [countP_pushDone_eq_sum hN, countP_popDone_eq_sum hN]
  have hle : ∀ j ∈ Finset.range N,
      s.calls.countP (Call.pushDoneAt N j) ≤ s.calls.countP (Call.popDoneAt N j) + 1 := by
    intro j hj
    have hj' : j < s.queue.slots_.length := by rw [hlen]; exact Finset.mem_range.1 hj
    have := h j _ (List.getElem?_eq_getElem hj')
    rw [this]
    split <;> omega
  calc ∑ j ∈ Finset.range N, s.calls.countP (Call.pushDoneAt N j)
      ≤ ∑ j ∈ Finset.range N, (s.calls.countP (Call.popDoneAt N j) + 1) :=
        Finset.sum_le_sum hle
    _ = ∑ j ∈ Finset.range N, s.calls.countP (Call.popDoneAt N j) + N := by
        rw [Finset.sum_add_distrib]; simp

end cap

section cap
variable {T : Type} {k : Nat} {ops : List (Op T)} {s : System T}

/-- With at least two slots and no turn that can wrap, all four invariants hold along
every schedule. -/
theorem Cap_run (hk : k < 64) (h2 : 2 ≤ 2 ^ k) (hcap : ops.length + 2 ^ k ≤ SIZE)
    (hinv : Inv (2 ^ k) ops s) (hown : Own (2 ^ k) s) (hpap : PushAfterPop (2 ^ k) s)
    (hbal : Balanced (2 ^ k) s) (sched : List Nat) :
    ∃ s', run (2 ^ k) s sched = some s' ∧ Inv (2 ^ k) ops s' ∧ Own (2 ^ k) s' ∧
      PushAfterPop (2 ^ k) s' ∧ Balanced (2 ^ k) s' := by
  induction sched generalizing s with
  | nil => exact ⟨s, rfl, hinv, hown, hpap, hbal⟩
  | cons i sched ih =>
    obtain ⟨s1, h1, hinv1, hown1⟩ := Own_step hk h2 (by omega) hinv hown i
    obtain ⟨s2, h2', hpap1⟩ := PushAfterPop_step hk h2 hcap hinv hpap i
    obtain ⟨s3, h3, hbal1⟩ := Balanced_step hk h2 hinv hown hbal i
    rw [h1] at h2' h3
    obtain rfl := Option.some.inj h2'
    obtain rfl := Option.some.inj h3
    obtain ⟨s', h', hr⟩ := ih hinv1 hown1 hpap1 hbal1
    exact ⟨s', by simp [run, h1, h'], hr⟩

end cap

/-- Capacity bound for every capacity `N = 2 ^ k ≥ 2` (fewer than `2 ^ 64 - N` calls): in
every state reached from the fresh queue at most `N` more pushes than pops have returned,
and a push that has left its wait loop with a ticket `t ≥ N` finds the pop holding ticket
`t - N` returned. -/
theorem capacity_two_slots {T : Type} (k : Nat) (hk : k < 64) (h2 : 2 ≤ 2 ^ k)
    (ops : List (Op T)) (hcap : ops.length + 2 ^ k ≤ SIZE) (sched : List Nat) :
    ∃ s, run (2 ^ k) (System.fresh (2 ^ k) ops) sched = some s ∧
      s.calls.countP Call.isPushDone ≤ s.calls.countP Call.isPopDone + 2 ^ k ∧
      ∀ (i : Nat) (c : Call T) (t : Nat), s.calls[i]? = some c → c.pushPassed = some t →
        2 ^ k ≤ t →
        ∃ (j : Nat) (r : Option T), s.calls[j]? = some (Call.popDone (t - 2 ^ k) r) := by
  obtain ⟨s, hrun, hinv, _, hpap, hbal⟩ :=
    Cap_run hk h2 hcap (Inv_fresh (2 ^ k) ops) (Own_fresh (2 ^ k) ops)
      (PushAfterPop_fresh (2 ^ k) ops) (Balanced_fresh (2 ^ k) ops) sched
  refine ⟨s, hrun, hbal.bound (Nat.pow_pos (by decide)) hinv.slots_len, ?_⟩
  intro i c t hc ht hle
  rcases hpap c (mem_of_getElem? hc) t ht with h | ⟨_, r, hr⟩
  · omega
  · obtain ⟨j, hj⟩ := List.mem_iff_getElem?.1 hr
    exact ⟨j, r, hj⟩

/-! ### Lists of tickets -/

theorem nodup_filterMap_of_unique {α β : Type} {l : List α} {f : α → Option β}
    (h : ∀ (i j : Nat) (a b : α) (t : β), l[i]? = some a → l[j]? = some b →
      f a = some t → f b = some t → i = j) :
    (l.filterMap f).Nodup := by
  induction l with
  | nil => simp
  | cons a l ih =>
    have ih' := ih (fun i j x y t hx hy hfx hfy =>
      Nat.succ.inj (h (i + 1) (j + 1) x y t (by simpa using hx) (by simpa using hy) hfx hfy))
    rw [List.filterMap_cons]
    cases hfa : f a with
    | none => exact ih'
    | some t =>
      refine List.nodup_cons.2 ⟨?_, ih'⟩
      intro hmem
      obtain ⟨b, hb, hfb⟩ := List.mem_filterMap.1 hmem
      obtain ⟨n, hn⟩ := List.mem_iff_getElem?.1 hb
      have := h 0 (n + 1) a b t (by simp) (by simpa using hn) hfa hfb
      omega

theorem length_filterMap_eq_countP {α β : Type} (l : List α) (f : α → Option β) :
    (l.filterMap f).length = l.countP (fun a => (f a).isSome) := by
  induction l with
  | nil => simp
  | cons a l ih =>
    rw [List.filterMap_cons, List.countP_cons]
    cases hfa : f a with
    | none => simpa using ih
    | some t => simp [ih]

theorem perm_range_of_nodup {l : List Nat} {n : Nat} (hnd : l.Nodup)
    (hlt : ∀ x ∈ l, x < n) (hlen : l.length = n) : l.Perm (List.range n) := by
  refine List.perm_of_nodup_nodup_toFinset_eq hnd (List.nodup_range n) ?_
  have hsub : l.toFinset ⊆ (List.range n).toFinset := by
    intro x hx
    simp only [List.mem_toFinset, List.mem_range] at hx ⊢
    exact hlt x hx
  refine Finset.eq_of_subset_of_card_le hsub ?_
  rw [List.toFinset_card_of_nodup hnd, List.toFinset_card_of_nodup (List.nodup_range n),
    List.length_range, hlen]

theorem findSome?_eq_of_forall {α β : Type} {l : List α} {f : α → Option β} {v : β}
    (hex : ∃ a ∈ l, f a = some v) (hall : ∀ a ∈ l, f a = none ∨ f a = some v) :
    l.findSome? f = some v := by
  induction l with
  | nil => simp at hex
  | cons a l ih =>
    rw [List.findSome?_cons]
    rcases hall a (List.mem_cons_self a l) with h | h
    · rw [h]
      obtain ⟨b, hb, hfb⟩ := hex
      rcases List.mem_cons.1 hb with rfl | hb
      · rw [h] at hfb
        exact Option.noConfusion hfb
      · exact ih ⟨b, hb, hfb⟩ (fun x hx => hall x (List.mem_cons_of_mem a hx))
    · rw [h]

section loss
variable {T : Type} {N : Nat} {s : System T}

/-- The value recorded for ticket `t` is that of the one push holding `t`. -/
theorem valueAt_eq (hown : Own N s) {t : Nat} {v : T} (hm : Call.pushDone t v ∈ s.calls) :
    valueAt s.calls t = some v := by
  obtain ⟨j, hj⟩ := List.mem_iff_getElem?.1 hm
  refine findSome?_eq_of_forall ⟨_, hm, by simp [Call.pushTicket, Call.op, Op.value]⟩ ?_
  intro c hc
  by_cases hct : c.pushTicket = some t
  · obtain ⟨n, hn⟩ := List.mem_iff_getElem?.1 hc
    obtain rfl := hown.push_unique n j c _ t hn hj hct rfl
    rw [hj] at hn
    obtain rfl := Option.some.inj hn
    right
    simp [Call.pushTicket, Call.op, Op.value]
  · left
    simp [hct]

end loss

/-- No loss, no duplication for every capacity `2 ^ k ≥ 2` (fewer than `2 ^ 64` calls):
when all calls of an execution from the fresh queue have returned and the pushes are as
many as the pops, the values returned by the pops are, up to order, the values passed to
the pushes. -/
theorem no_loss_two_slots {T : Type} (k : Nat) (hk : k < 64) (h2 : 2 ≤ 2 ^ k)
    (ops : List (Op T)) (hb : ops.length < SIZE) (sched : List Nat) :
    ∃ s, run (2 ^ k) (System.fresh (2 ^ k) ops) sched = some s ∧
      ((∀ c ∈ s.calls, c.isDone = true) →
        ops.countP Op.isPush = ops.countP (fun o => !o.isPush) →
        (s.calls.filterMap Call.returned).Perm ((ops.filterMap Op.value).map some)) := by
  obtain ⟨s, hrun, hinv, hown⟩ :=
    Own_run hk h2 hb (Inv_fresh (2 ^ k) ops) (Own_fresh (2 ^ k) ops) sched
  refine ⟨s, hrun, ?_⟩
  intro hdone hM
  -- the tickets of the pushes are 0, ..., head_ - 1, those of the pops 0, ..., tail_ - 1
  have hpush : (s.calls.filterMap Call.pushTicket).Perm (List.range s.queue.head_) := by
    refine perm_range_of_nodup (nodup_filterMap_of_unique hown.push_unique) ?_ ?_
    · intro x hx
      obtain ⟨c, hc, hcx⟩ := List.mem_filterMap.1 hx
      exact hown.push_lt_head c hc x hcx
    · rw [length_filterMap_eq_countP, hown.push_count]
      rfl
  have hpop : (s.calls.filterMap Call.popTicket).Perm (List.range s.queue.tail_) := by
    refine perm_range_of_nodup (nodup_filterMap_of_unique hown.pop_unique) ?_ ?_
    · intro x hx
      obtain ⟨c, hc, hcx⟩ := List.mem_filterMap.1 hx
      exact (hinv.pop_count hb).2 c hc x hcx
    · rw [length_filterMap_eq_countP, (hinv.pop_count hb).1]
      rfl
  -- as many tickets of either kind
  have hhead : s.queue.head_ = ops.countP Op.isPush := by
    rw [hown.push_count, ← hinv.calls_op, List.countP_map]
    refine List.countP_congr ?_
    intro c hc
    have := hdone c hc
    cases c <;> simp_all [Call.isDone, Call.pushClaimed, Call.pushTicket, Call.op, Op.isPush]
  have htail : s.queue.tail_ = ops.countP (fun o => !o.isPush) := by
    rw [(hinv.pop_count hb).1, ← hinv.calls_op, List.countP_map]
    refine List.countP_congr ?_
    intro c hc
    have := hdone c hc
    cases c <;> simp_all [Call.isDone, Call.popClaimed, Call.popTicket, Call.op, Op.isPush]
  have hperm : (s.calls.filterMap Call.popTicket).Perm (s.calls.filterMap Call.pushTicket) := by
    rw [hhead] at hpush
    rw [htail, ← hM] at hpop
    exact hpop.trans hpush.symm
  -- both lists of values are read off the tickets
  have hres : s.calls.filterMap Call.returned =
      (s.calls.filterMap Call.popTicket).map (valueAt s.calls) := by
    rw [List.map_filterMap]
    refine List.filterMap_congr ?_
    intro c hc
    have hd := hdone c hc
    cases c with
    | popDone t r =>
      obtain ⟨v, hv, hm⟩ := hown.fifo _ hc t r (Or.inr rfl)
      simp [Call.returned, Call.popTicket, valueAt_eq hown hm, hv]
    | pushDone t v => simp [Call.returned, Call.popTicket]
    | _ => simp [Call.isDone] at hd
  have hval : (ops.filterMap Op.value).map some =
      (s.calls.filterMap Call.pushTicket).map (valueAt s.calls) := by
    rw [← hinv.calls_op, List.filterMap_map, List.map_filterMap, List.map_filterMap]
    refine List.filterMap_congr ?_
    intro c hc
    have hd := hdone c hc
    cases c with
    | pushDone t v =>
      simp [Call.pushTicket, Call.op, Op.value, valueAt_eq hown hc]
    | popDone t r => simp [Call.pushTicket, Call.op, Op.value]
    | _ => simp [Call.isDone] at hd
  rw [hres, hval]
  exact hperm.map _

/-- With at least two slots no turn value satisfies the wait condition of a push and the
wait condition of a pop on the same slot. -/
theorem wait_conditions_disjoint {k : Nat} (hk : k < 64) (h2 : 2 ≤ 2 ^ k) (x a b : Nat)
    (hslot : a &&& Divisor (2 ^ k) = b &&& Divisor (2 ^ k)) :
    ¬ (x = a ∧ x = (b + 1) % SIZE) := by
  rintro ⟨rfl, hx⟩
  rw [and_Divisor hk, and_Divisor hk] at hslot
  have := congrArg (· % 2 ^ k) hx
  simp only [mod_SIZE_mod hk, hslot] at this
  exact succ_mod_ne h2 b this.symm

/-- Completion of a push in every interleaving, for every capacity `2 ^ k ≥ 2` (fewer than
`2 ^ 64` calls): in every state reached from the fresh queue, the step by which a push of
`v` holding ticket `t` publishes leaves `v` in the storage of slot `t & (N-1)` and
`t + 1` in its turn. -/
theorem push_completion_two_slots {T : Type} (k : Nat) (hk : k < 64) (h2 : 2 ≤ 2 ^ k)
    (ops : List (Op T)) (hb : ops.length < SIZE) (sched : List Nat) :
    ∃ s, run (2 ^ k) (System.fresh (2 ^ k) ops) sched = some s ∧
      ∀ (i t : Nat) (v : T), s.calls[i]? = some (Call.pushPublish t v) →
        ∃ s', step (2 ^ k) s i = some s' ∧ s'.calls[i]? = some (Call.pushDone t v) ∧
          s'.queue.slots_[t &&& Divisor (2 ^ k)]? =
            some { turn := (t + 1) % SIZE, storage := some v } := by
  obtain ⟨s, hrun, hinv, hown⟩ :=
    Own_run hk h2 hb (Inv_fresh (2 ^ k) ops) (Own_fresh (2 ^ k) ops) sched
  refine ⟨s, hrun, ?_⟩
  intro i t v hc
  obtain ⟨sl, hsl, hval⟩ := hown.push_value i t v hc
  rw [← and_Divisor hk] at hsl
  refine ⟨_, step_pushPublish hc hsl, ?_, ?_⟩
  · exact List.getElem?_set_self (List.getElem?_eq_some.1 hc).1
  · show (s.queue.slots_.set _ _)[_]? = _
    rw [List.getElem?_set_self (List.getElem?_eq_some.1 hsl).1, hval]

/-! ### Capacity 1: the turn `ticket + 1` published by a push is awaited both by the pop
holding `ticket` and by the push holding `ticket + 1` -/

/-- C1 (strict FIFO by ticket), evaluated at capacity `N = 1`: with calls `push(10)`,
`push(20)`, `pop` and the schedule below, the pushes claim enqueue tickets 0 and 1, the pop
claims dequeue ticket 0, and the pop returns 20, the value of the push holding ticket 1. -/
theorem fifo_capacity_one :
    run 1 (System.fresh 1 [Op.push (10 : Nat), Op.push 20, Op.pop])
        [0, 1, 2, 0, 0, 0, 1, 2, 1, 2, 2, 1] =
      some { queue := { slots_ := [{ turn := 2, storage := some 20 }], head_ := 2, tail_ := 1 },
             calls := [.pushDone 0 10, .pushDone 1 20, .popDone 0 (some 20)] } := by
  decide

/-- C2 (no loss, no duplication), evaluated at capacity `N = 1` and `M = 2`: all four
calls complete, the pushes passed 10 and 20, both pops return 20. -/
theorem no_loss_capacity_one :
    run 1 (System.fresh 1 [Op.push (10 : Nat), Op.push 20, Op.pop, Op.pop])
        [0, 1, 2, 3, 0, 0, 0, 1, 2, 1, 2, 2, 1, 3, 3, 3] =
      some { queue := { slots_ := [{ turn := 2, storage := some 20 }], head_ := 2, tail_ := 2 },
             calls := [.pushDone 0 10, .pushDone 1 20, .popDone 0 (some 20),
                       .popDone 1 (some 20)] } := by
  decide

/-- C3 (capacity bound), evaluated at capacity `N = 1`: two pushes run to completion one
after the other and no pop exists, so two pushes have completed against zero pops, and the
push holding ticket 1 left its wait loop although no pop holds ticket 0. -/
theorem capacity_bound_capacity_one :
    run 1 (System.fresh 1 [Op.push (10 : Nat), Op.push 20]) [0, 0, 0, 0, 1, 1, 1, 1] =
      some { queue := { slots_ := [{ turn := 2, storage := some 20 }], head_ := 2, tail_ := 0 },
             calls := [.pushDone 0 10, .pushDone 1 20] } := by
  decide

/-- C4 (exclusive slot ownership), evaluated at capacity `N = 1`: after the schedule below
the push holding ticket 1 and the pop holding ticket 0 have both left their wait loop on
slot 0 and neither has published; the turn 1 satisfies both wait conditions. -/
theorem ownership_capacity_one :
    run 1 (System.fresh 1 [Op.push (10 : Nat), Op.push 20, Op.pop]) [0, 1, 2, 0, 0, 0, 1, 2] =
      some { queue := { slots_ := [{ turn := 1, storage := some 10 }], head_ := 2, tail_ := 1 },
             calls := [.pushDone 0 10, .pushStore 1 20, .popLoad 0] } := by
  decide

/-- C5 (capacity validation), evaluated at `N = 0`: the constraint is satisfied although 0 is
not a power of two. -/
theorem Power2_zero : Power2 0 = true ∧ ¬ ∃ k : Nat, 0 = 2 ^ k := by
  refine ⟨by decide, ?_⟩
  rintro ⟨k, hk⟩
  have := Nat.pow_pos (n := k) (show 0 < 2 by decide)
  omega

/-- C6 (single-slot handoff), evaluated at capacity `N = 1` with one producer (calls 0 and
1, in this order) and one consumer (call 2): both pushes complete before the pop has
claimed its ticket, and the pop, which awaits turn 1, then goes round its loop on turn 2
however often it is scheduled. -/
theorem handoff_capacity_one (n : Nat) :
    run 1 (System.fresh 1 [Op.push (10 : Nat), Op.push 20, Op.pop])
        ([0, 0, 0, 0, 1, 1, 1, 1, 2] ++ List.replicate n 2) =
      some { queue := { slots_ := [{ turn := 2, storage := some 20 }], head_ := 2, tail_ := 1 },
             calls := [.pushDone 0 10, .pushDone 1 20, .popWait 0] } := by
  have h0 : run 1 (System.fresh 1 [Op.push (10 : Nat), Op.push 20, Op.pop])
      [0, 0, 0, 0, 1, 1, 1, 1, 2] =
      some { queue := { slots_ := [{ turn := 2, storage := some 20 }], head_ := 2, tail_ := 1 },
             calls := [.pushDone 0 10, .pushDone 1 20, .popWait 0] } := by
    decide
  rw [run_append, h0, Option.some_bind]
  induction n with
  | zero => rfl
  | succ n ih =>
    have h1 : step 1
        ({ queue := { slots_ := [{ turn := 2, storage := some 20 }], head_ := 2, tail_ := 1 },
           calls := [.pushDone 0 10, .pushDone 1 20, .popWait 0] } : System Nat) 2 =
        some { queue := { slots_ := [{ turn := 2, storage := some 20 }], head_ := 2,
                          tail_ := 1 },
               calls := [.pushDone 0 10, .pushDone 1 20, .popWait 0] } := by
      decide
    rw [List.replicate_succ, run, h1, Option.some_bind]
    exact ih

/-- Empty queue blocks, for an element type that a move leaves unchanged (such as `int`;
the step of `pop` is `MPMCSimpleQueue.pop`).  Capacity `N = 2 ^ k`; with a single slot the
execution is one in which fewer than `2 ^ 64` calls take part (the tickets are `size_t`
values).  Every schedule runs from the fresh queue to a state `s` in which:
* a pop that has left its wait loop with ticket `t` finds the push holding ticket `t`
  returned (it has stored its value and published turn `t + 1`);
* if no push has returned, no pop has left its wait loop;
* whatever a pop has read is a value that was passed to a push.
The first two parts hold for every element type (`pop_blocks_any_move`); the last one
rests on the move leaving the cell unchanged and fails with one slot for an element type
with a destructive move (`unpushed_value_capacity_one`). -/
theorem pop_blocks_until_pushed {T : Type} (k : Nat) (hk : k < 64) (ops : List (Op T))
    (hb : 2 ≤ 2 ^ k ∨ ops.length < SIZE) (sched : List Nat) :
    ∃ s, run (2 ^ k) (System.fresh (2 ^ k) ops) sched = some s ∧
      (∀ (i : Nat) (c : Call T) (t : Nat), s.calls[i]? = some c → c.popPassed = some t →
        ∃ (j : Nat) (v : T), ops[j]? = some (Op.push v) ∧
          s.calls[j]? = some (Call.pushDone t v)) ∧
      ((∀ (j t : Nat) (v : T), s.calls[j]? ≠ some (Call.pushDone t v)) →
        ∀ (i : Nat) (c : Call T), s.calls[i]? = some c → c.popPassed = none) ∧
      (∀ (i : Nat) (c : Call T) (r : Option T), s.calls[i]? = some c → c.popResult = some r →
        ∃ v, r = some v ∧ Op.push v ∈ ops) := by
  obtain ⟨s, hrun, hinv⟩ := Inv_run hk hb (Inv_fresh (2 ^ k) ops) sched
  have key : ∀ (i : Nat) (c : Call T) (t : Nat), s.calls[i]? = some c → c.popPassed = some t →
      ∃ (j : Nat) (v : T), ops[j]? = some (Op.push v) ∧
        s.calls[j]? = some (Call.pushDone t v) := by
    intro i c t hc ht
    obtain ⟨v, hv⟩ := hinv.pop_after_push c (mem_of_getElem? hc) t ht
    obtain ⟨j, hj⟩ := List.mem_iff_getElem?.1 hv
    refine ⟨j, v, ?_, hj⟩
    rw [← hinv.calls_op, List.getElem?_map, hj]
    rfl
  refine ⟨s, hrun, key, ?_, ?_⟩
  · intro hno i c hc
    cases hp : c.popPassed with
    | none => rfl
    | some t =>
      obtain ⟨j, v, _, hj⟩ := key i c t hc hp
      exact absurd hj (hno j t v)
  · intro i c r hc hr
    exact hinv.result_src c (mem_of_getElem? hc) r hr

/-- The theorem `pop_blocks_until_pushed` at one slot, with `push(7)` and `pop`, the pop
scheduled first. -/
theorem pop_blocks_until_pushed_witness :
    ∃ s, run (2 ^ 0) (System.fresh (2 ^ 0) [Op.push (7 : Nat), Op.pop])
        [1, 1, 1, 0, 0, 0, 0, 1, 1, 1] = some s ∧
      (∀ (i : Nat) (c : Call Nat) (t : Nat), s.calls[i]? = some c → c.popPassed = some t →
        ∃ (j : Nat) (v : Nat), [Op.push (7 : Nat), Op.pop][j]? = some (Op.push v) ∧
          s.calls[j]? = some (Call.pushDone t v)) ∧
      ((∀ (j t : Nat) (v : Nat), s.calls[j]? ≠ some (Call.pushDone t v)) →
        ∀ (i : Nat) (c : Call Nat), s.calls[i]? = some c → c.popPassed = none) ∧
      (∀ (i : Nat) (c : Call Nat) (r : Option Nat), s.calls[i]? = some c →
        c.popResult = some r →
        ∃ v, r = some v ∧ Op.push v ∈ [Op.push (7 : Nat), Op.pop]) :=
  pop_blocks_until_pushed 0 (by decide) [Op.push (7 : Nat), Op.pop] (Or.inr (by decide))
    [1, 1, 1, 0, 0, 0, 0, 1, 1, 1]

theorem seq_push_state {T : Type} {k : Nat} (hk : k < 64) (vs : List T)
    (hlen : vs.length ≤ 2 ^ k) (m : Nat) (hm : m ≤ vs.length) :
    ∃ s, run (2 ^ k) (System.fresh (2 ^ k) (vs.map Op.push)) (oneByOne m) = some s ∧
      s.queue.head_ = m ∧ s.queue.tail_ = 0 ∧ s.queue.slots_.length = 2 ^ k ∧
      s.calls.length = vs.length ∧
      (∀ j, m ≤ j → j < 2 ^ k → ∃ sl, s.queue.slots_[j]? = some sl ∧ sl.turn = j) ∧
      (∀ (t : Nat) (v : T), vs[t]? = some v →
        s.calls[t]? = some (if t < m then Call.pushDone t v else Call.pushIdle v)) := by
  induction m with
  | zero =>
    refine ⟨_, rfl, ?_, ?_, ?_, ?_, ?_, ?_⟩
    · simp [System.fresh, new_eq]
    · simp [System.fresh, new_eq]
    · simp [System.fresh, new_eq]
    · simp [System.fresh]
    · intro j _ hj
      refine ⟨{ turn := j, storage := none }, ?_, rfl⟩
      simp [System.fresh, new_eq, List.getElem?_map, List.getElem?_range hj]
    · intro t v hv
      simp [System.fresh, List.getElem?_map, hv, Op.start]
  | succ m ih =>
    obtain ⟨s, hrun, hhead, htail, hslots, hcalls, hturn, hcs⟩ := ih (Nat.le_of_succ_le hm)
    have hmN : m < 2 ^ k := by omega
    have hN := two_pow_lt_SIZE hk
    obtain ⟨v, hv⟩ : ∃ v, vs[m]? = some v := ⟨_, List.getElem?_eq_getElem (by omega)⟩
    have hc : s.calls[m]? = some (.pushIdle v) := by
      rw [hcs m v hv, if_neg (Nat.lt_irrefl m)]
    have hidx : s.queue.head_ &&& Divisor (2 ^ k) = m := by
      rw [hhead, and_Divisor hk, Nat.mod_eq_of_lt hmN]
    obtain ⟨sl, hsl, hslt⟩ := hturn m (Nat.le_refl m) hmN
    have hsl' : s.queue.slots_[s.queue.head_ &&& Divisor (2 ^ k)]? = some sl := by
      rw [hidx]; exact hsl
    have hcall := push_call_run (N := 2 ^ k) hc hsl' (by rw [hslt, hhead])
    refine ⟨{ queue :=
                { slots_ := s.queue.slots_.set (s.queue.head_ &&& Divisor (2 ^ k))
                    { turn := (s.queue.head_ + 1) % SIZE, storage := some v },
                  head_ := (s.queue.head_ + 1) % SIZE,
                  tail_ := s.queue.tail_ },
              calls := s.calls.set m (.pushDone s.queue.head_ v) }, ?_, ?_, ?_, ?_, ?_, ?_, ?_⟩
    · show run (2 ^ k) _ (oneByOne m ++ [m, m, m, m]) = _
      rw [run_append, hrun, Option.some_bind, hcall]
    · show (s.queue.head_ + 1) % SIZE = m + 1
      rw [hhead, Nat.mod_eq_of_lt (by omega)]
    · exact htail
    · simp [hslots]
    · simp [hcalls]
    · intro j hj hjN
      obtain ⟨sl', h1, h2⟩ := hturn j (by omega) hjN
      refine ⟨sl', ?_, h2⟩
      show (s.queue.slots_.set _ _)[j]? = some sl'
      rw [hidx, List.getElem?_set_ne (by omega)]
      exact h1
    · intro t w hw
      show (s.calls.set m _)[t]? = _
      by_cases htm : t = m
      · subst htm
        rw [hv] at hw
        obtain rfl := Option.some.inj hw
        rw [List.getElem?_set_self (by omega), hhead, if_pos (Nat.lt_succ_self t)]
      · rw [List.getElem?_set_ne (fun e => htm e.symm), hcs t w hw]
        by_cases h : t < m
        · rw [if_pos h, if_pos (by omega)]
        · rw [if_neg h, if_neg (by omega)]

/-- C8 (construction postcondition).  For `N = 2 ^ k`: the constructor leaves
`head_ = 0`, `tail_ = 0` and `N` slots, slot `i` with turn `i` (and no value), so that the
wait condition of the push holding ticket `t < N` holds in the fresh queue; and any
`m ≤ N` pushes (values `vs`), run one after the other on the fresh queue with no pop
present, each find their slot writable at the first look and return, with tickets
`0, ..., m-1`. -/
theorem constructor_postcondition {T : Type} (k : Nat) (hk : k < 64) (vs : List T)
    (hvs : vs.length ≤ 2 ^ k) :
    (MPMCSimpleQueue.new T (2 ^ k)).head_ = 0 ∧
    (MPMCSimpleQueue.new T (2 ^ k)).tail_ = 0 ∧
    (MPMCSimpleQueue.new T (2 ^ k)).slots_.length = 2 ^ k ∧
    (∀ i, i < 2 ^ k →
      (MPMCSimpleQueue.new T (2 ^ k)).slots_[i]? = some { turn := i, storage := none }) ∧
    (∀ t, t < 2 ^ k →
      ∃ sl, (MPMCSimpleQueue.new T (2 ^ k)).slots_[t &&& Divisor (2 ^ k)]? = some sl ∧
        sl.turn = t) ∧
    ∃ s, run (2 ^ k) (System.fresh (2 ^ k) (vs.map Op.push)) (oneByOne vs.length) = some s ∧
      s.queue.head_ = vs.length ∧ s.queue.tail_ = 0 ∧
      ∀ (t : Nat) (v : T), vs[t]? = some v → s.calls[t]? = some (Call.pushDone t v) := by
  have hslot : ∀ i, i < 2 ^ k →
      (MPMCSimpleQueue.new T (2 ^ k)).slots_[i]? = some { turn := i, storage := none } := by
    intro i hi
    simp [new_eq, List.getElem?_map, List.getElem?_range hi]
  refine ⟨by simp [new_eq], by simp [new_eq], by simp [new_eq], hslot, ?_, ?_⟩
  · intro t ht
    refine ⟨{ turn := t, storage := none }, ?_, rfl⟩
    rw [and_Divisor hk, Nat.mod_eq_of_lt ht]
    exact hslot t ht
  · obtain ⟨s, hrun, hhead, htail, _, _, _, hcs⟩ :=
      seq_push_state hk vs hvs vs.length (Nat.le_refl _)
    refine ⟨s, hrun, hhead, htail, ?_⟩
    intro t v hv
    have ht : t < vs.length := (List.getElem?_eq_some.1 hv).1
    rw [hcs t v hv, if_pos ht]

/-- The theorem `constructor_postcondition` at capacity 2, with pushes of 5 and 6. -/
theorem constructor_postcondition_witness :
    (MPMCSimpleQueue.new Nat (2 ^ 1)).head_ = 0 ∧
    (MPMCSimpleQueue.new Nat (2 ^ 1)).tail_ = 0 ∧
    (MPMCSimpleQueue.new Nat (2 ^ 1)).slots_.length = 2 ^ 1 ∧
    (∀ i, i < 2 ^ 1 →
      (MPMCSimpleQueue.new Nat (2 ^ 1)).slots_[i]? = some { turn := i, storage := none }) ∧
    (∀ t, t < 2 ^ 1 →
      ∃ sl, (MPMCSimpleQueue.new Nat (2 ^ 1)).slots_[t &&& Divisor (2 ^ 1)]? = some sl ∧
        sl.turn = t) ∧
    ∃ s, run (2 ^ 1) (System.fresh (2 ^ 1) ([5, 6].map Op.push)) (oneByOne 2) = some s ∧
      s.queue.head_ = 2 ∧ s.queue.tail_ = 0 ∧
      ∀ (t : Nat) (v : Nat), [5, 6][t]? = some v → s.calls[t]? = some (Call.pushDone t v) :=
  constructor_postcondition 1 (by decide) [5, 6] (by decide)

/-- C9 (push postcondition).  `N = 2 ^ k` slots, call `i` is a push of `v` about to claim
its ticket while `head_ = t` (arithmetic is that of `size_t`: `t + 1` is taken modulo
`2 ^ 64`).  The claim returns ticket `t` and leaves `head_ = t + 1`.  The call leaves its
wait loop exactly when the turn of slot `t & (N-1)` equals `t`: if it does, the next step
leaves the loop and the call, run on, returns with `v` in the slot's storage and `t + 1`
in its turn; if it does not, the call goes round the loop however often it is scheduled. -/
theorem push_postcondition {T : Type} (k : Nat) (hk : k < 64) (s : System T) (i t : Nat)
    (v : T) (hlen : s.queue.slots_.length = 2 ^ k) (ht : s.queue.head_ = t)
    (hc : s.calls[i]? = some (Call.pushIdle v)) :
    ∃ sl, s.queue.slots_[t &&& Divisor (2 ^ k)]? = some sl ∧
      (∃ s1, step (2 ^ k) s i = some s1 ∧
        s1.queue.head_ = (t + 1) % SIZE ∧
        s1.calls[i]? = some (Call.pushWait t v) ∧
        (sl.turn = t →
          ∃ s2, step (2 ^ k) s1 i = some s2 ∧ s2.calls[i]? = some (Call.pushStore t v)) ∧
        (sl.turn ≠ t → step (2 ^ k) s1 i = some s1)) ∧
      (sl.turn = t →
        ∃ s4, run (2 ^ k) s [i, i, i, i] = some s4 ∧
          s4.calls[i]? = some (Call.pushDone t v) ∧
          s4.queue.head_ = (t + 1) % SIZE ∧
          s4.queue.slots_[t &&& Divisor (2 ^ k)]? =
            some { turn := (t + 1) % SIZE, storage := some v }) ∧
      (sl.turn ≠ t →
        ∀ n, ∃ s', run (2 ^ k) s (i :: List.replicate n i) = some s' ∧
          s'.calls[i]? = some (Call.pushWait t v)) := by
  subst ht
  have hi := (List.getElem?_eq_some.1 hc).1
  have hj : s.queue.head_ &&& Divisor (2 ^ k) < s.queue.slots_.length := by
    rw [and_Divisor hk, hlen]
    exact Nat.mod_lt _ (Nat.pow_pos (by decide))
  have hsl := List.getElem?_eq_getElem hj
  have hw := step_pushWait (N := 2 ^ k)
    (s := { queue := { s.queue with head_ := (s.queue.head_ + 1) % SIZE },
            calls := s.calls.set i (.pushWait s.queue.head_ v) })
    (List.getElem?_set_self hi) hsl
  refine ⟨_, hsl, ⟨_, step_pushIdle hc hsl, rfl, List.getElem?_set_self hi, ?_, ?_⟩, ?_, ?_⟩
  · intro hturn
    rw [if_pos hturn] at hw
    exact ⟨_, hw, List.getElem?_set_self (by simpa using hi)⟩
  · intro hturn
    rw [if_neg hturn] at hw
    exact hw
  · intro hturn
    refine ⟨_, push_call_run hc hsl hturn, List.getElem?_set_self hi, rfl,
      List.getElem?_set_self hj⟩
  · intro hturn n
    exact ⟨_, push_call_spin hc hsl hturn n, List.getElem?_set_self hi⟩

/-- The theorem `push_postcondition` at the first push on a fresh queue of capacity 2. -/
theorem push_postcondition_witness :
    ∃ sl, (System.fresh (2 ^ 1) [Op.push (7 : Nat)]).queue.slots_[0 &&& Divisor (2 ^ 1)]? =
        some sl ∧
      (∃ s1, step (2 ^ 1) (System.fresh (2 ^ 1) [Op.push (7 : Nat)]) 0 = some s1 ∧
        s1.queue.head_ = (0 + 1) % SIZE ∧
        s1.calls[0]? = some (Call.pushWait 0 7) ∧
        (sl.turn = 0 →
          ∃ s2, step (2 ^ 1) s1 0 = some s2 ∧ s2.calls[0]? = some (Call.pushStore 0 7)) ∧
        (sl.turn ≠ 0 → step (2 ^ 1) s1 0 = some s1)) ∧
      (sl.turn = 0 →
        ∃ s4, run (2 ^ 1) (System.fresh (2 ^ 1) [Op.push (7 : Nat)]) [0, 0, 0, 0] = some s4 ∧
          s4.calls[0]? = some (Call.pushDone 0 7) ∧
          s4.queue.head_ = (0 + 1) % SIZE ∧
          s4.queue.slots_[0 &&& Divisor (2 ^ 1)]? =
            some { turn := (0 + 1) % SIZE, storage := some 7 }) ∧
      (sl.turn ≠ 0 →
        ∀ n, ∃ s', run (2 ^ 1) (System.fresh (2 ^ 1) [Op.push (7 : Nat)])
            (0 :: List.replicate n 0) = some s' ∧
          s'.calls[0]? = some (Call.pushWait 0 7)) :=
  push_postcondition 1 (by decide) (System.fresh (2 ^ 1) [Op.push (7 : Nat)]) 0 0 7
    (by decide) (by decide) (by decide)

/-- C10 (pop postcondition).  `N = 2 ^ k` slots, call `i` is a pop about to claim its
ticket while `tail_ = t` (arithmetic is that of `size_t`: `t + 1` and `t + N` are taken
modulo `2 ^ 64`).  The claim returns ticket `t` and leaves `tail_ = t + 1`.  The call
leaves its wait loop exactly when the turn of slot `t & (N-1)` equals `t + 1`: if it does,
the call, run on, returns the content of the slot's storage and leaves `t + N` in the
slot's turn, which is the ticket of a push mapped to the same slot and the turn that
push awaits; if it does not, the call goes round the loop however often it is scheduled. -/
theorem pop_postcondition {T : Type} (k : Nat) (hk : k < 64) (s : System T) (i t : Nat)
    (hlen : s.queue.slots_.length = 2 ^ k) (ht : s.queue.tail_ = t)
    (hc : s.calls[i]? = some Call.popIdle) :
    ∃ sl, s.queue.slots_[t &&& Divisor (2 ^ k)]? = some sl ∧
      (∃ s1, step (2 ^ k) s i = some s1 ∧
        s1.queue.tail_ = (t + 1) % SIZE ∧
        s1.calls[i]? = some (Call.popWait t) ∧
        (sl.turn = (t + 1) % SIZE →
          ∃ s2, step (2 ^ k) s1 i = some s2 ∧ s2.calls[i]? = some (Call.popLoad t)) ∧
        (sl.turn ≠ (t + 1) % SIZE → step (2 ^ k) s1 i = some s1)) ∧
      (sl.turn = (t + 1) % SIZE →
        ∃ s4, run (2 ^ k) s [i, i, i, i] = some s4 ∧
          s4.calls[i]? = some (Call.popDone t sl.storage) ∧
          s4.queue.tail_ = (t + 1) % SIZE ∧
          s4.queue.slots_[t &&& Divisor (2 ^ k)]? =
            some { turn := (t + 2 ^ k) % SIZE, storage := sl.storage } ∧
          ((t + 2 ^ k) % SIZE) &&& Divisor (2 ^ k) = t &&& Divisor (2 ^ k) ∧
          ∀ (j : Nat) (w : T), s4.calls[j]? = some (Call.pushWait ((t + 2 ^ k) % SIZE) w) →
            ∃ s5, step (2 ^ k) s4 j = some s5 ∧
              s5.calls[j]? = some (Call.pushStore ((t + 2 ^ k) % SIZE) w)) ∧
      (sl.turn ≠ (t + 1) % SIZE →
        ∀ n, ∃ s', run (2 ^ k) s (i :: List.replicate n i) = some s' ∧
          s'.calls[i]? = some (Call.popWait t)) := by
  subst ht
  have hi := (List.getElem?_eq_some.1 hc).1
  have hj : s.queue.tail_ &&& Divisor (2 ^ k) < s.queue.slots_.length := by
    rw [and_Divisor hk, hlen]
    exact Nat.mod_lt _ (Nat.pow_pos (by decide))
  have hsl := List.getElem?_eq_getElem hj
  have hsame : ((s.queue.tail_ + 2 ^ k) % SIZE) &&& Divisor (2 ^ k) =
      s.queue.tail_ &&& Divisor (2 ^ k) := by
    rw [and_Divisor hk, and_Divisor hk, mod_SIZE_mod hk, Nat.add_mod_right]
  have hw := step_popWait (N := 2 ^ k)
    (s := { queue := { s.queue with tail_ := (s.queue.tail_ + 1) % SIZE },
            calls := s.calls.set i (.popWait s.queue.tail_) })
    (List.getElem?_set_self hi) hsl
  refine ⟨_, hsl, ⟨_, step_popIdle hc hsl, rfl, List.getElem?_set_self hi, ?_, ?_⟩, ?_, ?_⟩
  · intro hturn
    rw [if_pos hturn] at hw
    exact ⟨_, hw, List.getElem?_set_self (by simpa using hi)⟩
  · intro hturn
    rw [if_neg hturn] at hw
    exact hw
  · intro hturn
    refine ⟨_, pop_call_run hc hsl hturn, List.getElem?_set_self hi, rfl,
      List.getElem?_set_self hj, hsame, ?_⟩
    intro j w hjw
    have hjl := (List.getElem?_eq_some.1 hjw).1
    have hslj : (s.queue.slots_.set (s.queue.tail_ &&& Divisor (2 ^ k))
        { turn := (s.queue.tail_ + 2 ^ k) % SIZE,
          storage := s.queue.slots_[s.queue.tail_ &&& Divisor (2 ^ k)].storage })[
          ((s.queue.tail_ + 2 ^ k) % SIZE) &&& Divisor (2 ^ k)]? =
        some { turn := (s.queue.tail_ + 2 ^ k) % SIZE,
               storage := s.queue.slots_[s.queue.tail_ &&& Divisor (2 ^ k)].storage } := by
      rw [hsame]
      exact List.getElem?_set_self hj
    have hstep := step_pushWait (N := 2 ^ k) hjw hslj
    rw [if_pos rfl] at hstep
    exact ⟨_, hstep, List.getElem?_set_self hjl⟩
  · intro hturn n
    exact ⟨_, pop_call_spin hc hsl hturn n, List.getElem?_set_self hi⟩

/-- The state `afterFirstPush` is reached from the fresh queue of capacity 2. -/
theorem afterFirstPush_reached :
    run 2 (System.fresh 2 [Op.push (7 : Nat), Op.pop]) [0, 0, 0, 0] = some afterFirstPush := by
  decide

/-- The theorem `pop_postcondition` at capacity 2: `push(7)` has returned, the pop is
about to claim ticket 0. -/
theorem pop_postcondition_witness :
    ∃ sl, afterFirstPush.queue.slots_[0 &&& Divisor (2 ^ 1)]? = some sl ∧
      (∃ s1, step (2 ^ 1) afterFirstPush 1 = some s1 ∧
        s1.queue.tail_ = (0 + 1) % SIZE ∧
        s1.calls[1]? = some (Call.popWait 0) ∧
        (sl.turn = (0 + 1) % SIZE →
          ∃ s2, step (2 ^ 1) s1 1 = some s2 ∧ s2.calls[1]? = some (Call.popLoad 0)) ∧
        (sl.turn ≠ (0 + 1) % SIZE → step (2 ^ 1) s1 1 = some s1)) ∧
      (sl.turn = (0 + 1) % SIZE →
        ∃ s4, run (2 ^ 1) afterFirstPush [1, 1, 1, 1] = some s4 ∧
          s4.calls[1]? = some (Call.popDone 0 sl.storage) ∧
          s4.queue.tail_ = (0 + 1) % SIZE ∧
          s4.queue.slots_[0 &&& Divisor (2 ^ 1)]? =
            some { turn := (0 + 2 ^ 1) % SIZE, storage := sl.storage } ∧
          ((0 + 2 ^ 1) % SIZE) &&& Divisor (2 ^ 1) = 0 &&& Divisor (2 ^ 1) ∧
          ∀ (j : Nat) (w : Nat), s4.calls[j]? = some (Call.pushWait ((0 + 2 ^ 1) % SIZE) w) →
            ∃ s5, step (2 ^ 1) s4 j = some s5 ∧
              s5.calls[j]? = some (Call.pushStore ((0 + 2 ^ 1) % SIZE) w)) ∧
      (sl.turn ≠ (0 + 1) % SIZE →
        ∀ n, ∃ s', run (2 ^ 1) afterFirstPush (1 :: List.replicate n 1) = some s' ∧
          s'.calls[1]? = some (Call.popWait 0)) :=
  pop_postcondition 1 (by decide) afterFirstPush 1 0 (by decide) (by decide) (by decide)

/-! ## The slot index stays inside the ring -/

/-- Every atomic step on a ring of `2 ^ k` slots is defined and leaves `2 ^ k` slots. -/
theorem step_slots_len {T : Type} {k : Nat} (hk : k < 64) {s : System T}
    (hlen : s.queue.slots_.length = 2 ^ k) (i : Nat) :
    ∃ s', step (2 ^ k) s i = some s' ∧ s'.queue.slots_.length = 2 ^ k := by
  refine step_elim hk hlen i (P := fun s' => s'.queue.slots_.length = 2 ^ k) hlen ?_ ?_ ?_ ?_ ?_
    ?_ ?_ ?_
  · intro v _; exact hlen
  · intro t v sl _ _ _; exact hlen
  · intro t v sl _ _; simpa using hlen
  · intro t v sl _ _; simpa using hlen
  · intro _; exact hlen
  · intro t sl _ _ _; exact hlen
  · intro t sl _ _; exact hlen
  · intro t r sl _ _; simpa using hlen

/-- Every schedule runs to a state on a ring of `2 ^ k` slots. -/
theorem run_slots_len {T : Type} {k : Nat} (hk : k < 64) {s : System T}
    (hlen : s.queue.slots_.length = 2 ^ k) (sched : List Nat) :
    ∃ s', run (2 ^ k) s sched = some s' ∧ s'.queue.slots_.length = 2 ^ k := by
  induction sched generalizing s with
  | nil => exact ⟨s, rfl, hlen⟩
  | cons i sched ih =>
    obtain ⟨s1, h1, hl1⟩ := step_slots_len hk hlen i
    obtain ⟨s', h', hl'⟩ := ih hl1
    exact ⟨s', by simp [run, h1, h'], hl'⟩

theorem slot_lookup {T : Type} {k : Nat} (hk : k < 64) {q : MPMCSimpleQueue T}
    (hlen : q.slots_.length = 2 ^ k) (t : Nat) :
    ∃ sl, q.slots_[t &&& Divisor (2 ^ k)]? = some sl := by
  have h : t &&& Divisor (2 ^ k) < q.slots_.length := by
    rw [and_Divisor hk, hlen]
    exact Nat.mod_lt _ (Nat.pow_pos (by decide))
  exact ⟨_, List.getElem?_eq_getElem h⟩

/-- On a ring of `2 ^ k` slots every step of `push` is defined and leaves `2 ^ k` slots. -/
theorem push_defined {T : Type} {k : Nat} (hk : k < 64) {q : MPMCSimpleQueue T}
    (hlen : q.slots_.length = 2 ^ k) (c : Call T) :
    ∃ qc, q.push (2 ^ k) c = some qc ∧ qc.1.slots_.length = 2 ^ k := by
  cases c with
  | pushIdle v =>
    obtain ⟨sl, hsl⟩ := slot_lookup hk hlen q.head_
    simp [MPMCSimpleQueue.push, hsl, hlen]
  | pushWait t v =>
    obtain ⟨sl, hsl⟩ := slot_lookup hk hlen t
    by_cases h : sl.turn = t
    · simp [MPMCSimpleQueue.push, hsl, if_pos h, hlen]
    · simp [MPMCSimpleQueue.push, hsl, if_neg h, hlen]
  | pushStore t v =>
    obtain ⟨sl, hsl⟩ := slot_lookup hk hlen t
    simp [MPMCSimpleQueue.push, hsl, hlen]
  | pushPublish t v =>
    obtain ⟨sl, hsl⟩ := slot_lookup hk hlen t
    simp [MPMCSimpleQueue.push, hsl, hlen]
  | pushDone t v => simp [MPMCSimpleQueue.push, MPMCSimpleQueue.pop, hlen]
  | popIdle => simp [MPMCSimpleQueue.push, MPMCSimpleQueue.pop, hlen]
  | popWait t => simp [MPMCSimpleQueue.push, MPMCSimpleQueue.pop, hlen]
  | popLoad t => simp [MPMCSimpleQueue.push, MPMCSimpleQueue.pop, hlen]
  | popPublish t r => simp [MPMCSimpleQueue.push, MPMCSimpleQueue.pop, hlen]
  | popDone t r => simp [MPMCSimpleQueue.push, MPMCSimpleQueue.pop, hlen]

/-- On a ring of `2 ^ k` slots every step of `pop` is defined and leaves `2 ^ k` slots. -/
theorem pop_defined {T : Type} {k : Nat} (hk : k < 64) {q : MPMCSimpleQueue T}
    (hlen : q.slots_.length = 2 ^ k) (c : Call T) :
    ∃ qc, q.pop (2 ^ k) c = some qc ∧ qc.1.slots_.length = 2 ^ k := by
  cases c with
  | popIdle =>
    obtain ⟨sl, hsl⟩ := slot_lookup hk hlen q.tail_
    simp [MPMCSimpleQueue.pop, hsl, hlen]
  | popWait t =>
    obtain ⟨sl, hsl⟩ := slot_lookup hk hlen t
    by_cases h : sl.turn = (t + 1) % SIZE
    · simp [MPMCSimpleQueue.pop, hsl, if_pos h, hlen]
    · simp [MPMCSimpleQueue.pop, hsl, if_neg h, hlen]
  | popLoad t =>
    obtain ⟨sl, hsl⟩ := slot_lookup hk hlen t
    simp [MPMCSimpleQueue.pop, hsl, hlen]
  | popPublish t r =>
    obtain ⟨sl, hsl⟩ := slot_lookup hk hlen t
    simp [MPMCSimpleQueue.pop, hsl, hlen]
  | popDone t r => simp [MPMCSimpleQueue.push, MPMCSimpleQueue.pop, hlen]
  | pushIdle v => simp [MPMCSimpleQueue.push, MPMCSimpleQueue.pop, hlen]
  | pushWait t v => simp [MPMCSimpleQueue.push, MPMCSimpleQueue.pop, hlen]
  | pushStore t v => simp [MPMCSimpleQueue.push, MPMCSimpleQueue.pop, hlen]
  | pushPublish t v => simp [MPMCSimpleQueue.push, MPMCSimpleQueue.pop, hlen]
  | pushDone t v => simp [MPMCSimpleQueue.push, MPMCSimpleQueue.pop, hlen]

/-- C12 (slot index in bounds).  For `N = 2 ^ k` and every ticket `t`: `t & (N-1)` is
`t mod N` and is less than `N`; on a ring of `N` slots no step of `push` or of `pop`, in
whatever state the call is and whatever ticket it holds, indexes outside the ring (the
step is defined and leaves `N` slots); and every schedule of any calls runs from the fresh
queue to a state. -/
theorem slot_index_in_bounds {T : Type} (k : Nat) (hk : k < 64) (t : Nat) :
    t &&& Divisor (2 ^ k) = t % 2 ^ k ∧
    t &&& Divisor (2 ^ k) < 2 ^ k ∧
    (∀ (q : MPMCSimpleQueue T) (c : Call T), q.slots_.length = 2 ^ k →
      (∃ qc, q.push (2 ^ k) c = some qc ∧ qc.1.slots_.length = 2 ^ k) ∧
      (∃ qc, q.pop (2 ^ k) c = some qc ∧ qc.1.slots_.length = 2 ^ k)) ∧
    ∀ (ops : List (Op T)) (sched : List Nat),
      ∃ s, run (2 ^ k) (System.fresh (2 ^ k) ops) sched = some s ∧
        s.queue.slots_.length = 2 ^ k := by
  refine ⟨and_Divisor hk t, ?_, ?_, ?_⟩
  · rw [and_Divisor hk]
    exact Nat.mod_lt _ (Nat.pow_pos (by decide))
  · intro q c hlen
    exact ⟨push_defined hk hlen c, pop_defined hk hlen c⟩
  · intro ops sched
    exact run_slots_len hk (by simp [System.fresh, new_eq]) sched

/-- The theorem `slot_index_in_bounds` at capacity 4 and the largest ticket. -/
theorem slot_index_in_bounds_witness :
    (2 ^ 64 - 1) &&& Divisor (2 ^ 2) = (2 ^ 64 - 1) % 2 ^ 2 ∧
    (2 ^ 64 - 1) &&& Divisor (2 ^ 2) < 2 ^ 2 ∧
    (∀ (q : MPMCSimpleQueue Nat) (c : Call Nat), q.slots_.length = 2 ^ 2 →
      (∃ qc, q.push (2 ^ 2) c = some qc ∧ qc.1.slots_.length = 2 ^ 2) ∧
      (∃ qc, q.pop (2 ^ 2) c = some qc ∧ qc.1.slots_.length = 2 ^ 2)) ∧
    ∀ (ops : List (Op Nat)) (sched : List Nat),
      ∃ s, run (2 ^ 2) (System.fresh (2 ^ 2) ops) sched = some s ∧
        s.queue.slots_.length = 2 ^ 2 :=
  slot_index_in_bounds 2 (by decide) (2 ^ 64 - 1)

/-! ## Tickets across the overflow of `size_t` -/

/-- C13 (wraparound consistency).  Tickets and turns are `size_t` values, reduced modulo
`2 ^ 64`; `N = 2 ^ k`.  For every ticket `t`:
* `(t + N) mod 2^64` maps to the slot of `t`;
* `(t + 1) mod 2^64` maps to the next slot in cyclic order, also when `t + 1` overflows;
* none of the `N - 1` tickets between maps to the slot of `t`, so `(t + N) mod 2^64` is the
  ticket of the next push on that slot;
* on a ring of `N` slots the pop holding ticket `t` publishes exactly that turn: after its
  store the push holding ticket `(t + N) mod 2^64` finds its wait condition true. -/
theorem wraparound_consistency {T : Type} (k : Nat) (hk : k < 64) (t : Nat) :
    ((t + 2 ^ k) % SIZE) &&& Divisor (2 ^ k) = t &&& Divisor (2 ^ k) ∧
    ((t + 1) % SIZE) &&& Divisor (2 ^ k) = ((t &&& Divisor (2 ^ k)) + 1) % 2 ^ k ∧
    (∀ d, 0 < d → d < 2 ^ k →
      ((t + d) % SIZE) &&& Divisor (2 ^ k) ≠ t &&& Divisor (2 ^ k)) ∧
    ∀ (q : MPMCSimpleQueue T) (r : Option T) (v : T), q.slots_.length = 2 ^ k →
      ∃ q', q.pop (2 ^ k) (.popPublish t r) = some (q', .popDone t r) ∧
        q'.push (2 ^ k) (.pushWait ((t + 2 ^ k) % SIZE) v) =
          some (q', .pushStore ((t + 2 ^ k) % SIZE) v) := by
  have hsame : ((t + 2 ^ k) % SIZE) &&& Divisor (2 ^ k) = t &&& Divisor (2 ^ k) := by
    rw [and_Divisor hk, and_Divisor hk, mod_SIZE_mod hk, Nat.add_mod_right]
  refine ⟨hsame, ?_, ?_, ?_⟩
  · rw [and_Divisor hk, and_Divisor hk, mod_SIZE_mod hk]
    exact (Nat.mod_add_mod t (2 ^ k) 1).symm
  · intro d hd0 hd h
    rw [and_Divisor hk, and_Divisor hk, mod_SIZE_mod hk] at h
    have h0 := Nat.sub_mod_eq_zero_of_mod_eq h
    rw [Nat.add_sub_cancel_left, Nat.mod_eq_of_lt hd] at h0
    omega
  · intro q r v hlen
    have hj : t &&& Divisor (2 ^ k) < q.slots_.length := by
      rw [and_Divisor hk, hlen]
      exact Nat.mod_lt _ (Nat.pow_pos (by decide))
    have hsl := List.getElem?_eq_getElem hj
    refine ⟨{ q with
              slots_ := q.slots_.set (t &&& Divisor (2 ^ k))
                { turn := (t + 2 ^ k) % SIZE,
                  storage := (q.slots_[t &&& Divisor (2 ^ k)]).storage } },
      by simp only [MPMCSimpleQueue.pop, hsl], ?_⟩
    simp only [MPMCSimpleQueue.push, hsame, List.getElem?_set_self hj, if_pos]

/-- The theorem `wraparound_consistency` at capacity 4 and the ticket `2^64 - 2`, whose lap
ends beyond the overflow. -/
theorem wraparound_consistency_witness :
    ((2 ^ 64 - 2 + 2 ^ 2) % SIZE) &&& Divisor (2 ^ 2) = (2 ^ 64 - 2) &&& Divisor (2 ^ 2) ∧
    ((2 ^ 64 - 2 + 1) % SIZE) &&& Divisor (2 ^ 2) =
      (((2 ^ 64 - 2) &&& Divisor (2 ^ 2)) + 1) % 2 ^ 2 ∧
    (∀ d, 0 < d → d < 2 ^ 2 →
      ((2 ^ 64 - 2 + d) % SIZE) &&& Divisor (2 ^ 2) ≠ (2 ^ 64 - 2) &&& Divisor (2 ^ 2)) ∧
    ∀ (q : MPMCSimpleQueue Nat) (r : Option Nat) (v : Nat), q.slots_.length = 2 ^ 2 →
      ∃ q', q.pop (2 ^ 2) (.popPublish (2 ^ 64 - 2) r) = some (q', .popDone (2 ^ 64 - 2) r) ∧
        q'.push (2 ^ 2) (.pushWait ((2 ^ 64 - 2 + 2 ^ 2) % SIZE) v) =
          some (q', .pushStore ((2 ^ 64 - 2 + 2 ^ 2) % SIZE) v) :=
  wraparound_consistency 2 (by decide) (2 ^ 64 - 2)

/-! ## The parity of the turns, and one slot again -/

/-- C18 (turn parity of the comments), evaluated at capacity `N = 2`: the second push on a
fresh queue holds ticket 1 and leaves its wait loop on turn 1, an odd number (the turn the
constructor gave slot 1); it publishes turn 2, an even number, and the pop holding ticket 1
leaves its wait loop on that turn 2. -/
theorem turn_parity_capacity_two :
    run 2 (System.fresh 2 [Op.push (10 : Nat), Op.push 20, Op.pop, Op.pop]) [0, 1, 1] =
      some { queue := { slots_ := [{ turn := 0, storage := none }, { turn := 1, storage := none }],
                        head_ := 2, tail_ := 0 },
             calls := [.pushWait 0 10, .pushStore 1 20, .popIdle, .popIdle] } ∧
    run 2 (System.fresh 2 [Op.push (10 : Nat), Op.push 20, Op.pop, Op.pop])
        [0, 1, 1, 1, 1, 0, 0, 0, 2, 3, 3] =
      some { queue := { slots_ := [{ turn := 1, storage := some 10 },
                                   { turn := 2, storage := some 20 }],
                        head_ := 2, tail_ := 2 },
             calls := [.pushDone 0 10, .pushDone 1 20, .popWait 0, .popLoad 1] } := by
  decide

/-- C17 (monotone generation counter), evaluated at capacity `N = 1` with no overflow in
sight: after the first schedule the turn of the slot is 2 (published by the push holding
ticket 1); the next step, the store `ticket + N` of the pop holding ticket 0, sets it
to 1. -/
theorem turn_decreases_capacity_one :
    run 1 (System.fresh 1 [Op.push (10 : Nat), Op.push 20, Op.pop])
        [0, 1, 2, 0, 0, 0, 1, 2, 1, 1, 2] =
      some { queue := { slots_ := [{ turn := 2, storage := some 20 }], head_ := 2, tail_ := 1 },
             calls := [.pushDone 0 10, .pushDone 1 20, .popPublish 0 (some 20)] } ∧
    step 1 { queue := { slots_ := [{ turn := 2, storage := some 20 }], head_ := 2, tail_ := 1 },
             calls := [.pushDone 0 10, .pushDone 1 20, .popPublish 0 (some (20 : Nat))] } 2 =
      some { queue := { slots_ := [{ turn := 1, storage := some 20 }], head_ := 2, tail_ := 1 },
             calls := [.pushDone 0 10, .pushDone 1 20, .popDone 0 (some 20)] } := by
  decide

/-- C16 (blocking only when full or empty), evaluated at capacity `N = 1` with two pushes
and two pops: after the schedule below both pushes have published and the pop holding
ticket 1 has returned; equally many pushes and pops have claimed tickets and the pop
holding ticket 0 is pending.  It awaits turn 1 and the turn is 2: whatever is scheduled
from then on, the state stays the same and the pop never leaves its wait loop. -/
theorem deadlock_capacity_one (sched : List Nat) :
    run 1 (System.fresh 1 [Op.push (10 : Nat), Op.push 20, Op.pop, Op.pop])
        ([0, 0, 0, 0, 1, 1, 1, 1, 2, 3, 3, 3, 3] ++ sched) = some stuckPop := by
  have h0 : run 1 (System.fresh 1 [Op.push (10 : Nat), Op.push 20, Op.pop, Op.pop])
      [0, 0, 0, 0, 1, 1, 1, 1, 2, 3, 3, 3, 3] = some stuckPop := by
    decide
  have hstep : ∀ i, step 1 stuckPop i = some stuckPop := by
    intro i
    match i with
    | 0 => decide
    | 1 => decide
    | 2 => decide
    | 3 => decide
    | i + 4 => exact step_none (by simp [stuckPop])
  rw [run_append, h0, Option.some_bind]
  induction sched with
  | nil => rfl
  | cons i sched ih => rw [run, hstep i, Option.some_bind]; exact ih

/-! ## Push and pop in turn, lap after lap -/

theorem roundTrip_length {T : Type} (vs : List T) : (roundTrip vs).length = 2 * vs.length := by
  induction vs with
  | nil => rfl
  | cons v vs ih => simp only [roundTrip, List.length_cons, ih]; omega

theorem roundTrip_getElem? {T : Type} (vs : List T) (i : Nat) (v : T) (h : vs[i]? = some v) :
    (roundTrip vs)[2 * i]? = some (Op.push v) ∧ (roundTrip vs)[2 * i + 1]? = some Op.pop := by
  induction vs generalizing i with
  | nil => simp at h
  | cons w vs ih =>
    cases i with
    | zero =>
      simp only [List.getElem?_cons_zero, Option.some.injEq] at h
      subst h
      simp [roundTrip]
    | succ i =>
      simp only [List.getElem?_cons_succ] at h
      have := ih i h
      have e : 2 * (i + 1) = 2 * i + 1 + 1 := by omega
      rw [e]
      simpa [roundTrip] using this

theorem eq_of_mod_eq_of_lt {N p m : Nat} (h : p % N = m % N) (h1 : m ≤ p) (h2 : p < m + N) :
    p = m := by
  have h0 := Nat.sub_mod_eq_zero_of_mod_eq h
  rw [Nat.mod_eq_of_lt (by omega)] at h0
  omega

/-- State of the queue and of the calls of `roundTrip vs` after the first `m` pairs have run
one call at a time: both counters are `m`, the slot of each later ticket `p` of the next lap
shows turn `p`, the calls of the first `m` pairs have returned, each pop with the value of
its pair. -/
theorem roundTrip_state {T : Type} {k : Nat} (hk : k < 64) (vs : List T) (m : Nat)
    (hm : m ≤ vs.length) :
    ∃ s, run (2 ^ k) (System.fresh (2 ^ k) (roundTrip vs)) (oneByOne (2 * m)) = some s ∧
      s.queue.head_ = m % SIZE ∧ s.queue.tail_ = m % SIZE ∧
      s.queue.slots_.length = 2 ^ k ∧ s.calls.length = 2 * vs.length ∧
      (∀ j, j < 2 ^ k → ∃ (sl : Slot T) (p : Nat), s.queue.slots_[j]? = some sl ∧
        sl.turn = p % SIZE ∧ p % 2 ^ k = j ∧ m ≤ p ∧ p < m + 2 ^ k) ∧
      (∀ (i : Nat) (v : T), vs[i]? = some v →
        s.calls[2 * i]? =
          some (if i < m then Call.pushDone (i % SIZE) v else Call.pushIdle v) ∧
        s.calls[2 * i + 1]? =
          some (if i < m then Call.popDone (i % SIZE) (some v) else Call.popIdle)) := by
  have hNpos : 0 < 2 ^ k := Nat.pow_pos (by decide)
  induction m with
  | zero =>
    refine ⟨_, rfl, ?_, ?_, ?_, ?_, ?_, ?_⟩
    · simp [System.fresh, new_eq]
    · simp [System.fresh, new_eq]
    · simp [System.fresh, new_eq]
    · simp [System.fresh, roundTrip_length]
    · intro j hj
      refine ⟨{ turn := j, storage := none }, j, ?_, ?_, Nat.mod_eq_of_lt hj, Nat.zero_le _,
        by omega⟩
      · simp [System.fresh, new_eq, List.getElem?_map, List.getElem?_range hj]
      · exact (Nat.mod_eq_of_lt (Nat.lt_trans hj (two_pow_lt_SIZE hk))).symm
    · intro i v hv
      obtain ⟨h1, h2⟩ := roundTrip_getElem? vs i v hv
      simp [System.fresh, List.getElem?_map, h1, h2, Op.start]
  | succ m ih =>
    obtain ⟨s, hrun, hhead, htail, hslots, hcalls, hturn, hcs⟩ := ih (Nat.le_of_succ_le hm)
    obtain ⟨v, hv⟩ : ∃ v, vs[m]? = some v := ⟨_, List.getElem?_eq_getElem (by omega)⟩
    obtain ⟨hcpush, hcpop⟩ := hcs m v hv
    rw [if_neg (Nat.lt_irrefl m)] at hcpush hcpop
    have hidx : (m % SIZE) &&& Divisor (2 ^ k) = m % 2 ^ k := by
      rw [and_Divisor hk, mod_SIZE_mod hk]
    have hjlt : m % 2 ^ k < 2 ^ k := Nat.mod_lt _ hNpos
    obtain ⟨sl, p, hsl, hslt, hp1, hp2, hp3⟩ := hturn (m % 2 ^ k) hjlt
    have hpm : p = m := eq_of_mod_eq_of_lt hp1 hp2 hp3
    subst hpm
    have hjlen : p % 2 ^ k < s.queue.slots_.length := by rw [hslots]; exact hjlt
    -- the push of the pair
    have hsl1 : s.queue.slots_[s.queue.head_ &&& Divisor (2 ^ k)]? = some sl := by
      rw [hhead, hidx]; exact hsl
    have hpush := push_call_run (N := 2 ^ k) hcpush hsl1 (by rw [hslt, hhead])
    rw [hhead, hidx, htail] at hpush
    -- the pop of the pair, on the state the push leaves
    have hcpop1 : ((s.calls.set (2 * p) (Call.pushDone (p % SIZE) v)))[2 * p + 1]? =
        some Call.popIdle := by
      rw [List.getElem?_set_ne (by omega)]; exact hcpop
    have hpop := pop_call_run (N := 2 ^ k)
      (s := { queue :=
                { slots_ := s.queue.slots_.set (p % 2 ^ k)
                    { turn := (p % SIZE + 1) % SIZE, storage := some v },
                  head_ := (p % SIZE + 1) % SIZE,
                  tail_ := s.queue.tail_ },
              calls := s.calls.set (2 * p) (.pushDone (p % SIZE) v) })
      (i := 2 * p + 1) hcpop1
      (show (s.queue.slots_.set _ _)[s.queue.tail_ &&& Divisor (2 ^ k)]? =
          some { turn := (p % SIZE + 1) % SIZE, storage := some v } by
        rw [htail, hidx, List.getElem?_set_self hjlen])
      (by show (p % SIZE + 1) % SIZE = (s.queue.tail_ + 1) % SIZE
          rw [htail])
    simp only [htail, hidx, List.set_set] at hpop
    refine ⟨{ queue :=
                { slots_ := s.queue.slots_.set (p % 2 ^ k)
                    { turn := (p % SIZE + 2 ^ k) % SIZE, storage := some v },
                  head_ := (p % SIZE + 1) % SIZE,
                  tail_ := (p % SIZE + 1) % SIZE },
              calls := (s.calls.set (2 * p) (.pushDone (p % SIZE) v)).set (2 * p + 1)
                (.popDone (p % SIZE) (some v)) }, ?_, ?_, ?_, ?_, ?_, ?_, ?_⟩
    · show run (2 ^ k) _ ((oneByOne (2 * p) ++ [2 * p, 2 * p, 2 * p, 2 * p]) ++
          [2 * p + 1, 2 * p + 1, 2 * p + 1, 2 * p + 1]) = _
      rw [run_append, run_append, hrun, Option.some_bind, hpush, Option.some_bind, hpop]
    · show (p % SIZE + 1) % SIZE = (p + 1) % SIZE
      exact Nat.mod_add_mod p SIZE 1
    · show (p % SIZE + 1) % SIZE = (p + 1) % SIZE
      exact Nat.mod_add_mod p SIZE 1
    · simp [hslots]
    · simp [hcalls]
    · intro j hj
      by_cases hjp : j = p % 2 ^ k
      · subst hjp
        refine ⟨_, p + 2 ^ k, List.getElem?_set_self hjlen, ?_, Nat.add_mod_right _ _,
          by omega, by omega⟩
        show (p % SIZE + 2 ^ k) % SIZE = (p + 2 ^ k) % SIZE
        exact Nat.mod_add_mod p SIZE (2 ^ k)
      · obtain ⟨sl', q, h1, h2, h3, h4, h5⟩ := hturn j hj
        refine ⟨sl', q, ?_, h2, h3, ?_, by omega⟩
        · show (s.queue.slots_.set _ _)[j]? = some sl'
          rw [List.getElem?_set_ne (fun e => hjp e.symm)]
          exact h1
        · rcases Nat.lt_or_ge p q with h | h
          · exact h
          · exfalso
            have : q = p := Nat.le_antisymm h h4
            subst this
            exact hjp h3.symm
    · intro i w hw
      obtain ⟨h1, h2⟩ := hcs i w hw
      show ((s.calls.set (2 * p) _).set (2 * p + 1) _)[2 * i]? = _ ∧
        ((s.calls.set (2 * p) _).set (2 * p + 1) _)[2 * i + 1]? = _
      by_cases hip : i = p
      · subst hip
        rw [hv] at hw
        obtain rfl := Option.some.inj hw
        rw [List.getElem?_set_ne (by omega), List.getElem?_set_self (by omega),
          List.getElem?_set_self (by simp; omega), if_pos (Nat.lt_succ_self i),
          if_pos (Nat.lt_succ_self i)]
        exact ⟨rfl, rfl⟩
      · rw [List.getElem?_set_ne (by omega), List.getElem?_set_ne (by omega),
          List.getElem?_set_ne (by omega), List.getElem?_set_ne (by omega), h1, h2]
        by_cases h : i < p
        · rw [if_pos h, if_pos h, if_pos (by omega), if_pos (by omega)]
          exact ⟨rfl, rfl⟩
        · rw [if_neg h, if_neg h, if_neg (by omega), if_neg (by omega)]
          exact ⟨rfl, rfl⟩

/-- C11 (multi-lap round trip).  For `N = 2 ^ k` and values `vs` of any length, the calls
`push(v_1), pop, push(v_2), pop, ...` run one at a time on the fresh queue, four atomic
steps each (no call goes round its wait loop once): all of them return, the pop of pair
`i` (counted from 0) returns `v_i`, and push and pop of pair `i` hold ticket
`i mod 2^64`, whose slot is `i mod N`. -/
theorem multi_lap_round_trip {T : Type} (k : Nat) (hk : k < 64) (vs : List T) :
    ∃ s, run (2 ^ k) (System.fresh (2 ^ k) (roundTrip vs)) (oneByOne (2 * vs.length)) = some s ∧
      ∀ (i : Nat) (v : T), vs[i]? = some v →
        s.calls[2 * i]? = some (Call.pushDone (i % SIZE) v) ∧
        s.calls[2 * i + 1]? = some (Call.popDone (i % SIZE) (some v)) ∧
        (i % SIZE) &&& Divisor (2 ^ k) = i % 2 ^ k := by
  obtain ⟨s, hrun, _, _, _, _, _, hcs⟩ := roundTrip_state hk vs vs.length (Nat.le_refl _)
  refine ⟨s, hrun, ?_⟩
  intro i v hv
  have hi : i < vs.length := (List.getElem?_eq_some.1 hv).1
  obtain ⟨h1, h2⟩ := hcs i v hv
  rw [if_pos hi] at h1 h2
  exact ⟨h1, h2, by rw [and_Divisor hk, mod_SIZE_mod hk]⟩

/-- The theorem `multi_lap_round_trip` at capacity 2 with five values, more than two laps. -/
theorem multi_lap_round_trip_witness :
    ∃ s, run (2 ^ 1) (System.fresh (2 ^ 1) (roundTrip [11, 12, 13, 14, 15]))
        (oneByOne (2 * [11, 12, 13, 14, 15].length)) = some s ∧
      ∀ (i : Nat) (v : Nat), [11, 12, 13, 14, 15][i]? = some v →
        s.calls[2 * i]? = some (Call.pushDone (i % SIZE) v) ∧
        s.calls[2 * i + 1]? = some (Call.popDone (i % SIZE) (some v)) ∧
        (i % SIZE) &&& Divisor (2 ^ 1) = i % 2 ^ 1 :=
  multi_lap_round_trip 1 (by decide) [11, 12, 13, 14, 15]

/-! ## Ticket allocation -/

section alloc
variable {T : Type} {k : Nat} {s : System T}

theorem pushClaim_self (s : System T) (i : Nat) : pushClaim s s i = [] := by
  unfold pushClaim
  cases h : s.calls[i]? with
  | none => rfl
  | some c => cases c <;> rfl

theorem popClaim_self (s : System T) (i : Nat) : popClaim s s i = [] := by
  unfold popClaim
  cases h : s.calls[i]? with
  | none => rfl
  | some c => cases c <;> rfl

theorem AllocStep_same (s : System T) (i : Nat) : AllocStep s s i :=
  ⟨Or.inl ⟨rfl, rfl, pushClaim_self s i⟩, Or.inl ⟨rfl, rfl, popClaim_self s i⟩⟩

/-- A step that is no claim: the call moves from `old` to `c`, neither at an entry. -/
theorem AllocStep_move {q : MPMCSimpleQueue T} {i : Nat} {old c : Call T}
    (hc : s.calls[i]? = some old) (hh : q.head_ = s.queue.head_)
    (ht : q.tail_ = s.queue.tail_)
    (h1 : c.pushClaimed = old.pushClaimed) (h2 : c.popClaimed = old.popClaimed)
    (h3 : ∀ v, old ≠ .pushIdle v) (h4 : old ≠ .popIdle) :
    AllocStep s { queue := q, calls := s.calls.set i c } i := by
  refine ⟨Or.inl ⟨countP_set_same _ hc h1, hh, ?_⟩, Or.inl ⟨countP_set_same _ hc h2, ht, ?_⟩⟩
  · unfold pushClaim
    rw [hc]
    cases old <;> first | rfl | exact absurd rfl (h3 _)
  · unfold popClaim
    rw [hc]
    cases old <;> first | rfl | exact absurd rfl h4

theorem Alloc_step (hk : k < 64) (h : Alloc (2 ^ k) s) (i : Nat) :
    ∃ s', step (2 ^ k) s i = some s' ∧ Alloc (2 ^ k) s' ∧ AllocStep s s' i := by
  have key : ∀ s', s'.queue.slots_.length = 2 ^ k → AllocStep s s' i →
      Alloc (2 ^ k) s' ∧ AllocStep s s' i := by
    intro s' hlen hst
    refine ⟨⟨hlen, ?_, ?_⟩, hst⟩
    · rcases hst.push_claim with ⟨h1, h2, _⟩ | ⟨h1, h2, _⟩
      · rw [h1, h2, h.head_eq]
      · rw [h1, h2, h.head_eq, Nat.mod_add_mod]
    · rcases hst.pop_claim with ⟨h1, h2, _⟩ | ⟨h1, h2, _⟩
      · rw [h1, h2, h.tail_eq]
      · rw [h1, h2, h.tail_eq, Nat.mod_add_mod]
  refine step_elim hk h.slots_len i (P := fun s' => Alloc (2 ^ k) s' ∧ AllocStep s s' i)
    ⟨h, AllocStep_same s i⟩ ?_ ?_ ?_ ?_ ?_ ?_ ?_ ?_
  · intro v hc
    have hi := (List.getElem?_eq_some.1 hc).1
    refine key _ h.slots_len ⟨Or.inr ⟨countP_set_new _ hc rfl rfl, rfl, ?_⟩,
      Or.inl ⟨countP_set_same _ hc (by rfl), rfl, ?_⟩⟩
    · simp only [pushClaim, hc, List.getElem?_set_self hi]
    · simp only [popClaim, hc, List.getElem?_set_self hi]
  · intro t v sl hc _ _
    exact key _ h.slots_len (AllocStep_move hc rfl rfl rfl rfl (by simp) (by simp))
  · intro t v sl hc _
    exact key _ (by simpa using h.slots_len)
      (AllocStep_move hc rfl rfl rfl rfl (by simp) (by simp))
  · intro t v sl hc _
    exact key _ (by simpa using h.slots_len)
      (AllocStep_move hc rfl rfl rfl rfl (by simp) (by simp))
  · intro hc
    have hi := (List.getElem?_eq_some.1 hc).1
    refine key _ h.slots_len ⟨Or.inl ⟨countP_set_same _ hc (by rfl), rfl, ?_⟩,
      Or.inr ⟨countP_set_new _ hc rfl rfl, rfl, ?_⟩⟩
    · simp only [pushClaim, hc, List.getElem?_set_self hi]
    · simp only [popClaim, hc, List.getElem?_set_self hi]
  · intro t sl hc _ _
    exact key _ h.slots_len (AllocStep_move hc rfl rfl rfl rfl (by simp) (by simp))
  · intro t sl hc _
    exact key _ h.slots_len (AllocStep_move hc rfl rfl rfl rfl (by simp) (by simp))
  · intro t r sl hc _
    exact key _ (by simpa using h.slots_len)
      (AllocStep_move hc rfl rfl rfl rfl (by simp) (by simp))

theorem map_mod_range_cons (c n : Nat) :
    (c % SIZE) :: (List.range' (c + 1) n).map (fun x => x % SIZE) =
      (List.range' c (n + 1)).map (fun x => x % SIZE) := by
  simp [List.range'_succ]

theorem Alloc_run (hk : k < 64) (h : Alloc (2 ^ k) s) (sched : List Nat) :
    ∃ s', run (2 ^ k) s sched = some s' ∧ Alloc (2 ^ k) s' ∧
      s.calls.countP Call.pushClaimed ≤ s'.calls.countP Call.pushClaimed ∧
      s.calls.countP Call.popClaimed ≤ s'.calls.countP Call.popClaimed ∧
      pushClaims (2 ^ k) s sched =
        (List.range' (s.calls.countP Call.pushClaimed)
          (s'.calls.countP Call.pushClaimed - s.calls.countP Call.pushClaimed)).map
          (fun x => x % SIZE) ∧
      popClaims (2 ^ k) s sched =
        (List.range' (s.calls.countP Call.popClaimed)
          (s'.calls.countP Call.popClaimed - s.calls.countP Call.popClaimed)).map
          (fun x => x % SIZE) := by
  induction sched generalizing s with
  | nil => exact ⟨s, rfl, h, Nat.le_refl _, Nat.le_refl _, by simp [pushClaims],
      by simp [popClaims]⟩
  | cons i sched ih =>
    obtain ⟨s1, h1, ha1, hst⟩ := Alloc_step hk h i
    obtain ⟨s', h', ha', hle1, hle2, hp1, hp2⟩ := ih ha1
    refine ⟨s', by simp [run, h1, h'], ha', ?_, ?_, ?_, ?_⟩
    · rcases hst.push_claim with ⟨e, _, _⟩ | ⟨e, _, _⟩ <;> omega
    · rcases hst.pop_claim with ⟨e, _, _⟩ | ⟨e, _, _⟩ <;> omega
    · simp only [pushClaims, h1, hp1]
      rcases hst.push_claim with ⟨e, _, e3⟩ | ⟨e, _, e3⟩
      · rw [e3, e, List.nil_append]
      · rw [e3, e, h.head_eq, List.singleton_append, map_mod_range_cons]
        congr 2
        omega
    · simp only [popClaims, h1, hp2]
      rcases hst.pop_claim with ⟨e, _, e3⟩ | ⟨e, _, e3⟩
      · rw [e3, e, List.nil_append]
      · rw [e3, e, h.tail_eq, List.singleton_append, map_mod_range_cons]
        congr 2
        omega

theorem fresh_countP (N : Nat) (ops : List (Op T)) :
    (System.fresh N ops).calls.countP Call.pushClaimed = 0 ∧
    (System.fresh N ops).calls.countP Call.popClaimed = 0 := by
  constructor
  · show (ops.map Op.start).countP Call.pushClaimed = 0
    rw [List.countP_eq_zero]
    intro c hc
    obtain ⟨o, _, rfl⟩ := List.mem_map.1 hc
    cases o <;> simp [Op.start, Call.pushClaimed, Call.pushTicket]
  · show (ops.map Op.start).countP Call.popClaimed = 0
    rw [List.countP_eq_zero]
    intro c hc
    obtain ⟨o, _, rfl⟩ := List.mem_map.1 hc
    cases o <;> simp [Op.start, Call.popClaimed, Call.popTicket]

theorem Alloc_fresh (N : Nat) (ops : List (Op T)) : Alloc N (System.fresh N ops) := by
  refine ⟨by simp [System.fresh, new_eq], ?_, ?_⟩
  · rw [(fresh_countP N ops).1]
    simp [System.fresh, new_eq]
  · rw [(fresh_countP N ops).2]
    simp [System.fresh, new_eq]

theorem mod_range_distinct (n a b x y : Nat) (hab : a < b) (hba : b < a + SIZE)
    (hx : ((List.range n).map (fun x => x % SIZE))[a]? = some x)
    (hy : ((List.range n).map (fun x => x % SIZE))[b]? = some y) : x ≠ y := by
  rw [List.getElem?_map] at hx hy
  have hbn : b < n := by
    by_contra hn
    rw [List.getElem?_eq_none (by simpa using Nat.le_of_not_lt hn)] at hy
    simp at hy
  rw [List.getElem?_range (by omega)] at hx
  rw [List.getElem?_range hbn] at hy
  simp only [Option.map_some', Option.some.injEq] at hx hy
  subst hx hy
  intro h
  have h0 := Nat.sub_mod_eq_zero_of_mod_eq h.symm
  rw [Nat.mod_eq_of_lt (by omega)] at h0
  omega

end alloc

/-- C14 (ticket allocation).  `N = 2 ^ k`, any calls `ops`, any schedule: the schedule runs
from the fresh queue to a state `s`, and
* the tickets the pushes received, in the order of their claims, are
  `0, 1, 2, ...` modulo `2 ^ 64`, and `head_` is the number of claims modulo `2 ^ 64`;
  the same for the pops and `tail_`;
* in `s`, whatever the turns of the slots are, a push at its entry claims with its next
  step: it receives ticket `i mod 2^64`, `i` the number of pushes that claimed before it,
  and leaves `head_ = (i + 1) mod 2^64`; the same for a pop and `tail_`;
* two claims of the same kind fewer than `2 ^ 64` apart received distinct tickets;
* every step leaves `head_` and `tail_` as they are or adds one (modulo `2 ^ 64`). -/
theorem ticket_allocation {T : Type} (k : Nat) (hk : k < 64) (ops : List (Op T))
    (sched : List Nat) :
    ∃ s, run (2 ^ k) (System.fresh (2 ^ k) ops) sched = some s ∧
      pushClaims (2 ^ k) (System.fresh (2 ^ k) ops) sched =
        (List.range (s.calls.countP Call.pushClaimed)).map (fun i => i % SIZE) ∧
      s.queue.head_ = s.calls.countP Call.pushClaimed % SIZE ∧
      popClaims (2 ^ k) (System.fresh (2 ^ k) ops) sched =
        (List.range (s.calls.countP Call.popClaimed)).map (fun i => i % SIZE) ∧
      s.queue.tail_ = s.calls.countP Call.popClaimed % SIZE ∧
      (∀ (i : Nat) (v : T), s.calls[i]? = some (Call.pushIdle v) →
        ∃ s', step (2 ^ k) s i = some s' ∧
          s'.calls[i]? = some (Call.pushWait (s.calls.countP Call.pushClaimed % SIZE) v) ∧
          s'.queue.head_ = (s.calls.countP Call.pushClaimed + 1) % SIZE) ∧
      (∀ (i : Nat), s.calls[i]? = some Call.popIdle →
        ∃ s', step (2 ^ k) s i = some s' ∧
          s'.calls[i]? = some (Call.popWait (s.calls.countP Call.popClaimed % SIZE)) ∧
          s'.queue.tail_ = (s.calls.countP Call.popClaimed + 1) % SIZE) ∧
      (∀ a b x y : Nat, a < b → b < a + SIZE →
        (pushClaims (2 ^ k) (System.fresh (2 ^ k) ops) sched)[a]? = some x →
        (pushClaims (2 ^ k) (System.fresh (2 ^ k) ops) sched)[b]? = some y → x ≠ y) ∧
      (∀ a b x y : Nat, a < b → b < a + SIZE →
        (popClaims (2 ^ k) (System.fresh (2 ^ k) ops) sched)[a]? = some x →
        (popClaims (2 ^ k) (System.fresh (2 ^ k) ops) sched)[b]? = some y → x ≠ y) ∧
      ∀ i : Nat, ∃ s', step (2 ^ k) s i = some s' ∧
        (s'.queue.head_ = s.queue.head_ ∨ s'.queue.head_ = (s.queue.head_ + 1) % SIZE) ∧
        (s'.queue.tail_ = s.queue.tail_ ∨ s'.queue.tail_ = (s.queue.tail_ + 1) % SIZE) := by
  obtain ⟨s, hrun, ha, _, _, hp1, hp2⟩ :=
    Alloc_run hk (Alloc_fresh (2 ^ k) ops) sched
  rw [(fresh_countP (2 ^ k) ops).1, Nat.sub_zero, ← List.range_eq_range'] at hp1
  rw [(fresh_countP (2 ^ k) ops).2, Nat.sub_zero, ← List.range_eq_range'] at hp2
  refine ⟨s, hrun, hp1, ha.head_eq, hp2, ha.tail_eq, ?_, ?_, ?_, ?_, ?_⟩
  · intro i v hc
    obtain ⟨sl, hsl⟩ := slot_lookup hk ha.slots_len s.queue.head_
    refine ⟨_, step_pushIdle hc hsl, ?_, ?_⟩
    · show (s.calls.set i _)[i]? = _
      rw [List.getElem?_set_self (List.getElem?_eq_some.1 hc).1, ha.head_eq]
    · show (s.queue.head_ + 1) % SIZE = _
      rw [ha.head_eq, Nat.mod_add_mod]
  · intro i hc
    obtain ⟨sl, hsl⟩ := slot_lookup hk ha.slots_len s.queue.tail_
    refine ⟨_, step_popIdle hc hsl, ?_, ?_⟩
    · show (s.calls.set i _)[i]? = _
      rw [List.getElem?_set_self (List.getElem?_eq_some.1 hc).1, ha.tail_eq]
    · show (s.queue.tail_ + 1) % SIZE = _
      rw [ha.tail_eq, Nat.mod_add_mod]
  · intro a b x y hab hba hx hy
    rw [hp1] at hx hy
    exact mod_range_distinct _ a b x y hab hba hx hy
  · intro a b x y hab hba hx hy
    rw [hp2] at hx hy
    exact mod_range_distinct _ a b x y hab hba hx hy
  · intro i
    obtain ⟨s', hs', _, hst⟩ := Alloc_step hk ha i
    refine ⟨s', hs', ?_, ?_⟩
    · rcases hst.push_claim with ⟨_, e, _⟩ | ⟨_, e, _⟩
      · exact Or.inl e
      · exact Or.inr e
    · rcases hst.pop_claim with ⟨_, e, _⟩ | ⟨_, e, _⟩
      · exact Or.inl e
      · exact Or.inr e

/-- The theorem `ticket_allocation` at capacity 2 with two pushes and a pop, the second push
claiming first. -/
theorem ticket_allocation_witness :
    ∃ s, run (2 ^ 1) (System.fresh (2 ^ 1) [Op.push (5 : Nat), Op.push 6, Op.pop])
        [1, 2, 0, 0] = some s ∧
      pushClaims (2 ^ 1) (System.fresh (2 ^ 1) [Op.push (5 : Nat), Op.push 6, Op.pop])
          [1, 2, 0, 0] =
        (List.range (s.calls.countP Call.pushClaimed)).map (fun i => i % SIZE) ∧
      s.queue.head_ = s.calls.countP Call.pushClaimed % SIZE ∧
      popClaims (2 ^ 1) (System.fresh (2 ^ 1) [Op.push (5 : Nat), Op.push 6, Op.pop])
          [1, 2, 0, 0] =
        (List.range (s.calls.countP Call.popClaimed)).map (fun i => i % SIZE) ∧
      s.queue.tail_ = s.calls.countP Call.popClaimed % SIZE ∧
      (∀ (i : Nat) (v : Nat), s.calls[i]? = some (Call.pushIdle v) →
        ∃ s', step (2 ^ 1) s i = some s' ∧
          s'.calls[i]? = some (Call.pushWait (s.calls.countP Call.pushClaimed % SIZE) v) ∧
          s'.queue.head_ = (s.calls.countP Call.pushClaimed + 1) % SIZE) ∧
      (∀ (i : Nat), s.calls[i]? = some Call.popIdle →
        ∃ s', step (2 ^ 1) s i = some s' ∧
          s'.calls[i]? = some (Call.popWait (s.calls.countP Call.popClaimed % SIZE)) ∧
          s'.queue.tail_ = (s.calls.countP Call.popClaimed + 1) % SIZE) ∧
      (∀ a b x y : Nat, a < b → b < a + SIZE →
        (pushClaims (2 ^ 1) (System.fresh (2 ^ 1) [Op.push (5 : Nat), Op.push 6, Op.pop])
          [1, 2, 0, 0])[a]? = some x →
        (pushClaims (2 ^ 1) (System.fresh (2 ^ 1) [Op.push (5 : Nat), Op.push 6, Op.pop])
          [1, 2, 0, 0])[b]? = some y → x ≠ y) ∧
      (∀ a b x y : Nat, a < b → b < a + SIZE →
        (popClaims (2 ^ 1) (System.fresh (2 ^ 1) [Op.push (5 : Nat), Op.push 6, Op.pop])
          [1, 2, 0, 0])[a]? = some x →
        (popClaims (2 ^ 1) (System.fresh (2 ^ 1) [Op.push (5 : Nat), Op.push 6, Op.pop])
          [1, 2, 0, 0])[b]? = some y → x ≠ y) ∧
      ∀ i : Nat, ∃ s', step (2 ^ 1) s i = some s' ∧
        (s'.queue.head_ = s.queue.head_ ∨ s'.queue.head_ = (s.queue.head_ + 1) % SIZE) ∧
        (s'.queue.tail_ = s.queue.tail_ ∨ s'.queue.tail_ = (s.queue.tail_ + 1) % SIZE) :=
  ticket_allocation 1 (by decide) [Op.push (5 : Nat), Op.push 6, Op.pop] [1, 2, 0, 0]

/-! ## Sequential refinement of a bounded FIFO list -/

section seq
variable {T : Type} {k : Nat} {q : MPMCSimpleQueue T} {l : List T} {a : Nat}

theorem mod_window_inj {N a p p' : Nat} (hp : a ≤ p) (hp2 : p < a + N) (hp' : a ≤ p')
    (hp2' : p' < a + N) (h : p % N = p' % N) : p = p' := by
  rcases Nat.le_total p p' with hle | hle
  · exact (eq_of_mod_eq_of_lt h.symm hle (by omega)).symm
  · exact eq_of_mod_eq_of_lt h hle (by omega)

theorem Holds_fresh (k : Nat) (hk : k < 64) :
    Holds (2 ^ k) (MPMCSimpleQueue.new T (2 ^ k)) [] 0 := by
  refine ⟨by simp [new_eq], by simp [new_eq], by simp [new_eq], by simp, ?_⟩
  intro p _ hp
  rw [Nat.zero_add] at hp
  refine ⟨{ turn := p, storage := none }, ?_, ?_⟩
  · simp [new_eq, Nat.mod_eq_of_lt hp, List.getElem?_map, List.getElem?_range hp]
  · simp only [List.length_nil, Nat.add_zero, Nat.zero_add, Nat.not_lt_zero, if_false]
    exact (Nat.mod_eq_of_lt (Nat.lt_trans hp (two_pow_lt_SIZE hk))).symm

theorem Holds.count (hk : k < 64) (h : Holds (2 ^ k) q l a) :
    (q.head_ + SIZE - q.tail_) % SIZE = l.length := by
  have hN := two_pow_lt_SIZE hk
  have hl := h.len_le
  rw [h.head_eq, h.tail_eq]
  have e : (a + l.length) % SIZE = (a % SIZE + l.length) % SIZE := (Nat.mod_add_mod _ _ _).symm
  rw [e]
  have ha : a % SIZE < SIZE := Nat.mod_lt _ SIZE_pos
  generalize a % SIZE = A at ha
  unfold SIZE at *
  omega

theorem Holds.index (hk : k < 64) (h : Holds (2 ^ k) q l a) (i : Nat) :
    ((q.tail_ + i) % SIZE) &&& Divisor (2 ^ k) = (a + i) % 2 ^ k := by
  rw [and_Divisor hk, mod_SIZE_mod hk, h.tail_eq, Nat.add_mod, mod_SIZE_mod hk, ← Nat.add_mod]

theorem Holds.content_eq (hk : k < 64) (h : Holds (2 ^ k) q l a) :
    q.content (2 ^ k) = l.map some := by
  unfold MPMCSimpleQueue.content
  rw [h.count hk]
  apply List.ext_getElem?
  intro i
  rw [List.getElem?_map, List.getElem?_map]
  by_cases hi : i < l.length
  · rw [List.getElem?_range hi, List.getElem?_eq_getElem hi]
    simp only [Option.map_some']
    rw [h.index hk]
    obtain ⟨sl, hsl, hs⟩ := h.slot (a + i) (by omega) (by have := h.len_le; omega)
    rw [if_pos (by omega)] at hs
    rw [hsl, Option.some_bind, hs.2, Nat.add_sub_cancel_left, List.getElem?_eq_getElem hi]
  · rw [List.getElem?_eq_none (by simpa using Nat.le_of_not_lt hi),
      List.getElem?_eq_none (Nat.le_of_not_lt hi)]
    rfl

end seq

section seq
variable {T : Type} {k : Nat} {q : MPMCSimpleQueue T} {l : List T} {a : Nat}

/-- With room in the list the push run alone returns, and the queue then holds the list
with the value appended. -/
theorem Holds.push (hk : k < 64) (h : Holds (2 ^ k) q l a) (hlt : l.length < 2 ^ k) (v : T) :
    ∃ q', q.call (2 ^ k) (.push v) = some (q', none) ∧ Holds (2 ^ k) q' (l ++ [v]) a := by
  have hidx : q.head_ &&& Divisor (2 ^ k) = (a + l.length) % 2 ^ k := by
    rw [and_Divisor hk, h.head_eq, mod_SIZE_mod hk]
  obtain ⟨sl, hsl, hs⟩ := h.slot (a + l.length) (by omega) (by omega)
  rw [if_neg (Nat.lt_irrefl _)] at hs
  have hjlen : (a + l.length) % 2 ^ k < q.slots_.length := (List.getElem?_eq_some.1 hsl).1
  have hrun := push_call_run (N := 2 ^ k) (s := { queue := q, calls := [Call.pushIdle v] })
    (i := 0) (v := v) rfl (by rw [hidx]; exact hsl) (by rw [hs, h.head_eq])
  simp only [hidx] at hrun
  refine ⟨{ slots_ := q.slots_.set ((a + l.length) % 2 ^ k)
              { turn := (q.head_ + 1) % SIZE, storage := some v },
            head_ := (q.head_ + 1) % SIZE, tail_ := q.tail_ }, ?_, ?_⟩
  · simp only [MPMCSimpleQueue.call, Op.start, hrun, List.set_cons_zero]
  · refine ⟨by simpa using h.slots_len, h.tail_eq, ?_, by simp; omega, ?_⟩
    · show (q.head_ + 1) % SIZE = (a + (l ++ [v]).length) % SIZE
      rw [h.head_eq, Nat.mod_add_mod, List.length_append, List.length_singleton, Nat.add_assoc]
    · intro p hp hp2
      show ∃ sl : Slot T, (q.slots_.set _ _)[p % 2 ^ k]? = some sl ∧ _
      by_cases hpe : p = a + l.length
      · subst hpe
        refine ⟨_, List.getElem?_set_self hjlen, ?_⟩
        rw [if_pos (by simp)]
        refine ⟨?_, ?_⟩
        · show (q.head_ + 1) % SIZE = _
          rw [h.head_eq, Nat.mod_add_mod]
        · simp
      · obtain ⟨sl', hsl', hs'⟩ := h.slot p hp hp2
        have hne : (a + l.length) % 2 ^ k ≠ p % 2 ^ k := fun e =>
          hpe (mod_window_inj (by omega) (by omega) hp hp2 e).symm
        refine ⟨sl', by rw [List.getElem?_set_ne hne]; exact hsl', ?_⟩
        by_cases hpl : p < a + l.length
        · rw [if_pos hpl] at hs'
          rw [if_pos (by simp; omega), List.getElem?_append_left (by omega)]
          exact hs'
        · rw [if_neg hpl] at hs'
          rw [if_neg (by simp; omega)]
          exact hs'

/-- With the list full (and at least two slots) the push run alone does not return. -/
theorem Holds.push_full (hk : k < 64) (h2 : 2 ≤ 2 ^ k) (h : Holds (2 ^ k) q l a)
    (hfull : l.length = 2 ^ k) (v : T) :
    q.call (2 ^ k) (.push v) = none ∧ NeverReturns (2 ^ k) q (.push v) := by
  have hN := two_pow_lt_SIZE hk
  have hidx : q.head_ &&& Divisor (2 ^ k) = a % 2 ^ k := by
    rw [and_Divisor hk, h.head_eq, mod_SIZE_mod hk, hfull, Nat.add_mod_right]
  obtain ⟨sl, hsl, hs⟩ := h.slot a (Nat.le_refl _) (by omega)
  rw [if_pos (by omega)] at hs
  have hne : sl.turn ≠ q.head_ := by
    rw [hs.1, h.head_eq, hfull]
    have e1 : (a + 1) % SIZE = (a % SIZE + 1) % SIZE := (Nat.mod_add_mod _ _ _).symm
    have e2 : (a + 2 ^ k) % SIZE = (a % SIZE + 2 ^ k) % SIZE := (Nat.mod_add_mod _ _ _).symm
    rw [e1, e2]
    have ha : a % SIZE < SIZE := Nat.mod_lt _ SIZE_pos
    generalize a % SIZE = A at ha
    generalize 2 ^ k = N at h2 hN
    unfold SIZE at *
    omega
  have hspin := push_call_spin (N := 2 ^ k) (s := { queue := q, calls := [Call.pushIdle v] })
    (i := 0) (v := v) rfl (by rw [hidx]; exact hsl) hne
  constructor
  · have h3 := hspin 3
    simp only [MPMCSimpleQueue.call, Op.start]
    rw [show [0, 0, 0, 0] = 0 :: List.replicate 3 0 from rfl, h3]
    rfl
  · intro n
    cases n with
    | zero => exact ⟨_, rfl, by simp [Op.start, Call.isDone]⟩
    | succ n =>
      refine ⟨_, by rw [List.replicate_succ]; exact hspin n, ?_⟩
      simp [Call.isDone]

/-- With a value in the list the pop run alone returns the first value, and the queue then
holds the rest. -/
theorem Holds.pop (hk : k < 64) {x : T} {l' : List T} (h : Holds (2 ^ k) q (x :: l') a) :
    ∃ q', q.call (2 ^ k) .pop = some (q', some x) ∧ Holds (2 ^ k) q' l' (a + 1) := by
  have hNpos : 0 < 2 ^ k := Nat.pow_pos (by decide)
  have hidx : q.tail_ &&& Divisor (2 ^ k) = a % 2 ^ k := by
    rw [and_Divisor hk, h.tail_eq, mod_SIZE_mod hk]
  have hlen := h.len_le
  simp only [List.length_cons] at hlen
  obtain ⟨sl, hsl, hs⟩ := h.slot a (Nat.le_refl _) (by omega)
  rw [if_pos (by simp)] at hs
  have hjlen : a % 2 ^ k < q.slots_.length := (List.getElem?_eq_some.1 hsl).1
  have hst : sl.storage = some x := by rw [hs.2]; simp
  have hrun := pop_call_run (N := 2 ^ k) (s := { queue := q, calls := [Call.popIdle] })
    (i := 0) rfl (by rw [hidx]; exact hsl)
    (by rw [hs.1, h.tail_eq, Nat.mod_add_mod])
  simp only [hidx, hst] at hrun
  refine ⟨{ slots_ := q.slots_.set (a % 2 ^ k)
              { turn := (q.tail_ + 2 ^ k) % SIZE, storage := some x },
            head_ := q.head_, tail_ := (q.tail_ + 1) % SIZE }, ?_, ?_⟩
  · simp only [MPMCSimpleQueue.call, Op.start, hrun, List.set_cons_zero]
  · refine ⟨by simpa using h.slots_len, ?_, ?_, by omega, ?_⟩
    · show (q.tail_ + 1) % SIZE = (a + 1) % SIZE
      rw [h.tail_eq, Nat.mod_add_mod]
    · show q.head_ = _
      rw [h.head_eq, List.length_cons]
      congr 1
      omega
    · intro p hp hp2
      show ∃ sl : Slot T, (q.slots_.set _ _)[p % 2 ^ k]? = some sl ∧ _
      by_cases hpe : p = a + 2 ^ k
      · subst hpe
        rw [Nat.add_mod_right]
        refine ⟨_, List.getElem?_set_self hjlen, ?_⟩
        rw [if_neg (by omega)]
        show (q.tail_ + 2 ^ k) % SIZE = _
        rw [h.tail_eq, Nat.mod_add_mod]
      · obtain ⟨sl', hsl', hs'⟩ := h.slot p (by omega) (by omega)
        have hne : a % 2 ^ k ≠ p % 2 ^ k := fun e => by
          have := mod_window_inj (Nat.le_refl a) (by omega) (by omega) (by omega) e
          omega
        refine ⟨sl', by rw [List.getElem?_set_ne hne]; exact hsl', ?_⟩
        simp only [List.length_cons] at hs'
        by_cases hpl : p < a + 1 + l'.length
        · rw [if_pos (by omega)] at hs'
          rw [if_pos hpl]
          refine ⟨hs'.1, ?_⟩
          rw [hs'.2, show p - a = (p - (a + 1)) + 1 by omega, List.getElem?_cons_succ]
        · rw [if_neg (by omega)] at hs'
          rw [if_neg hpl]
          exact hs'

/-- With the list empty the pop run alone does not return. -/
theorem Holds.pop_empty (hk : k < 64) (h : Holds (2 ^ k) q [] a) :
    q.call (2 ^ k) .pop = none ∧ NeverReturns (2 ^ k) q .pop := by
  have hNpos : 0 < 2 ^ k := Nat.pow_pos (by decide)
  have hidx : q.tail_ &&& Divisor (2 ^ k) = a % 2 ^ k := by
    rw [and_Divisor hk, h.tail_eq, mod_SIZE_mod hk]
  obtain ⟨sl, hsl, hs⟩ := h.slot a (Nat.le_refl _) (by omega)
  rw [if_neg (by simp)] at hs
  have hne : sl.turn ≠ (q.tail_ + 1) % SIZE := by
    rw [hs, h.tail_eq]
    have ha : a % SIZE < SIZE := Nat.mod_lt _ SIZE_pos
    generalize a % SIZE = A at ha
    unfold SIZE at *
    omega
  have hspin := pop_call_spin (N := 2 ^ k) (s := { queue := q, calls := [Call.popIdle] })
    (i := 0) rfl (by rw [hidx]; exact hsl) hne
  constructor
  · have h3 := hspin 3
    simp only [MPMCSimpleQueue.call, Op.start]
    rw [show [0, 0, 0, 0] = 0 :: List.replicate 3 0 from rfl, h3]
    rfl
  · intro n
    cases n with
    | zero => exact ⟨_, rfl, by simp [Op.start, Call.isDone]⟩
    | succ n =>
      refine ⟨_, by rw [List.replicate_succ]; exact hspin n, ?_⟩
      simp [Call.isDone]

end seq

section seq
variable {T : Type} {k : Nat} {q : MPMCSimpleQueue T} {l : List T} {a : Nat}

/-- The queue follows the list, call by call: where the list completes the calls the queue
does, with the same results, and holds the list reached; where the list does not, the
queue does not. -/
theorem callAll_sim (hk : k < 64) (h2 : 2 ≤ 2 ^ k) (ops : List (Op T))
    (h : Holds (2 ^ k) q l a) :
    (∀ lr, BoundedFifo.callAll (2 ^ k) l ops = some lr →
      ∃ q' a', q.callAll (2 ^ k) ops = some (q', lr.2) ∧ Holds (2 ^ k) q' lr.1 a') ∧
    (BoundedFifo.callAll (2 ^ k) l ops = none → q.callAll (2 ^ k) ops = none) := by
  induction ops generalizing q l a with
  | nil =>
    constructor
    · intro lr hlr
      simp only [BoundedFifo.callAll, Option.some.injEq] at hlr
      subst hlr
      exact ⟨q, a, rfl, h⟩
    · intro hn
      simp [BoundedFifo.callAll] at hn
  | cons op ops ih =>
    cases op with
    | push v =>
      by_cases hlt : l.length < 2 ^ k
      · obtain ⟨q1, hq1, hh1⟩ := h.push hk hlt v
        obtain ⟨ih1, ih2⟩ := ih hh1
        simp only [BoundedFifo.callAll, BoundedFifo.call, if_pos hlt, MPMCSimpleQueue.callAll,
          hq1]
        constructor
        · intro lr hlr
          cases hrest : BoundedFifo.callAll (2 ^ k) (l ++ [v]) ops with
          | none => rw [hrest] at hlr; simp at hlr
          | some lr1 =>
            rw [hrest] at hlr
            simp only [Option.map_some', Option.some.injEq] at hlr
            subst hlr
            obtain ⟨q', a', hq', hh'⟩ := ih1 lr1 hrest
            exact ⟨q', a', by rw [hq']; rfl, hh'⟩
        · intro hn
          cases hrest : BoundedFifo.callAll (2 ^ k) (l ++ [v]) ops with
          | none => rw [ih2 hrest]; rfl
          | some lr1 => rw [hrest] at hn; simp at hn
      · have hfull : l.length = 2 ^ k := Nat.le_antisymm h.len_le (Nat.le_of_not_lt hlt)
        simp only [BoundedFifo.callAll, BoundedFifo.call, if_neg hlt, MPMCSimpleQueue.callAll,
          (h.push_full hk h2 hfull v).1]
        exact ⟨fun lr hlr => by simp at hlr, fun _ => trivial⟩
    | pop =>
      cases l with
      | nil =>
        simp only [BoundedFifo.callAll, BoundedFifo.call, MPMCSimpleQueue.callAll,
          (h.pop_empty hk).1]
        exact ⟨fun lr hlr => by simp at hlr, fun _ => trivial⟩
      | cons x l' =>
        obtain ⟨q1, hq1, hh1⟩ := h.pop hk
        obtain ⟨ih1, ih2⟩ := ih hh1
        simp only [BoundedFifo.callAll, BoundedFifo.call, MPMCSimpleQueue.callAll, hq1]
        constructor
        · intro lr hlr
          cases hrest : BoundedFifo.callAll (2 ^ k) l' ops with
          | none => rw [hrest] at hlr; simp at hlr
          | some lr1 =>
            rw [hrest] at hlr
            simp only [Option.map_some', Option.some.injEq] at hlr
            subst hlr
            obtain ⟨q', a', hq', hh'⟩ := ih1 lr1 hrest
            exact ⟨q', a', by rw [hq']; rfl, hh'⟩
        · intro hn
          cases hrest : BoundedFifo.callAll (2 ^ k) l' ops with
          | none => rw [ih2 hrest]; rfl
          | some lr1 => rw [hrest] at hn; simp at hn

/-- A queue reached by calls run one at a time from the fresh queue holds a list. -/
theorem callAll_reached (hk : k < 64) (h2 : 2 ≤ 2 ^ k) {ops : List (Op T)}
    {rs : List (Option T)}
    (h : (MPMCSimpleQueue.new T (2 ^ k)).callAll (2 ^ k) ops = some (q, rs)) :
    ∃ l a, Holds (2 ^ k) q l a := by
  obtain ⟨h1, h2'⟩ := callAll_sim hk h2 ops (Holds_fresh (T := T) k hk)
  cases hspec : BoundedFifo.callAll (2 ^ k) ([] : List T) ops with
  | none => rw [h2' hspec] at h; simp at h
  | some lr =>
    obtain ⟨q', a', hq', hh'⟩ := h1 lr hspec
    rw [hq'] at h
    simp only [Option.some.injEq, Prod.mk.injEq] at h
    obtain ⟨rfl, _⟩ := h
    exact ⟨lr.1, a', hh'⟩

end seq

/-- C20 (sequential refinement of a bounded FIFO list).  `N = 2 ^ k ≥ 2`; calls run one at
a time to completion (`MPMCSimpleQueue.call`, `none` for a call that does not return).
* Any sequence of calls from the fresh queue completes exactly when it completes on the
  list of capacity `N` started empty, the calls return the same values, and the content of
  the queue (the storage of the tickets `tail_ .. head_ - 1`) is the list reached.
* In every queue `q` so reached: `push(v)` completes iff `head_ - tail_ < N`, and then
  appends `v` to the content; `pop` completes iff `head_ - tail_ > 0`, and then returns the
  first value of the content and removes it; a call that does not complete goes round its
  wait loop for ever.  `head_ - tail_` is taken in `size_t`. -/
theorem sequential_refinement {T : Type} (k : Nat) (hk : k < 64) (h2 : 2 ≤ 2 ^ k)
    (ops : List (Op T)) :
    ((MPMCSimpleQueue.new T (2 ^ k)).callAll (2 ^ k) ops).map
        (fun qr => (qr.1.content (2 ^ k), qr.2)) =
      (BoundedFifo.callAll (2 ^ k) ([] : List T) ops).map (fun lr => (lr.1.map some, lr.2)) ∧
    ∀ (q : MPMCSimpleQueue T) (rs : List (Option T)),
      (MPMCSimpleQueue.new T (2 ^ k)).callAll (2 ^ k) ops = some (q, rs) →
      (∀ v : T,
        ((q.call (2 ^ k) (.push v)).isSome ↔ (q.head_ + SIZE - q.tail_) % SIZE < 2 ^ k) ∧
        (∀ (q' : MPMCSimpleQueue T) (r : Option T), q.call (2 ^ k) (.push v) = some (q', r) →
          r = none ∧ q'.content (2 ^ k) = q.content (2 ^ k) ++ [some v]) ∧
        (q.call (2 ^ k) (.push v) = none → NeverReturns (2 ^ k) q (.push v))) ∧
      ((q.call (2 ^ k) .pop).isSome ↔ 0 < (q.head_ + SIZE - q.tail_) % SIZE) ∧
      (∀ (q' : MPMCSimpleQueue T) (r : Option T), q.call (2 ^ k) .pop = some (q', r) →
        ∃ x, r = some x ∧ q.content (2 ^ k) = some x :: q'.content (2 ^ k)) ∧
      (q.call (2 ^ k) .pop = none → NeverReturns (2 ^ k) q .pop) := by
  constructor
  · obtain ⟨h1, h2'⟩ := callAll_sim hk h2 ops (Holds_fresh (T := T) k hk)
    cases hspec : BoundedFifo.callAll (2 ^ k) ([] : List T) ops with
    | none => rw [h2' hspec]; rfl
    | some lr =>
      obtain ⟨q', a', hq', hh'⟩ := h1 lr hspec
      rw [hq']
      simp only [Option.map_some', hh'.content_eq hk]
  · intro q rs hq
    obtain ⟨l, a, h⟩ := callAll_reached hk h2 hq
    have hcount := h.count hk
    refine ⟨?_, ?_, ?_, ?_⟩
    · intro v
      rw [hcount]
      by_cases hlt : l.length < 2 ^ k
      · obtain ⟨q1, hq1, hh1⟩ := h.push hk hlt v
        refine ⟨?_, ?_, ?_⟩
        · simp [hq1, hlt]
        · intro q' r hqr
          rw [hq1] at hqr
          simp only [Option.some.injEq, Prod.mk.injEq] at hqr
          obtain ⟨rfl, rfl⟩ := hqr
          refine ⟨rfl, ?_⟩
          rw [hh1.content_eq hk, h.content_eq hk]
          simp
        · intro hn
          rw [hq1] at hn
          simp at hn
      · have hfull : l.length = 2 ^ k := Nat.le_antisymm h.len_le (Nat.le_of_not_lt hlt)
        obtain ⟨hnone, hnever⟩ := h.push_full hk h2 hfull v
        refine ⟨?_, ?_, fun _ => hnever⟩
        · simp [hnone, hlt]
        · intro q' r hqr
          rw [hnone] at hqr
          simp at hqr
    · rw [hcount]
      cases l with
      | nil => simp [(h.pop_empty hk).1]
      | cons x l' =>
        obtain ⟨q1, hq1, _⟩ := h.pop hk
        simp [hq1]
    · intro q' r hqr
      cases l with
      | nil => rw [(h.pop_empty hk).1] at hqr; simp at hqr
      | cons x l' =>
        obtain ⟨q1, hq1, hh1⟩ := h.pop hk
        rw [hq1] at hqr
        simp only [Option.some.injEq, Prod.mk.injEq] at hqr
        obtain ⟨rfl, rfl⟩ := hqr
        refine ⟨x, rfl, ?_⟩
        rw [hh1.content_eq hk, h.content_eq hk]
        rfl
    · intro hn
      cases l with
      | nil => exact (h.pop_empty hk).2
      | cons x l' =>
        obtain ⟨q1, hq1, _⟩ := h.pop hk
        rw [hq1] at hn
        simp at hn

/-- The theorem `sequential_refinement` at capacity 2 with the calls
`push(1), push(2), pop, push(3)`. -/
theorem sequential_refinement_witness :
    ((MPMCSimpleQueue.new Nat (2 ^ 1)).callAll (2 ^ 1)
          [Op.push 1, Op.push 2, Op.pop, Op.push 3]).map
        (fun qr => (qr.1.content (2 ^ 1), qr.2)) =
      (BoundedFifo.callAll (2 ^ 1) ([] : List Nat) [Op.push 1, Op.push 2, Op.pop, Op.push 3]).map
        (fun lr => (lr.1.map some, lr.2)) ∧
    ∀ (q : MPMCSimpleQueue Nat) (rs : List (Option Nat)),
      (MPMCSimpleQueue.new Nat (2 ^ 1)).callAll (2 ^ 1)
          [Op.push 1, Op.push 2, Op.pop, Op.push 3] = some (q, rs) →
      (∀ v : Nat,
        ((q.call (2 ^ 1) (.push v)).isSome ↔ (q.head_ + SIZE - q.tail_) % SIZE < 2 ^ 1) ∧
        (∀ (q' : MPMCSimpleQueue Nat) (r : Option Nat),
          q.call (2 ^ 1) (.push v) = some (q', r) →
          r = none ∧ q'.content (2 ^ 1) = q.content (2 ^ 1) ++ [some v]) ∧
        (q.call (2 ^ 1) (.push v) = none → NeverReturns (2 ^ 1) q (.push v))) ∧
      ((q.call (2 ^ 1) .pop).isSome ↔ 0 < (q.head_ + SIZE - q.tail_) % SIZE) ∧
      (∀ (q' : MPMCSimpleQueue Nat) (r : Option Nat), q.call (2 ^ 1) .pop = some (q', r) →
        ∃ x, r = some x ∧ q.content (2 ^ 1) = some x :: q'.content (2 ^ 1)) ∧
      (q.call (2 ^ 1) .pop = none → NeverReturns (2 ^ 1) q .pop) :=
  sequential_refinement 1 (by decide) (by decide) [Op.push 1, Op.push 2, Op.pop, Op.push 3]

/-! ## The consumer loop of the demonstration harness -/

section harness

theorem sum_map_set {α : Type} (f : α → Nat) {l : List α} {i : Nat} {old c : α}
    (h : l[i]? = some old) : ((l.set i c).map f).sum + f old = (l.map f).sum + f c := by
  induction l generalizing i with
  | nil => simp at h
  | cons a l ih =>
    cases i with
    | zero =>
      simp only [List.getElem?_cons_zero, Option.some.injEq] at h
      subst h
      simp only [List.set_cons_zero, List.map_cons, List.sum_cons]
      omega
    | succ i =>
      simp only [List.getElem?_cons_succ] at h
      have := ih h
      simp only [List.set_cons_succ, List.map_cons, List.sum_cons]
      omega

theorem Consumer.ok_mono {c : Consumer} {x y : Int} (hxy : x ≤ y) (h : c.ok x) : c.ok y := by
  cases c with
  | loop lr => trivial
  | pop n call lr => exact ⟨h.1, h.2.1, Int.lt_of_lt_of_le h.2.2 hxy⟩
  | merge n lr => exact ⟨h.1, Int.lt_of_lt_of_le h.2 hxy⟩
  | done n lr => exact ⟨h.1, Int.lt_of_lt_of_le h.2 hxy⟩

theorem capacity_eq : capacity = 2 ^ 10 := by decide

/-- The invariant after consumer `i` has moved from `old` to `c`. -/
theorem TestInv_consumer {s : TestState} (h : TestInv s) {i : Nat} {old c : Consumer}
    (hc : s.consumers[i]? = some old) {q : MPMCSimpleQueue Int} {res : List (Option Int)}
    {ip : Int} (hq : q.slots_.length = capacity) (hip : s.items_popped ≤ ip)
    (hle : ip ≤ total_items + (s.consumers.set i c).countP Consumer.exited)
    (hpops : (c.popCalls : Int) + min s.items_popped total_items =
      old.popCalls + min ip total_items)
    (hok : c.ok ip) :
    TestInv { queue := q, results := res, items_popped := ip,
              consumers := s.consumers.set i c, producers := s.producers } := by
  refine ⟨hq, by simpa using h.cons_len, Int.le_trans h.popped_nonneg hip, hle, ?_, ?_⟩
  · have hsum := sum_map_set Consumer.popCalls (c := c) hc
    have hp := h.pops
    show (((s.consumers.set i c).map Consumer.popCalls).sum : Int) = min ip total_items
    have hp' : (((s.consumers.map Consumer.popCalls).sum : Nat) : Int) =
        min s.items_popped total_items := hp
    omega
  · intro d hd
    show d.ok ip
    obtain ⟨n, hn⟩ := List.mem_iff_getElem?.1 hd
    rcases getElem?_set_cases hn with ⟨_, rfl⟩ | ⟨_, hn'⟩
    · exact hok
    · exact Consumer.ok_mono hip (h.ok d (mem_of_getElem? hn'))

theorem TestInv_init : TestInv test_mpmc_integrity := by
  refine ⟨by simp [test_mpmc_integrity, new_eq], by simp [test_mpmc_integrity], by decide,
    by decide, by decide, ?_⟩
  intro c hc
  simp only [test_mpmc_integrity, List.mem_replicate] at hc
  rw [hc.2]
  trivial

theorem TestInv_consumerStep {s : TestState} (h : TestInv s) {i : Nat} {c : Consumer}
    (hc : s.consumers[i]? = some c) : ∃ s', s.consumerStep i c = some s' ∧ TestInv s' := by
  have hcount : s.consumers.countP Consumer.exited ≤ num_consumers := by
    rw [← h.cons_len]; exact List.countP_le_length _
  have hnn := h.popped_nonneg
  have hle := h.popped_le
  have hwrap : wrapInt (s.items_popped + 1) = s.items_popped + 1 := by
    unfold wrapInt
    unfold total_items at hle
    unfold num_consumers at hcount
    omega
  cases c with
  | loop lr =>
    refine ⟨_, rfl, ?_⟩
    rw [hwrap]
    by_cases hge : s.items_popped ≥ total_items
    · rw [if_pos hge]
      refine TestInv_consumer h hc h.slots_len (by omega) ?_ ?_ ⟨hge, by omega⟩
      · rw [countP_set_new _ hc rfl rfl]
        push_cast
        omega
      · show ((lr.length : Nat) : Int) + _ = ((lr.length : Nat) : Int) + _
        omega
    · rw [if_neg hge]
      refine TestInv_consumer h hc h.slots_len (by omega) ?_ ?_ ⟨hnn, by omega, by omega⟩
      · rw [countP_set_same _ hc (by rfl)]
        omega
      · show ((lr.length + 1 : Nat) : Int) + _ = ((lr.length : Nat) : Int) + _
        push_cast
        omega
  | pop n call lr =>
    have hokc := h.ok _ (mem_of_getElem? hc)
    have hmove : ∀ (q : MPMCSimpleQueue Int) (call' : Call Int), q.slots_.length = capacity →
        TestInv { queue := q, results := s.results, items_popped := s.items_popped,
                  consumers := s.consumers.set i (.pop n call' lr),
                  producers := s.producers } := by
      intro q call' hq
      refine TestInv_consumer h hc hq (Int.le_refl _) ?_ rfl hokc
      rw [countP_set_same _ hc (by rfl)]
      exact hle
    have hstep : ∀ call' : Call Int,
        ∃ s', ((s.queue.pop capacity call').map
          (fun (qc : MPMCSimpleQueue Int × Call Int) =>
            ({ s with queue := qc.1,
                      consumers := s.consumers.set i (.pop n qc.2 lr) } : TestState))) =
          some s' ∧ TestInv s' := by
      intro call'
      have hq : s.queue.slots_.length = 2 ^ 10 := by rw [h.slots_len, capacity_eq]
      obtain ⟨qc, hqc, hlen⟩ := pop_defined (by decide) hq call'
      rw [capacity_eq, hqc]
      exact ⟨_, rfl, hmove _ _ (by rw [hlen, capacity_eq])⟩
    cases call with
    | popDone t r =>
      refine ⟨_, rfl, ?_⟩
      refine TestInv_consumer h hc h.slots_len (Int.le_refl _) ?_ ?_ trivial
      · rw [countP_set_same _ hc (by rfl)]
        exact hle
      · show (((lr ++ [r]).length : Nat) : Int) + _ = ((lr.length + 1 : Nat) : Int) + _
        simp
    | pushIdle v => exact hstep (.pushIdle v)
    | pushWait t v => exact hstep (.pushWait t v)
    | pushStore t v => exact hstep (.pushStore t v)
    | pushPublish t v => exact hstep (.pushPublish t v)
    | pushDone t v => exact hstep (.pushDone t v)
    | popIdle => exact hstep (.popIdle)
    | popWait t => exact hstep (.popWait t)
    | popLoad t => exact hstep (.popLoad t)
    | popPublish t r => exact hstep (.popPublish t r)
  | merge n lr =>
    refine ⟨_, rfl, ?_⟩
    have hokc : (Consumer.merge n lr).ok s.items_popped := h.ok _ (mem_of_getElem? hc)
    refine TestInv_consumer h hc h.slots_len (Int.le_refl _) ?_ rfl
      (show (Consumer.done n lr).ok s.items_popped from hokc)
    rw [countP_set_same _ hc (by rfl)]
    exact hle
  | done n lr => exact ⟨s, rfl, h⟩

theorem TestInv_producerStep {s : TestState} (h : TestInv s) (i : Nat) (p : Producer) :
    ∃ s', s.producerStep i p = some s' ∧ TestInv s' := by
  have hmove : ∀ (q : MPMCSimpleQueue Int) (ps : List Producer), q.slots_.length = capacity →
      TestInv { s with queue := q, producers := ps } := by
    intro q ps hq
    exact ⟨hq, h.cons_len, h.popped_nonneg, h.popped_le, h.pops, h.ok⟩
  have hstep : ∀ (j : Int) (call' : Call Int),
      ∃ s', ((s.queue.push capacity call').map
        (fun (qc : MPMCSimpleQueue Int × Call Int) =>
          ({ s with queue := qc.1,
                    producers := s.producers.set i (.push j qc.2) } : TestState))) =
        some s' ∧ TestInv s' := by
    intro j call'
    have hq : s.queue.slots_.length = 2 ^ 10 := by rw [h.slots_len, capacity_eq]
    obtain ⟨qc, hqc, hlen⟩ := push_defined (by decide) hq call'
    rw [capacity_eq, hqc]
    exact ⟨_, rfl, hmove _ _ (by rw [hlen, capacity_eq])⟩
  cases p with
  | loop j => exact ⟨_, rfl, hmove _ _ h.slots_len⟩
  | push j call =>
    cases call with
    | pushDone t v => exact ⟨_, rfl, hmove _ _ h.slots_len⟩
    | pushIdle v => exact hstep _ (.pushIdle v)
    | pushWait t v => exact hstep _ (.pushWait t v)
    | pushStore t v => exact hstep _ (.pushStore t v)
    | pushPublish t v => exact hstep _ (.pushPublish t v)
    | popDone t r => exact hstep _ (.popDone t r)
    | popIdle => exact hstep _ (.popIdle)
    | popWait t => exact hstep _ (.popWait t)
    | popLoad t => exact hstep _ (.popLoad t)
    | popPublish t r => exact hstep _ (.popPublish t r)
  | done => exact ⟨s, rfl, h⟩

theorem TestInv_step {s : TestState} (h : TestInv s) (t : Thread) :
    ∃ s', s.step t = some s' ∧ TestInv s' := by
  cases t with
  | consumer i =>
    cases hc : s.consumers[i]? with
    | none => exact ⟨s, by simp [TestState.step, hc], h⟩
    | some c =>
      obtain ⟨s', hs', hinv⟩ := TestInv_consumerStep h hc
      exact ⟨s', by simp [TestState.step, hc, hs'], hinv⟩
  | producer i =>
    cases hp : s.producers[i]? with
    | none => exact ⟨s, by simp [TestState.step, hp], h⟩
    | some p =>
      obtain ⟨s', hs', hinv⟩ := TestInv_producerStep h i p
      exact ⟨s', by simp [TestState.step, hp, hs'], hinv⟩

theorem TestInv_run {s : TestState} (h : TestInv s) (sched : List Thread) :
    ∃ s', s.run sched = some s' ∧ TestInv s' := by
  induction sched generalizing s with
  | nil => exact ⟨s, rfl, h⟩
  | cons t sched ih =>
    obtain ⟨s1, h1, hinv1⟩ := TestInv_step h t
    obtain ⟨s', h', hinv'⟩ := ih hinv1
    exact ⟨s', by simp [TestState.run, h1, h'], hinv'⟩

end harness

/-- C19 as amended (the consumer loop of the demonstration harness).  Every schedule of the
threads of `test_mpmc_integrity` runs to a state `s`, and in `s`:
* a consumer that has left its loop did so on a count `≥ total_items`;
* a consumer whose `fetch_add` returned a count below `total_items` is inside
  `queue.pop`, and its next step keeps it there unless that pop has returned, in which case
  it records the value and goes back to the top of the loop;
* a consumer at the top of the loop that receives a count below `total_items` calls
  `queue.pop`;
* the pop calls made in total are `min(items_popped, total_items)`, and they are exactly
  `total_items` once any consumer has left its loop. -/
theorem harness_exit_after_total (sched : List Thread) :
    ∃ s, test_mpmc_integrity.run sched = some s ∧
      (∀ (i : Nat) (c : Consumer), s.consumers[i]? = some c → c.exited = true →
        ∃ n lr, (c = .merge n lr ∨ c = .done n lr) ∧ total_items ≤ n) ∧
      (∀ (i : Nat) (n : Int) (call : Call Int) (lr : List (Option Int)),
        s.consumers[i]? = some (.pop n call lr) →
        n < total_items ∧
        ∃ s', s.step (.consumer i) = some s' ∧
          ((∃ call', s'.consumers[i]? = some (.pop n call' lr)) ∨
           (∃ t r, call = .popDone t r ∧ s'.consumers[i]? = some (.loop (lr ++ [r]))))) ∧
      (∀ (i : Nat) (lr : List (Option Int)), s.consumers[i]? = some (.loop lr) →
        s.items_popped < total_items →
        ∃ s', s.step (.consumer i) = some s' ∧
          s'.consumers[i]? = some (.pop s.items_popped .popIdle lr)) ∧
      (s.popCalls : Int) = min s.items_popped total_items ∧
      ((∃ (i : Nat) (c : Consumer), s.consumers[i]? = some c ∧ c.exited = true) →
        (s.popCalls : Int) = total_items) := by
  obtain ⟨s, hrun, hinv⟩ := TestInv_run TestInv_init sched
  have hexit : ∀ (i : Nat) (c : Consumer), s.consumers[i]? = some c → c.exited = true →
      ∃ n lr, (c = .merge n lr ∨ c = .done n lr) ∧ total_items ≤ n ∧ n < s.items_popped := by
    intro i c hc he
    have hok := hinv.ok c (mem_of_getElem? hc)
    cases c with
    | loop lr => simp [Consumer.exited] at he
    | pop n call lr => simp [Consumer.exited] at he
    | merge n lr => exact ⟨n, lr, Or.inl rfl, hok.1, hok.2⟩
    | done n lr => exact ⟨n, lr, Or.inr rfl, hok.1, hok.2⟩
  refine ⟨s, hrun, ?_, ?_, ?_, hinv.pops, ?_⟩
  · intro i c hc he
    obtain ⟨n, lr, h1, h2, _⟩ := hexit i c hc he
    exact ⟨n, lr, h1, h2⟩
  · intro i n call lr hc
    have hok := hinv.ok _ (mem_of_getElem? hc)
    have hi := (List.getElem?_eq_some.1 hc).1
    refine ⟨hok.2.1, ?_⟩
    have hmove : ∀ call' : Call Int, (∀ t r, call' ≠ Call.popDone t r) →
        s.consumerStep i (.pop n call' lr) =
          (s.queue.pop capacity call').map
            (fun (qc : MPMCSimpleQueue Int × Call Int) =>
              ({ s with queue := qc.1,
                        consumers := s.consumers.set i (.pop n qc.2 lr) } : TestState)) := by
      intro call' hne
      cases call' with
      | popDone t r => exact absurd rfl (hne t r)
      | _ => rfl
    by_cases hd : ∃ t r, call = Call.popDone t r
    · obtain ⟨t, r, rfl⟩ := hd
      refine ⟨_, by simp only [TestState.step, hc]; rfl, Or.inr ⟨t, r, rfl, ?_⟩⟩
      exact List.getElem?_set_self hi
    · have hne : ∀ t r, call ≠ Call.popDone t r := fun t r e => hd ⟨t, r, e⟩
      have hq : s.queue.slots_.length = 2 ^ 10 := by rw [hinv.slots_len, capacity_eq]
      obtain ⟨qc, hqc, _⟩ := pop_defined (by decide) hq call
      rw [← capacity_eq] at hqc
      refine ⟨_, by simp only [TestState.step, hc, hmove call hne, hqc]; rfl,
        Or.inl ⟨qc.2, ?_⟩⟩
      exact List.getElem?_set_self hi
  · intro i lr hc hlt
    have hi := (List.getElem?_eq_some.1 hc).1
    refine ⟨_, by simp only [TestState.step, hc]; rfl, ?_⟩
    show (s.consumers.set i _)[i]? = _
    rw [List.getElem?_set_self hi, if_neg (by omega)]
  · rintro ⟨i, c, hc, he⟩
    obtain ⟨n, lr, _, h2, h3⟩ := hexit i c hc he
    rw [hinv.pops]
    omega

/-- C19 as stated, refuted on `test_mpmc_integrity`: no execution reaches a state in which
a consumer has left its loop on a count below `total_items`, or in which a consumer has left
its loop and fewer than `total_items` pop calls have been made. -/
theorem harness_no_early_exit :
    ¬ ∃ (sched : List Thread) (s : TestState), test_mpmc_integrity.run sched = some s ∧
      ∃ (i : Nat) (c : Consumer), s.consumers[i]? = some c ∧ c.exited = true ∧
        ((∃ n lr, (c = .merge n lr ∨ c = .done n lr) ∧ n < total_items) ∨
         (s.popCalls : Int) < total_items) := by
  rintro ⟨sched, s, hrun, i, c, hc, he, hbad⟩
  obtain ⟨s', hrun', hinv⟩ := TestInv_run TestInv_init sched
  rw [hrun] at hrun'
  obtain rfl := Option.some.inj hrun'
  have hok := hinv.ok c (mem_of_getElem? hc)
  have hpops := hinv.pops
  cases c with
  | loop lr => simp [Consumer.exited] at he
  | pop n call lr => simp [Consumer.exited] at he
  | merge n lr =>
    rcases hbad with ⟨m, lr', h1 | h1, h2⟩ | h2
    · simp only [Consumer.merge.injEq] at h1
      have := hok.1
      omega
    · simp at h1
    · have := hok.1
      have := hok.2
      omega
  | done n lr =>
    rcases hbad with ⟨m, lr', h1 | h1, h2⟩ | h2
    · simp at h1
    · simp only [Consumer.done.injEq] at h1
      have := hok.1
      omega
    · have := hok.1
      have := hok.2
      omega

/-! ## The generation counter with at least two slots -/

/-- The generation counter is monotone for every capacity `2 ^ k ≥ 2` when no counter
overflows (`ops.length + N ≤ 2 ^ 64`): in every state reached from the fresh queue, every
atomic step leaves the turn of each slot `j` unchanged or stores a greater value, greater
than the initial value `j` too. -/
theorem turn_monotone_two_slots {T : Type} (k : Nat) (hk : k < 64) (h2 : 2 ≤ 2 ^ k)
    (ops : List (Op T)) (hcap : ops.length + 2 ^ k ≤ SIZE) (sched : List Nat) (i : Nat) :
    ∃ s s', run (2 ^ k) (System.fresh (2 ^ k) ops) sched = some s ∧
      step (2 ^ k) s i = some s' ∧
      ∀ (j : Nat) (sl sl' : Slot T), s.queue.slots_[j]? = some sl →
        s'.queue.slots_[j]? = some sl' →
        sl.turn ≤ sl'.turn ∧ (sl'.turn ≠ sl.turn → sl.turn < sl'.turn ∧ j < sl'.turn) := by
  have hNpos : 0 < 2 ^ k := Nat.pow_pos (by decide)
  have hb : ops.length < SIZE := by omega
  obtain ⟨s, hrun, hinv, hown⟩ :=
    Own_run hk h2 hb (Inv_fresh (2 ^ k) ops) (Own_fresh (2 ^ k) ops) sched
  have hsame : ∀ (j : Nat) (sl sl' : Slot T), s.queue.slots_[j]? = some sl →
      s.queue.slots_[j]? = some sl' →
      sl.turn ≤ sl'.turn ∧ (sl'.turn ≠ sl.turn → sl.turn < sl'.turn ∧ j < sl'.turn) := by
    intro j sl sl' h1 h1'
    rw [h1] at h1'
    obtain rfl := Option.some.inj h1'
    exact ⟨Nat.le_refl _, fun h => absurd rfl h⟩
  have hpushlt : ∀ c ∈ s.calls, ∀ t, c.pushTicket = some t → t < ops.length := by
    intro c hc t ht
    have h1 := hown.push_lt_head c hc t ht
    rw [hown.push_count] at h1
    have h3 := List.countP_le_length (p := Call.pushClaimed) (l := s.calls)
    rw [hinv.calls_len] at h3
    omega
  have hpoplt : ∀ c ∈ s.calls, ∀ t, c.popTicket = some t → t < ops.length := by
    intro c hc t ht
    obtain ⟨h0, h1⟩ := hinv.pop_count hb
    have h1' := h1 c hc t ht
    rw [h0] at h1'
    have h3 := List.countP_le_length (p := Call.popClaimed) (l := s.calls)
    rw [hinv.calls_len] at h3
    omega
  suffices key : ∃ s', step (2 ^ k) s i = some s' ∧
      ∀ (j : Nat) (sl sl' : Slot T), s.queue.slots_[j]? = some sl →
        s'.queue.slots_[j]? = some sl' →
        sl.turn ≤ sl'.turn ∧ (sl'.turn ≠ sl.turn → sl.turn < sl'.turn ∧ j < sl'.turn) by
    obtain ⟨s', hstep, hP⟩ := key
    exact ⟨s, s', hrun, hstep, hP⟩
  refine step_elim hk hinv.slots_len i
    (P := fun s' => ∀ (j : Nat) (sl sl' : Slot T), s.queue.slots_[j]? = some sl →
        s'.queue.slots_[j]? = some sl' →
        sl.turn ≤ sl'.turn ∧ (sl'.turn ≠ sl.turn → sl.turn < sl'.turn ∧ j < sl'.turn))
    hsame (fun v _ => hsame) (fun t v sl _ _ _ => hsame) ?_ ?_ (fun _ => hsame)
    (fun t sl _ _ _ => hsame) (fun t sl _ _ => hsame) ?_
  · intro t v sl0 hc hsl0 j sl sl' h1 h1'
    rcases getElem?_set_cases h1' with ⟨hj, rfl⟩ | ⟨_, h1''⟩
    · subst hj
      rw [hsl0] at h1
      obtain rfl := Option.some.inj h1
      exact ⟨Nat.le_refl _, fun h => absurd rfl h⟩
    · exact hsame j sl sl' h1 h1''
  · intro t v sl0 hc hsl0 j sl sl' h1 h1'
    rcases getElem?_set_cases h1' with ⟨hj, rfl⟩ | ⟨_, h1''⟩
    · subst hj
      rw [hsl0] at h1
      obtain rfl := Option.some.inj h1
      obtain ⟨sl1, h3, h4⟩ := hown.push_owner i _ t hc rfl
      rw [and_Divisor hk] at hsl0
      rw [hsl0] at h3
      obtain rfl := Option.some.inj h3
      have ht := hpushlt _ (mem_of_getElem? hc) t rfl
      have hmod := Nat.mod_le t (2 ^ k)
      show sl0.turn ≤ (t + 1) % SIZE ∧ ((t + 1) % SIZE ≠ sl0.turn →
        sl0.turn < (t + 1) % SIZE ∧ t &&& Divisor (2 ^ k) < (t + 1) % SIZE)
      rw [Nat.mod_eq_of_lt (by omega), h4, and_Divisor hk]
      exact ⟨by omega, fun _ => ⟨by omega, by omega⟩⟩
    · exact hsame j sl sl' h1 h1''
  · intro t r sl0 hc hsl0 j sl sl' h1 h1'
    rcases getElem?_set_cases h1' with ⟨hj, rfl⟩ | ⟨_, h1''⟩
    · subst hj
      rw [hsl0] at h1
      obtain rfl := Option.some.inj h1
      obtain ⟨sl1, h3, h4⟩ := hown.pop_owner i _ t hc rfl
      rw [and_Divisor hk] at hsl0
      rw [hsl0] at h3
      obtain rfl := Option.some.inj h3
      have ht := hpoplt _ (mem_of_getElem? hc) t rfl
      have hmod := Nat.mod_le t (2 ^ k)
      rw [Nat.mod_eq_of_lt (by omega)] at h4
      show sl0.turn ≤ (t + 2 ^ k) % SIZE ∧ ((t + 2 ^ k) % SIZE ≠ sl0.turn →
        sl0.turn < (t + 2 ^ k) % SIZE ∧ t &&& Divisor (2 ^ k) < (t + 2 ^ k) % SIZE)
      rw [Nat.mod_eq_of_lt (by omega), h4, and_Divisor hk]
      exact ⟨by omega, fun _ => ⟨by omega, by omega⟩⟩
    · exact hsame j sl sl' h1 h1''

/-! ## Blocking and progress with at least two slots -/

section handoff
variable {T : Type} {k : Nat} {ops : List (Op T)} {s : System T} {i : Nat}

theorem Handoff_fresh (N : Nat) (ops : List (Op T)) : Handoff N (System.fresh N ops) := by
  refine ⟨?_, ?_, ?_⟩
  · intro t v hm
    obtain ⟨o, _, ho⟩ := List.mem_map.1 hm
    cases o <;> simp [Op.start] at ho
  · intro t r hm
    obtain ⟨o, _, ho⟩ := List.mem_map.1 hm
    cases o <;> simp [Op.start] at ho
  · intro j hj
    left
    refine ⟨{ turn := j, storage := none }, ?_, rfl⟩
    simp [System.fresh, new_eq, List.getElem?_map, List.getElem?_range hj]

/-- A call that has left its wait loop is still found after another call, or itself, has
moved on. -/
theorem passed_mem_set {calls : List (Call T)} {old c : Call T} (f : Call T → Option Nat)
    (hc : calls[i]? = some old) (hf : ∀ t, f old = some t → f c = some t) {t : Nat}
    (h : ∃ d ∈ calls, f d = some t) : ∃ d ∈ calls.set i c, f d = some t := by
  obtain ⟨d, hd, hdt⟩ := h
  by_cases hde : d = old
  · subst hde
    exact ⟨c, mem_set_new hc, hf t hdt⟩
  · exact ⟨d, mem_set_of_ne hc hd hde, hdt⟩

/-- A step that publishes nothing keeps the invariant. -/
theorem Handoff_update {N : Nat} {old c : Call T} {q : MPMCSimpleQueue T}
    (h : Handoff N s) (hc : s.calls[i]? = some old) (hnew : c.isDone = false)
    (hpush : ∀ t, old.pushPassed = some t → c.pushPassed = some t)
    (hpop : ∀ t, old.popPassed = some t → c.popPassed = some t)
    (hturn : ∀ (j : Nat) (sl : Slot T), s.queue.slots_[j]? = some sl →
      ∃ sl' : Slot T, q.slots_[j]? = some sl' ∧ sl'.turn = sl.turn) :
    Handoff N { queue := q, calls := s.calls.set i c } := by
  have hmem : ∀ d : Call T, d.isDone = true → d ∈ s.calls.set i c → d ∈ s.calls := by
    intro d hd hm
    rcases List.mem_or_eq_of_mem_set hm with hm | rfl
    · exact hm
    · rw [hnew] at hd
      exact Bool.noConfusion hd
  refine ⟨?_, ?_, ?_⟩
  · intro t v hm
    rcases h.push_done t v (hmem _ rfl hm) with ⟨sl, h1, h2⟩ | h1
    · obtain ⟨sl', h3, h4⟩ := hturn _ sl h1
      exact Or.inl ⟨sl', h3, by rw [h4, h2]⟩
    · exact Or.inr (passed_mem_set Call.popPassed hc hpop h1)
  · intro t r hm
    rcases h.pop_done t r (hmem _ rfl hm) with ⟨sl, h1, h2⟩ | h1
    · obtain ⟨sl', h3, h4⟩ := hturn _ sl h1
      exact Or.inl ⟨sl', h3, by rw [h4, h2]⟩
    · exact Or.inr (passed_mem_set Call.pushPassed hc hpush h1)
  · intro j hj
    rcases h.initial j hj with ⟨sl, h1, h2⟩ | h1
    · obtain ⟨sl', h3, h4⟩ := hturn _ sl h1
      exact Or.inl ⟨sl', h3, by rw [h4, h2]⟩
    · exact Or.inr (passed_mem_set Call.pushPassed hc hpush h1)

end handoff

section handoff
variable {T : Type} {k : Nat} {ops : List (Op T)} {s : System T} {i : Nat}

theorem Handoff_pushPublish (hk : k < 64) (h2 : 2 ≤ 2 ^ k) (hcap : ops.length + 2 ^ k ≤ SIZE)
    (hinv : Inv (2 ^ k) ops s) (hown : Own (2 ^ k) s) (h : Handoff (2 ^ k) s)
    {t : Nat} {v : T} {sl : Slot T} (hc : s.calls[i]? = some (.pushPublish t v))
    (hsl : s.queue.slots_[t &&& Divisor (2 ^ k)]? = some sl) :
    Handoff (2 ^ k)
      { queue := { s.queue with
          slots_ := s.queue.slots_.set (t &&& Divisor (2 ^ k))
            { sl with turn := (t + 1) % SIZE } },
        calls := s.calls.set i (.pushDone t v) } := by
  rw [and_Divisor hk] at hsl ⊢
  have hjlen := (List.getElem?_eq_some.1 hsl).1
  have hb : ops.length < SIZE := by omega
  obtain ⟨sl0, h3, hturn⟩ := hown.push_owner i _ t hc rfl
  rw [hsl] at h3
  obtain rfl := Option.some.inj h3
  have hnewmem : Call.pushDone t v ∈ s.calls.set i (.pushDone t v) := mem_set_new hc
  have hpoplt : ∀ c ∈ s.calls, ∀ t, c.popTicket = some t → t < ops.length := by
    intro c hc t ht
    obtain ⟨h0, h1⟩ := hinv.pop_count hb
    have h1' := h1 c hc t ht
    rw [h0] at h1'
    have h3 := List.countP_le_length (p := Call.popClaimed) (l := s.calls)
    rw [hinv.calls_len] at h3
    omega
  refine ⟨?_, ?_, ?_⟩
  · intro t' v' hm
    rcases List.mem_or_eq_of_mem_set hm with hm | heq
    · rcases h.push_done t' v' hm with ⟨sl1, h4, h5⟩ | h4
      · by_cases hs : t' % 2 ^ k = t % 2 ^ k
        · exfalso
          rw [hs, hsl] at h4
          obtain rfl := Option.some.inj h4
          rw [hturn] at h5
          have := congrArg (· % 2 ^ k) h5
          simp only [mod_SIZE_mod hk, ← hs] at this
          exact succ_mod_ne h2 t' this.symm
        · left
          refine ⟨sl1, ?_, h5⟩
          show (s.queue.slots_.set _ _)[t' % 2 ^ k]? = some sl1
          rw [List.getElem?_set_ne (fun e => hs e.symm)]
          exact h4
      · exact Or.inr (passed_mem_set Call.popPassed hc
          (fun _ hx => by simp [Call.popPassed] at hx) h4)
    · simp only [Call.pushDone.injEq] at heq
      obtain ⟨rfl, rfl⟩ := heq
      left
      exact ⟨_, List.getElem?_set_self hjlen, rfl⟩
  · intro t' r hm
    have hm' : Call.popDone t' r ∈ s.calls := by
      rcases List.mem_or_eq_of_mem_set hm with hm | heq
      · exact hm
      · simp at heq
    rcases h.pop_done t' r hm' with ⟨sl1, h4, h5⟩ | h4
    · by_cases hs : t' % 2 ^ k = t % 2 ^ k
      · right
        rw [hs, hsl] at h4
        obtain rfl := Option.some.inj h4
        rw [hturn] at h5
        have hlt := hpoplt _ hm' t' rfl
        rw [Nat.mod_eq_of_lt (by omega)] at h5
        exact ⟨_, hnewmem, by rw [h5]; rfl⟩
      · left
        refine ⟨sl1, ?_, h5⟩
        show (s.queue.slots_.set _ _)[t' % 2 ^ k]? = some sl1
        rw [List.getElem?_set_ne (fun e => hs e.symm)]
        exact h4
    · exact Or.inr (passed_mem_set (c := Call.pushDone t v) Call.pushPassed hc (fun _ hx => hx) h4)
  · intro j hj
    rcases h.initial j hj with ⟨sl1, h4, h5⟩ | h4
    · by_cases hs : j = t % 2 ^ k
      · right
        rw [hs, hsl] at h4
        obtain rfl := Option.some.inj h4
        rw [hturn] at h5
        exact ⟨_, hnewmem, by rw [h5]; rfl⟩
      · left
        refine ⟨sl1, ?_, h5⟩
        show (s.queue.slots_.set _ _)[j]? = some sl1
        rw [List.getElem?_set_ne (fun e => hs e.symm)]
        exact h4
    · exact Or.inr (passed_mem_set (c := Call.pushDone t v) Call.pushPassed hc (fun _ hx => hx) h4)

theorem Handoff_popPublish (hk : k < 64) (h2 : 2 ≤ 2 ^ k)
    (hinv : Inv (2 ^ k) ops s) (hown : Own (2 ^ k) s) (h : Handoff (2 ^ k) s)
    {t : Nat} {r : Option T} {sl : Slot T} (hc : s.calls[i]? = some (.popPublish t r))
    (hsl : s.queue.slots_[t &&& Divisor (2 ^ k)]? = some sl) :
    Handoff (2 ^ k)
      { queue := { s.queue with
          slots_ := s.queue.slots_.set (t &&& Divisor (2 ^ k))
            { sl with turn := (t + 2 ^ k) % SIZE } },
        calls := s.calls.set i (.popDone t r) } := by
  rw [and_Divisor hk] at hsl ⊢
  have hjlen := (List.getElem?_eq_some.1 hsl).1
  have hNpos : 0 < 2 ^ k := Nat.pow_pos (by decide)
  obtain ⟨sl0, h3, hturn⟩ := hown.pop_owner i _ t hc rfl
  rw [hsl] at h3
  obtain rfl := Option.some.inj h3
  have hnewmem : Call.popDone t r ∈ s.calls.set i (.popDone t r) := mem_set_new hc
  have htlt : t < SIZE := hinv.pop_ticket_lt _ (mem_of_getElem? hc) t rfl
  refine ⟨?_, ?_, ?_⟩
  · intro t' v' hm
    have hm' : Call.pushDone t' v' ∈ s.calls := by
      rcases List.mem_or_eq_of_mem_set hm with hm | heq
      · exact hm
      · simp at heq
    rcases h.push_done t' v' hm' with ⟨sl1, h4, h5⟩ | h4
    · by_cases hs : t' % 2 ^ k = t % 2 ^ k
      · right
        rw [hs, hsl] at h4
        obtain rfl := Option.some.inj h4
        rw [hturn] at h5
        have ht'lt : t' < SIZE := hinv.push_ticket_lt _ hm' t' rfl
        obtain rfl := succ_mod_SIZE_inj htlt ht'lt h5
        exact ⟨_, hnewmem, rfl⟩
      · left
        refine ⟨sl1, ?_, h5⟩
        show (s.queue.slots_.set _ _)[t' % 2 ^ k]? = some sl1
        rw [List.getElem?_set_ne (fun e => hs e.symm)]
        exact h4
    · exact Or.inr (passed_mem_set (c := Call.popDone t r) Call.popPassed hc (fun _ hx => hx) h4)
  · intro t' r' hm
    rcases List.mem_or_eq_of_mem_set hm with hm | heq
    · rcases h.pop_done t' r' hm with ⟨sl1, h4, h5⟩ | h4
      · by_cases hs : t' % 2 ^ k = t % 2 ^ k
        · exfalso
          rw [hs, hsl] at h4
          obtain rfl := Option.some.inj h4
          rw [hturn] at h5
          have := congrArg (· % 2 ^ k) h5
          simp only [mod_SIZE_mod hk, Nat.add_mod_right, hs] at this
          exact succ_mod_ne h2 t this
        · left
          refine ⟨sl1, ?_, h5⟩
          show (s.queue.slots_.set _ _)[t' % 2 ^ k]? = some sl1
          rw [List.getElem?_set_ne (fun e => hs e.symm)]
          exact h4
      · exact Or.inr (passed_mem_set Call.pushPassed hc
          (fun _ hx => by simp [Call.pushPassed] at hx) h4)
    · simp only [Call.popDone.injEq] at heq
      obtain ⟨rfl, rfl⟩ := heq
      left
      exact ⟨_, List.getElem?_set_self hjlen, rfl⟩
  · intro j hj
    rcases h.initial j hj with ⟨sl1, h4, h5⟩ | h4
    · by_cases hs : j = t % 2 ^ k
      · exfalso
        subst hs
        rw [hsl] at h4
        obtain rfl := Option.some.inj h4
        rw [hturn] at h5
        have := congrArg (· % 2 ^ k) h5
        simp only [mod_SIZE_mod hk, Nat.mod_mod] at this
        exact succ_mod_ne h2 t this
      · left
        refine ⟨sl1, ?_, h5⟩
        show (s.queue.slots_.set _ _)[j]? = some sl1
        rw [List.getElem?_set_ne (fun e => hs e.symm)]
        exact h4
    · exact Or.inr (passed_mem_set Call.pushPassed hc
        (fun _ hx => by simp [Call.pushPassed] at hx) h4)

/-- With at least two slots and no counter that can wrap, every atomic step keeps the
invariant. -/
theorem Handoff_step (hk : k < 64) (h2 : 2 ≤ 2 ^ k) (hcap : ops.length + 2 ^ k ≤ SIZE)
    (hinv : Inv (2 ^ k) ops s) (hown : Own (2 ^ k) s) (h : Handoff (2 ^ k) s) (i : Nat) :
    ∃ s', step (2 ^ k) s i = some s' ∧ Handoff (2 ^ k) s' := by
  have hid : ∀ (j : Nat) (sl : Slot T), s.queue.slots_[j]? = some sl →
      ∃ sl' : Slot T, s.queue.slots_[j]? = some sl' ∧ sl'.turn = sl.turn :=
    fun j sl hj => ⟨sl, hj, rfl⟩
  refine step_elim hk hinv.slots_len i h ?_ ?_ ?_ ?_ ?_ ?_ ?_ ?_
  · intro v hc
    exact Handoff_update h hc rfl (fun t ht => by simp [Call.pushPassed] at ht)
      (fun t ht => by simp [Call.popPassed] at ht) hid
  · intro t v sl hc hsl hturn
    exact Handoff_update h hc rfl (fun t ht => by simp [Call.pushPassed] at ht)
      (fun t ht => by simp [Call.popPassed] at ht) hid
  · intro t v sl hc hsl
    refine Handoff_update h hc rfl (fun t ht => ht)
      (fun t ht => by simp [Call.popPassed] at ht) ?_
    intro j sl1 hj
    by_cases hjt : t &&& Divisor (2 ^ k) = j
    · subst hjt
      rw [hsl] at hj
      obtain rfl := Option.some.inj hj
      exact ⟨_, List.getElem?_set_self (List.getElem?_eq_some.1 hsl).1, rfl⟩
    · exact ⟨sl1, by show (s.queue.slots_.set _ _)[j]? = _
                     rw [List.getElem?_set_ne hjt]; exact hj, rfl⟩
  · intro t v sl hc hsl
    exact Handoff_pushPublish hk h2 hcap hinv hown h hc hsl
  · intro hc
    exact Handoff_update h hc rfl (fun t ht => by simp [Call.pushPassed] at ht)
      (fun t ht => by simp [Call.popPassed] at ht) hid
  · intro t sl hc hsl hturn
    exact Handoff_update h hc rfl (fun t ht => by simp [Call.pushPassed] at ht)
      (fun t ht => by simp [Call.popPassed] at ht) hid
  · intro t sl hc hsl
    exact Handoff_update h hc rfl (fun t ht => by simp [Call.pushPassed] at ht)
      (fun t ht => ht) hid
  · intro t r sl hc hsl
    exact Handoff_popPublish hk h2 hinv hown h hc hsl

/-- The three invariants along a schedule. -/
theorem Handoff_run (hk : k < 64) (h2 : 2 ≤ 2 ^ k) (hcap : ops.length + 2 ^ k ≤ SIZE)
    (hinv : Inv (2 ^ k) ops s) (hown : Own (2 ^ k) s) (h : Handoff (2 ^ k) s)
    (sched : List Nat) :
    ∃ s', run (2 ^ k) s sched = some s' ∧ Inv (2 ^ k) ops s' ∧ Own (2 ^ k) s' ∧
      Handoff (2 ^ k) s' := by
  induction sched generalizing s with
  | nil => exact ⟨s, rfl, hinv, hown, h⟩
  | cons i sched ih =>
    obtain ⟨s1, h1, hinv1, hown1⟩ := Own_step hk h2 (by omega) hinv hown i
    obtain ⟨s2, h2', hh1⟩ := Handoff_step hk h2 hcap hinv hown h i
    rw [h1] at h2'
    obtain rfl := Option.some.inj h2'
    obtain ⟨s', h', hr⟩ := ih hinv1 hown1 hh1
    exact ⟨s', by simp [run, h1, h'], hr⟩

end handoff

section progress
variable {T : Type} {k : Nat} {ops : List (Op T)} {s : System T}

/-- Every ticket below `head_` is held by a push. -/
theorem push_ticket_onto {N : Nat} (hown : Own N s) (t : Nat) (ht : t < s.queue.head_) :
    ∃ (i : Nat) (c : Call T), s.calls[i]? = some c ∧ c.pushTicket = some t := by
  have hpush : (s.calls.filterMap Call.pushTicket).Perm (List.range s.queue.head_) := by
    refine perm_range_of_nodup (nodup_filterMap_of_unique hown.push_unique) ?_ ?_
    · intro x hx
      obtain ⟨c, hc, hcx⟩ := List.mem_filterMap.1 hx
      exact hown.push_lt_head c hc x hcx
    · rw [length_filterMap_eq_countP, hown.push_count]
      rfl
  have hmem : t ∈ s.calls.filterMap Call.pushTicket :=
    hpush.symm.subset (List.mem_range.2 ht)
  obtain ⟨c, hc, hct⟩ := List.mem_filterMap.1 hmem
  obtain ⟨i, hi⟩ := List.mem_iff_getElem?.1 hc
  exact ⟨i, c, hi, hct⟩

/-- Every ticket below `tail_` is held by a pop. -/
theorem pop_ticket_onto {N : Nat} (hb : ops.length < SIZE) (hinv : Inv N ops s)
    (hown : Own N s) (t : Nat) (ht : t < s.queue.tail_) :
    ∃ (i : Nat) (c : Call T), s.calls[i]? = some c ∧ c.popTicket = some t := by
  have hpop : (s.calls.filterMap Call.popTicket).Perm (List.range s.queue.tail_) := by
    refine perm_range_of_nodup (nodup_filterMap_of_unique hown.pop_unique) ?_ ?_
    · intro x hx
      obtain ⟨c, hc, hcx⟩ := List.mem_filterMap.1 hx
      exact (hinv.pop_count hb).2 c hc x hcx
    · rw [length_filterMap_eq_countP, (hinv.pop_count hb).1]
      rfl
  have hmem : t ∈ s.calls.filterMap Call.popTicket :=
    hpop.symm.subset (List.mem_range.2 ht)
  obtain ⟨c, hc, hct⟩ := List.mem_filterMap.1 hmem
  obtain ⟨i, hi⟩ := List.mem_iff_getElem?.1 hc
  exact ⟨i, c, hi, hct⟩

/-- A push in its wait loop whose ticket is below `N`, or whose ticket is `t ≥ N` while
the pop holding `t - N` has returned, leaves the loop with its next step. -/
theorem push_can_pass (hk : k < 64)
    (hinv : Inv (2 ^ k) ops s) (hown : Own (2 ^ k) s) (h : Handoff (2 ^ k) s)
    {i t : Nat} {v : T} (hc : s.calls[i]? = some (.pushWait t v))
    (hfree : t < 2 ^ k ∨ (2 ^ k ≤ t ∧ ∃ r, Call.popDone (t - 2 ^ k) r ∈ s.calls)) :
    ∃ s', step (2 ^ k) s i = some s' ∧ s'.calls[i]? = some (.pushStore t v) := by
  have hno : ¬ ∃ c ∈ s.calls, c.pushPassed = some t := by
    rintro ⟨c, hcm, hct⟩
    obtain ⟨j, hj⟩ := List.mem_iff_getElem?.1 hcm
    have hpt : c.pushTicket = some t := by
      cases c <;> simp_all [Call.pushPassed, Call.pushTicket]
    obtain rfl := hown.push_unique i j _ c t hc hj rfl hpt
    rw [hc] at hj
    obtain rfl := Option.some.inj hj
    simp [Call.pushPassed] at hct
  have hturn : ∃ sl : Slot T, s.queue.slots_[t % 2 ^ k]? = some sl ∧ sl.turn = t := by
    rcases hfree with hlt | ⟨hle, r, hr⟩
    · rcases h.initial t hlt with ⟨sl, h1, h2⟩ | h1
      · exact ⟨sl, by rw [Nat.mod_eq_of_lt hlt]; exact h1, h2⟩
      · exact absurd h1 hno
    · have htlt : t < SIZE := hinv.push_ticket_lt _ (mem_of_getElem? hc) t rfl
      rcases h.pop_done _ r hr with ⟨sl, h1, h2⟩ | h1
      · have e : t - 2 ^ k + 2 ^ k = t := by omega
        rw [e, Nat.mod_eq_of_lt htlt] at h2
        have e2 : (t - 2 ^ k) % 2 ^ k = t % 2 ^ k := by
          conv_rhs => rw [← e, Nat.add_mod_right]
        rw [e2] at h1
        exact ⟨sl, h1, h2⟩
      · have e : t - 2 ^ k + 2 ^ k = t := by omega
        rw [e] at h1
        exact absurd h1 hno
  obtain ⟨sl, hsl, hst⟩ := hturn
  rw [← and_Divisor hk] at hsl
  refine ⟨_, step_pushWait hc hsl, ?_⟩
  rw [if_pos hst]
  exact List.getElem?_set_self (List.getElem?_eq_some.1 hc).1

/-- A pop in its wait loop leaves the loop with its next step once the push holding its
ticket has returned. -/
theorem pop_can_pass (hk : k < 64) (hown : Own (2 ^ k) s) (h : Handoff (2 ^ k) s)
    {i t : Nat} {v : T} (hc : s.calls[i]? = some (.popWait t))
    (hpush : Call.pushDone t v ∈ s.calls) :
    ∃ s', step (2 ^ k) s i = some s' ∧ s'.calls[i]? = some (.popLoad t) := by
  have hno : ¬ ∃ c ∈ s.calls, c.popPassed = some t := by
    rintro ⟨c, hcm, hct⟩
    obtain ⟨j, hj⟩ := List.mem_iff_getElem?.1 hcm
    have hpt : c.popTicket = some t := by
      cases c <;> simp_all [Call.popPassed, Call.popTicket]
    obtain rfl := hown.pop_unique i j _ c t hc hj rfl hpt
    rw [hc] at hj
    obtain rfl := Option.some.inj hj
    simp [Call.popPassed] at hct
  rcases h.push_done t v hpush with ⟨sl, hsl, hst⟩ | h1
  · rw [← and_Divisor hk] at hsl
    refine ⟨_, step_popWait hc hsl, ?_⟩
    rw [if_pos hst]
    exact List.getElem?_set_self (List.getElem?_eq_some.1 hc).1
  · exact absurd h1 hno

/-- A call between its wait loop and its return moves with its next step. -/
theorem owner_can_step (hk : k < 64) (hlen : s.queue.slots_.length = 2 ^ k) {i : Nat}
    {c : Call T} (hc : s.calls[i]? = some c)
    (hown : (c.pushOwner.isSome || c.popOwner.isSome) = true) :
    ∃ s', step (2 ^ k) s i = some s' ∧ s'.calls[i]? ≠ some c := by
  have hi := (List.getElem?_eq_some.1 hc).1
  cases c with
  | pushStore t v =>
    obtain ⟨sl, hsl⟩ := slot_lookup hk hlen t
    refine ⟨_, step_pushStore hc hsl, ?_⟩
    show (s.calls.set i _)[i]? ≠ _
    rw [List.getElem?_set_self hi]
    simp
  | pushPublish t v =>
    obtain ⟨sl, hsl⟩ := slot_lookup hk hlen t
    refine ⟨_, step_pushPublish hc hsl, ?_⟩
    show (s.calls.set i _)[i]? ≠ _
    rw [List.getElem?_set_self hi]
    simp
  | popLoad t =>
    obtain ⟨sl, hsl⟩ := slot_lookup hk hlen t
    refine ⟨_, step_popLoad hc hsl, ?_⟩
    show (s.calls.set i _)[i]? ≠ _
    rw [List.getElem?_set_self hi]
    simp
  | popPublish t r =>
    obtain ⟨sl, hsl⟩ := slot_lookup hk hlen t
    refine ⟨_, step_popPublish hc hsl, ?_⟩
    show (s.calls.set i _)[i]? ≠ _
    rw [List.getElem?_set_self hi]
    simp
  | _ => simp [Call.pushOwner, Call.popOwner] at hown

end progress

section progress
variable {T : Type} {k : Nat} {ops : List (Op T)} {s : System T}

theorem done_of_popTicket {d : Call T} {t : Nat} (hdt : d.popTicket = some t)
    (hdd : d.isDone = true) : ∃ r, d = Call.popDone t r := by
  cases d <;> simp_all [Call.isDone, Call.popTicket]

theorem done_of_pushTicket {d : Call T} {t : Nat} (hdt : d.pushTicket = some t)
    (hdd : d.isDone = true) : ∃ v, d = Call.pushDone t v := by
  cases d <;> simp_all [Call.isDone, Call.pushTicket]

theorem pending_of_popTicket {d : Call T} {t : Nat} (hdt : d.popTicket = some t)
    (hdd : ¬ d.isDone = true) : d.pending = true := by
  have : d.popClaimed = true := by simp [Call.popClaimed, hdt]
  simp [Call.pending, this, hdd]

theorem pending_of_pushTicket {d : Call T} {t : Nat} (hdt : d.pushTicket = some t)
    (hdd : ¬ d.isDone = true) : d.pending = true := by
  have : d.pushClaimed = true := by simp [Call.pushClaimed, hdt]
  simp [Call.pending, this, hdd]

theorem ticket_of_pending {c : Call T} (hp : c.pending = true) :
    ∃ t, c.pushTicket = some t ∨ c.popTicket = some t := by
  cases c <;> simp_all [Call.pending, Call.pushClaimed, Call.popClaimed, Call.pushTicket,
    Call.popTicket, Call.isDone]

/-- With at least two slots, no counter that can wrap and as many pushes as pops holding
tickets: if a call holding ticket `t` is pending, some pending call moves with its next
step. -/
theorem pending_moves (hk : k < 64) (hcap : ops.length + 2 ^ k ≤ SIZE)
    (hinv : Inv (2 ^ k) ops s) (hown : Own (2 ^ k) s) (h : Handoff (2 ^ k) s)
    (heq : s.calls.countP Call.pushClaimed = s.calls.countP Call.popClaimed) (t : Nat)
    (hpend : ∃ (i : Nat) (c : Call T), s.calls[i]? = some c ∧ c.pending = true ∧
      (c.pushTicket = some t ∨ c.popTicket = some t)) :
    ∃ (i : Nat) (c : Call T) (s' : System T), s.calls[i]? = some c ∧ c.pending = true ∧
      step (2 ^ k) s i = some s' ∧ s'.calls[i]? ≠ some c := by
  have hNpos : 0 < 2 ^ k := Nat.pow_pos (by decide)
  have hb : ops.length < SIZE := by omega
  have hht : s.queue.head_ = s.queue.tail_ := by
    rw [hown.push_count, (hinv.pop_count hb).1, heq]
  induction t using Nat.strong_induction_on with
  | _ t ih =>
    -- a pending push holding ticket `t`
    have hpushcase : ∀ (i : Nat) (c : Call T), s.calls[i]? = some c → c.pending = true →
        c.pushTicket = some t →
        ∃ (i : Nat) (c : Call T) (s' : System T), s.calls[i]? = some c ∧ c.pending = true ∧
          step (2 ^ k) s i = some s' ∧ s'.calls[i]? ≠ some c := by
      intro i c hc hp hct
      cases c with
      | pushWait t' v =>
        simp only [Call.pushTicket, Option.some.injEq] at hct
        subst hct
        by_cases hlt : t' < 2 ^ k
        · obtain ⟨s', h1, h2⟩ := push_can_pass hk hinv hown h hc (Or.inl hlt)
          exact ⟨i, _, s', hc, hp, h1, by rw [h2]; simp⟩
        · have hlth := hown.push_lt_head _ (mem_of_getElem? hc) t' rfl
          obtain ⟨j, d, hd, hdt⟩ :=
            pop_ticket_onto hb hinv hown (t' - 2 ^ k) (by omega)
          by_cases hdd : d.isDone = true
          · obtain ⟨r, rfl⟩ := done_of_popTicket hdt hdd
            obtain ⟨s', h1, h2⟩ := push_can_pass hk hinv hown h hc
              (Or.inr ⟨by omega, r, mem_of_getElem? hd⟩)
            exact ⟨i, _, s', hc, hp, h1, by rw [h2]; simp⟩
          · exact ih (t' - 2 ^ k) (by omega)
              ⟨j, d, hd, pending_of_popTicket hdt hdd, Or.inr hdt⟩
      | pushStore t' v =>
        obtain ⟨s', h1, h2⟩ := owner_can_step hk hinv.slots_len hc rfl
        exact ⟨i, _, s', hc, hp, h1, h2⟩
      | pushPublish t' v =>
        obtain ⟨s', h1, h2⟩ := owner_can_step hk hinv.slots_len hc rfl
        exact ⟨i, _, s', hc, hp, h1, h2⟩
      | pushDone t' v => simp [Call.pending, Call.isDone] at hp
      | _ => simp [Call.pushTicket] at hct
    obtain ⟨i, c, hc, hp, hct | hct⟩ := hpend
    · exact hpushcase i c hc hp hct
    · cases c with
      | popWait t' =>
        simp only [Call.popTicket, Option.some.injEq] at hct
        subst hct
        have hltt := (hinv.pop_count hb).2 _ (mem_of_getElem? hc) t' rfl
        obtain ⟨j, d, hd, hdt⟩ := push_ticket_onto hown t' (by omega)
        by_cases hdd : d.isDone = true
        · obtain ⟨v, rfl⟩ := done_of_pushTicket hdt hdd
          obtain ⟨s', h1, h2⟩ := pop_can_pass hk hown h hc (mem_of_getElem? hd)
          exact ⟨i, _, s', hc, hp, h1, by rw [h2]; simp⟩
        · exact hpushcase j d hd (pending_of_pushTicket hdt hdd) hdt
      | popLoad t' =>
        obtain ⟨s', h1, h2⟩ := owner_can_step hk hinv.slots_len hc rfl
        exact ⟨i, _, s', hc, hp, h1, h2⟩
      | popPublish t' r =>
        obtain ⟨s', h1, h2⟩ := owner_can_step hk hinv.slots_len hc rfl
        exact ⟨i, _, s', hc, hp, h1, h2⟩
      | popDone t' r => simp [Call.pending, Call.isDone] at hp
      | _ => simp [Call.popTicket] at hct

end progress

/-- Blocking only when full or empty, for every capacity `2 ^ k ≥ 2` when no counter
overflows (`ops.length + N ≤ 2 ^ 64`).  Every schedule runs from the fresh queue to a state
in which:
* a push in its wait loop with ticket `t < N`, or with `t ≥ N` while the pop holding
  `t - N` has returned, leaves the loop with its next step;
* a pop in its wait loop with ticket `t` leaves the loop with its next step once the push
  holding `t` has returned;
* if as many pushes as pops hold tickets and some call is pending, some pending call moves
  with its next step. -/
theorem blocking_two_slots {T : Type} (k : Nat) (hk : k < 64) (h2 : 2 ≤ 2 ^ k)
    (ops : List (Op T)) (hcap : ops.length + 2 ^ k ≤ SIZE) (sched : List Nat) :
    ∃ s, run (2 ^ k) (System.fresh (2 ^ k) ops) sched = some s ∧
      (∀ (i t : Nat) (v : T), s.calls[i]? = some (Call.pushWait t v) →
        (t < 2 ^ k ∨ (2 ^ k ≤ t ∧ ∃ (j : Nat) (r : Option T),
          s.calls[j]? = some (Call.popDone (t - 2 ^ k) r))) →
        ∃ s', step (2 ^ k) s i = some s' ∧ s'.calls[i]? = some (Call.pushStore t v)) ∧
      (∀ (i t : Nat), s.calls[i]? = some (Call.popWait t) →
        (∃ (j : Nat) (v : T), s.calls[j]? = some (Call.pushDone t v)) →
        ∃ s', step (2 ^ k) s i = some s' ∧ s'.calls[i]? = some (Call.popLoad t)) ∧
      (s.calls.countP Call.pushClaimed = s.calls.countP Call.popClaimed →
        (∃ (i : Nat) (c : Call T), s.calls[i]? = some c ∧ c.pending = true) →
        ∃ (i : Nat) (c : Call T) (s' : System T), s.calls[i]? = some c ∧ c.pending = true ∧
          step (2 ^ k) s i = some s' ∧ s'.calls[i]? ≠ some c) := by
  obtain ⟨s, hrun, hinv, hown, hh⟩ :=
    Handoff_run hk h2 hcap (Inv_fresh (2 ^ k) ops) (Own_fresh (2 ^ k) ops)
      (Handoff_fresh (2 ^ k) ops) sched
  refine ⟨s, hrun, ?_, ?_, ?_⟩
  · intro i t v hc hfree
    refine push_can_pass hk hinv hown hh hc ?_
    rcases hfree with hlt | ⟨hle, j, r, hj⟩
    · exact Or.inl hlt
    · exact Or.inr ⟨hle, r, mem_of_getElem? hj⟩
  · rintro i t hc ⟨j, v, hj⟩
    exact pop_can_pass hk hown hh hc (mem_of_getElem? hj)
  · rintro heq ⟨i, c, hc, hp⟩
    obtain ⟨t, ht⟩ := ticket_of_pending hp
    exact pending_moves hk hcap hinv hown hh heq t ⟨i, c, hc, hp, ht⟩

/-! ## Element types with a destructive move -/

/-- For an element type that a move leaves unchanged, the step of `pop` is that of
`MPMCSimpleQueue.pop`. -/
theorem popMove_id {T : Type} (N : Nat) (q : MPMCSimpleQueue T) (c : Call T) :
    q.popMove (fun v => v) N c = q.pop N c := by
  cases c with
  | popLoad t =>
    simp only [MPMCSimpleQueue.popMove, MPMCSimpleQueue.pop]
    cases h : q.slots_[t &&& Divisor N]? with
    | none => rfl
    | some slot =>
      have e : ({ slot with storage := slot.storage.map (fun v => v) } : Slot T) = slot := by
        cases slot
        simp
      simp only [e, set_same h]
  | _ => rfl

theorem stepMove_id {T : Type} (N : Nat) (s : System T) (i : Nat) :
    stepMove (fun v => v) N s i = step N s i := by
  simp only [stepMove, step, popMove_id]

theorem runMove_id {T : Type} (N : Nat) (s : System T) (sched : List Nat) :
    runMove (fun v => v) N s sched = run N s sched := by
  induction sched generalizing s with
  | nil => rfl
  | cons i sched ih => simp only [runMove, run, stepMove_id, ih]

/-- C7 (empty queue blocks, no pop returns a value that was not pushed), evaluated at
capacity `N = 1` for an element type with a destructive move (vectors of `int`, which a
move leaves empty): the calls `push({1})`, `push({2})`, `pop`, `pop` all return; the pop
holding ticket 0 returns `{2}` and leaves the cell empty, and the pop holding ticket 1
returns the empty vector, a value that no push passed. -/
theorem unpushed_value_capacity_one :
    runMove (fun _ => ([] : List Nat)) 1
        (System.fresh 1 [Op.push [1], Op.push [2], Op.pop, Op.pop])
        [0, 1, 2, 3, 0, 0, 0, 1, 2, 1, 2, 2, 1, 3, 3, 3] =
      some { queue := { slots_ := [{ turn := 2, storage := some [] }], head_ := 2, tail_ := 2 },
             calls := [.pushDone 0 [1], .pushDone 1 [2], .popDone 0 (some [2]),
                       .popDone 1 (some [])] } := by
  decide

section erase
variable {T : Type}

theorem erase_slot (q : MPMCSimpleQueue T) (j : Nat) :
    q.erase.slots_[j]? = (q.slots_[j]?).map Slot.erase := by
  simp [MPMCSimpleQueue.erase, List.getElem?_map]

theorem erase_push (N : Nat) (q : MPMCSimpleQueue T) (c : Call T) :
    q.erase.push N c.erase =
      (q.push N c).map (fun qc => (qc.1.erase, qc.2.erase)) := by
  cases c with
  | pushIdle v =>
    cases h : q.slots_[q.head_ &&& Divisor N]? <;>
      simp [MPMCSimpleQueue.push, MPMCSimpleQueue.erase, Call.erase, h]
  | pushWait t v =>
    cases h : q.slots_[t &&& Divisor N]? with
    | none => simp [MPMCSimpleQueue.push, MPMCSimpleQueue.erase, Call.erase, h]
    | some sl =>
      by_cases ht : sl.turn = t <;>
        simp [MPMCSimpleQueue.push, MPMCSimpleQueue.erase, Call.erase, Slot.erase, h, ht]
  | pushStore t v =>
    cases h : q.slots_[t &&& Divisor N]? <;>
      simp [MPMCSimpleQueue.push, MPMCSimpleQueue.erase, Call.erase, Slot.erase, h,
        List.map_set]
  | pushPublish t v =>
    cases h : q.slots_[t &&& Divisor N]? <;>
      simp [MPMCSimpleQueue.push, MPMCSimpleQueue.erase, Call.erase, Slot.erase, h,
        List.map_set]
  | _ => rfl

theorem erase_popMove (moved : T → T) (N : Nat) (q : MPMCSimpleQueue T) (c : Call T) :
    q.erase.pop N c.erase =
      (q.popMove moved N c).map (fun qc => (qc.1.erase, qc.2.erase)) := by
  cases c with
  | popIdle =>
    cases h : q.slots_[q.tail_ &&& Divisor N]? <;>
      simp [MPMCSimpleQueue.popMove, MPMCSimpleQueue.pop, MPMCSimpleQueue.erase, Call.erase, h]
  | popWait t =>
    cases h : q.slots_[t &&& Divisor N]? with
    | none =>
      simp [MPMCSimpleQueue.popMove, MPMCSimpleQueue.pop, MPMCSimpleQueue.erase, Call.erase, h]
    | some sl =>
      by_cases ht : sl.turn = (t + 1) % SIZE <;>
        simp [MPMCSimpleQueue.popMove, MPMCSimpleQueue.pop, MPMCSimpleQueue.erase, Call.erase,
          Slot.erase, h, ht]
  | popLoad t =>
    cases h : q.slots_[t &&& Divisor N]? with
    | none =>
      simp [MPMCSimpleQueue.popMove, MPMCSimpleQueue.pop, MPMCSimpleQueue.erase, Call.erase, h]
    | some sl =>
      have e : (q.slots_.set (t &&& Divisor N)
            { turn := sl.turn, storage := sl.storage.map moved }).map Slot.erase =
          q.slots_.map Slot.erase := by
        rw [List.map_set]
        have e2 : Slot.erase ({ turn := sl.turn, storage := sl.storage.map moved } : Slot T) =
            Slot.erase sl := by
          cases sl with
          | mk turn storage => cases storage <;> rfl
        rw [e2]
        exact set_same (by rw [List.getElem?_map, h]; rfl)
      simp [MPMCSimpleQueue.popMove, MPMCSimpleQueue.pop, MPMCSimpleQueue.erase, Call.erase,
        Slot.erase, h, e]
  | popPublish t r =>
    cases h : q.slots_[t &&& Divisor N]? <;>
      simp [MPMCSimpleQueue.popMove, MPMCSimpleQueue.pop, MPMCSimpleQueue.erase, Call.erase,
        Slot.erase, h, List.map_set]
  | _ => rfl

theorem erase_op_push {c : Call T} {v : T} (h : c.op = .push v) : c.erase.op = .push () := by
  cases c <;> first | rfl | exact Op.noConfusion h

theorem erase_op_pop {c : Call T} (h : c.op = .pop) : c.erase.op = .pop := by
  cases c <;> first | rfl | exact Op.noConfusion h

/-- Forgetting the values commutes with every atomic step, whatever the move leaves. -/
theorem erase_stepMove (moved : T → T) (N : Nat) (s : System T) (i : Nat) :
    step N s.erase i = (stepMove moved N s i).map System.erase := by
  simp only [step, stepMove, System.erase, List.getElem?_map]
  cases hc : s.calls[i]? with
  | none => rfl
  | some c =>
    simp only [Option.map_some']
    cases hop : c.op with
    | push v =>
      simp only [erase_op_push hop, erase_push]
      cases MPMCSimpleQueue.push N s.queue c <;> simp [System.erase, List.map_set]
    | pop =>
      simp only [erase_op_pop hop, erase_popMove moved]
      cases MPMCSimpleQueue.popMove moved N s.queue c <;> simp [System.erase, List.map_set]

theorem erase_runMove (moved : T → T) (N : Nat) (s : System T) (sched : List Nat) :
    run N s.erase sched = (runMove moved N s sched).map System.erase := by
  induction sched generalizing s with
  | nil => rfl
  | cons i sched ih =>
    simp only [run, runMove, erase_stepMove moved]
    cases stepMove moved N s i with
    | none => rfl
    | some s1 => simp [ih]

end erase

section erase
variable {T : Type}

theorem erase_fresh (N : Nat) (ops : List (Op T)) :
    (System.fresh N ops).erase = System.fresh N (ops.map Op.erase) := by
  have hstart : ∀ o : Op T, (Op.start o).erase = Op.start o.erase := by
    intro o
    cases o <;> rfl
  simp [System.fresh, System.erase, MPMCSimpleQueue.erase, new_eq, Slot.erase, hstart]

theorem erase_popPassed (c : Call T) : c.erase.popPassed = c.popPassed := by
  cases c <;> rfl

theorem pushDone_of_erase {c : Call T} {t : Nat} (h : c.erase = Call.pushDone t ()) :
    ∃ v, c = Call.pushDone t v := by
  cases c <;> simp [Call.erase] at h
  exact ⟨_, by rw [h]⟩

theorem push_op (N : Nat) (q : MPMCSimpleQueue T) (c : Call T)
    {qc : MPMCSimpleQueue T × Call T} (h : q.push N c = some qc) : qc.2.op = c.op := by
  cases c with
  | pushIdle v =>
    simp only [MPMCSimpleQueue.push] at h
    split at h
    · exact Option.noConfusion h
    · obtain rfl := Option.some.inj h
      rfl
  | pushWait t v =>
    simp only [MPMCSimpleQueue.push] at h
    split at h
    · exact Option.noConfusion h
    · split at h <;> (obtain rfl := Option.some.inj h; rfl)
  | pushStore t v =>
    simp only [MPMCSimpleQueue.push] at h
    split at h
    · exact Option.noConfusion h
    · obtain rfl := Option.some.inj h
      rfl
  | pushPublish t v =>
    simp only [MPMCSimpleQueue.push] at h
    split at h
    · exact Option.noConfusion h
    · obtain rfl := Option.some.inj h
      rfl
  | _ =>
    simp only [MPMCSimpleQueue.push] at h
    obtain rfl := Option.some.inj h
    rfl

theorem popMove_op (moved : T → T) (N : Nat) (q : MPMCSimpleQueue T) (c : Call T)
    {qc : MPMCSimpleQueue T × Call T} (h : q.popMove moved N c = some qc) :
    qc.2.op = c.op := by
  cases c with
  | popIdle =>
    simp only [MPMCSimpleQueue.popMove, MPMCSimpleQueue.pop] at h
    split at h
    · exact Option.noConfusion h
    · obtain rfl := Option.some.inj h
      rfl
  | popWait t =>
    simp only [MPMCSimpleQueue.popMove, MPMCSimpleQueue.pop] at h
    split at h
    · exact Option.noConfusion h
    · split at h <;> (obtain rfl := Option.some.inj h; rfl)
  | popLoad t =>
    simp only [MPMCSimpleQueue.popMove] at h
    split at h
    · exact Option.noConfusion h
    · obtain rfl := Option.some.inj h
      rfl
  | popPublish t r =>
    simp only [MPMCSimpleQueue.popMove, MPMCSimpleQueue.pop] at h
    split at h
    · exact Option.noConfusion h
    · obtain rfl := Option.some.inj h
      rfl
  | _ =>
    simp only [MPMCSimpleQueue.popMove, MPMCSimpleQueue.pop] at h
    obtain rfl := Option.some.inj h
    rfl

/-- Every atomic step leaves each call the call of the same operation. -/
theorem stepMove_op (moved : T → T) (N : Nat) {s s' : System T} (i : Nat)
    (h : stepMove moved N s i = some s') : s'.calls.map Call.op = s.calls.map Call.op := by
  simp only [stepMove] at h
  cases hc : s.calls[i]? with
  | none =>
    rw [hc] at h
    obtain rfl := Option.some.inj h
    rfl
  | some c =>
    rw [hc] at h
    simp only [Option.map_eq_some'] at h
    obtain ⟨qc, hqc, rfl⟩ := h
    have hop : qc.2.op = c.op := by
      cases hcop : c.op with
      | push v =>
        rw [hcop] at hqc
        rw [← hcop]
        exact push_op N s.queue c hqc
      | pop =>
        rw [hcop] at hqc
        rw [← hcop]
        exact popMove_op moved N s.queue c hqc
    show (s.calls.set i qc.2).map Call.op = _
    rw [List.map_set, hop]
    exact set_same (by rw [List.getElem?_map, hc]; rfl)

theorem runMove_op (moved : T → T) (N : Nat) {s s' : System T} (sched : List Nat)
    (h : runMove moved N s sched = some s') : s'.calls.map Call.op = s.calls.map Call.op := by
  induction sched generalizing s with
  | nil =>
    obtain rfl := Option.some.inj h
    rfl
  | cons i sched ih =>
    simp only [runMove] at h
    cases h1 : stepMove moved N s i with
    | none => rw [h1] at h; exact Option.noConfusion h
    | some s1 =>
      rw [h1] at h
      rw [ih h, stepMove_op moved N i h1]

end erase

/-- Empty queue blocks, for every element type and whatever its move leaves in the cell.
Capacity `N = 2 ^ k`; with a single slot the execution is one in which fewer than `2 ^ 64`
calls take part.  Every schedule runs from the fresh queue to a state in which a pop that
has left its wait loop with ticket `t` finds the push holding ticket `t` returned, and in
which no pop has left its wait loop if no push has returned. -/
theorem pop_blocks_any_move {T : Type} (moved : T → T) (k : Nat) (hk : k < 64)
    (ops : List (Op T)) (hb : 2 ≤ 2 ^ k ∨ ops.length < SIZE) (sched : List Nat) :
    ∃ s, runMove moved (2 ^ k) (System.fresh (2 ^ k) ops) sched = some s ∧
      (∀ (i : Nat) (c : Call T) (t : Nat), s.calls[i]? = some c → c.popPassed = some t →
        ∃ (j : Nat) (v : T), ops[j]? = some (Op.push v) ∧
          s.calls[j]? = some (Call.pushDone t v)) ∧
      ((∀ (j t : Nat) (v : T), s.calls[j]? ≠ some (Call.pushDone t v)) →
        ∀ (i : Nat) (c : Call T), s.calls[i]? = some c → c.popPassed = none) := by
  have hb' : 2 ≤ 2 ^ k ∨ (ops.map Op.erase).length < SIZE := by simpa using hb
  obtain ⟨s', hrun', hinv⟩ := Inv_run hk hb' (Inv_fresh (2 ^ k) (ops.map Op.erase)) sched
  rw [← erase_fresh, erase_runMove moved] at hrun'
  cases hrun : runMove moved (2 ^ k) (System.fresh (2 ^ k) ops) sched with
  | none => rw [hrun] at hrun'; exact Option.noConfusion hrun'
  | some s =>
    rw [hrun] at hrun'
    obtain rfl := Option.some.inj hrun'
    have hops : s.calls.map Call.op = ops := by
      rw [runMove_op moved (2 ^ k) sched hrun]
      simp [System.fresh, List.map_map]
      have : (Call.op ∘ Op.start : Op T → Op T) = id := by
        funext o
        cases o <;> rfl
      rw [this, List.map_id]
    have key : ∀ (i : Nat) (c : Call T) (t : Nat), s.calls[i]? = some c →
        c.popPassed = some t →
        ∃ (j : Nat) (v : T), ops[j]? = some (Op.push v) ∧
          s.calls[j]? = some (Call.pushDone t v) := by
      intro i c t hc ht
      have hce : s.erase.calls[i]? = some c.erase := by
        simp [System.erase, List.getElem?_map, hc]
      obtain ⟨u, hu⟩ := hinv.pop_after_push c.erase (mem_of_getElem? hce) t
        (by rw [erase_popPassed]; exact ht)
      obtain ⟨j, hj⟩ := List.mem_iff_getElem?.1 hu
      simp only [System.erase, List.getElem?_map, Option.map_eq_some'] at hj
      obtain ⟨d, hd, hde⟩ := hj
      obtain ⟨v, rfl⟩ := pushDone_of_erase hde
      refine ⟨j, v, ?_, hd⟩
      rw [← hops, List.getElem?_map, hd]
      rfl
    refine ⟨s, rfl, key, ?_⟩
    intro hno i c hc
    cases hp : c.popPassed with
    | none => rfl
    | some t =>
      obtain ⟨j, v, _, hj⟩ := key i c t hc hp
      exact absurd hj (hno j t v)

section sim
variable {T : Type}

theorem stepMove_eq_step (moved : T → T) (N : Nat) {g : System T} {i : Nat}
    (h : ∀ t, g.calls[i]? ≠ some (.popLoad t)) : stepMove moved N g i = step N g i := by
  simp only [stepMove, step]
  cases hc : g.calls[i]? with
  | none => rfl
  | some c =>
    cases c with
    | popLoad t => exact absurd hc (h t)
    | _ => rfl

theorem stepMove_popLoad (moved : T → T) {N : Nat} {g : System T} {i t : Nat} {sl : Slot T}
    (h : g.calls[i]? = some (.popLoad t))
    (hsl : g.queue.slots_[t &&& Divisor N]? = some sl) :
    stepMove moved N g i =
      some { queue := { g.queue with
               slots_ := g.queue.slots_.set (t &&& Divisor N)
                 { sl with storage := sl.storage.map moved } },
             calls := g.calls.set i (.popPublish t sl.storage) } := by
  simp [stepMove, h, Call.op, MPMCSimpleQueue.popMove, hsl]

/-- Liveness of a slot is not gained when a call moves, unless the call is a pop that had
read that slot or is now a push that has stored into it. -/
theorem Live_of_set {N : Nat} {calls : List (Call T)} {i : Nat} {old new : Call T}
    {j turn : Nat} (hc : calls[i]? = some old)
    (hold : ∀ (t : Nat) (r : Option T), old = .popPublish t r → t % N ≠ j)
    (hnew : ∀ (t : Nat) (v : T), new = .pushPublish t v → t % N ≠ j)
    (h : Live N (calls.set i new) j turn) : Live N calls j turn := by
  rcases h with ⟨h1, h2⟩ | ⟨t, v, hm, ht⟩
  · left
    refine ⟨h1, ?_⟩
    intro t r hm
    by_cases he : Call.popPublish t r = old
    · exact hold t r he.symm
    · exact h2 t r (mem_set_of_ne hc hm he)
  · right
    rcases List.mem_or_eq_of_mem_set hm with hm | he
    · exact ⟨t, v, hm, ht⟩
    · exact absurd ht (hnew t v he.symm)

end sim

section simstep
variable {T : Type}

/-- A step that leaves the slots alone and moves a call between states that are neither a
pop holding a read value nor a push holding a stored one keeps the two executions
related. -/
theorem Sim_calls {N : Nat} {g c : System T} {i : Nat} {old new : Call T}
    (hsim : Sim N g c) (hc : c.calls[i]? = some old)
    (hold : ∀ (t : Nat) (r : Option T), old ≠ .popPublish t r)
    (hnew : ∀ (t : Nat) (v : T), new ≠ .pushPublish t v)
    (gq cq : MPMCSimpleQueue T) (hhead : gq.head_ = cq.head_) (htail : gq.tail_ = cq.tail_)
    (hgs : gq.slots_ = g.queue.slots_) (hcs : cq.slots_ = c.queue.slots_) :
    Sim N { queue := gq, calls := g.calls.set i new }
      { queue := cq, calls := c.calls.set i new } := by
  refine ⟨by rw [hsim.calls_eq], hhead, htail, by rw [hgs]; exact hsim.slots_len, ?_⟩
  intro j slg slc h1 h2
  rw [hgs] at h1
  rw [hcs] at h2
  refine ⟨(hsim.slot j slg slc h1 h2).1, fun hl => (hsim.slot j slg slc h1 h2).2 ?_⟩
  exact Live_of_set hc (fun t r h => absurd h (hold t r)) (fun t v h => absurd h (hnew t v)) hl

/-- A step that rewrites slot `idx` in both executions and moves call `i` keeps them
related, when the new cells agree and the other slots gain no liveness. -/
theorem Sim_slot {N : Nat} {g c : System T} {i idx : Nat} {old new : Call T}
    (hsim : Sim N g c) (hc : c.calls[i]? = some old)
    (hold : ∀ (t : Nat) (r : Option T), old = .popPublish t r → t % N = idx)
    (hnew : ∀ (t : Nat) (v : T), new = .pushPublish t v → t % N = idx)
    (ng nc : Slot T) (hturn : ng.turn = nc.turn)
    (hst : Live N (c.calls.set i new) idx nc.turn → ng.storage = nc.storage) :
    Sim N { queue := { g.queue with slots_ := g.queue.slots_.set idx ng },
            calls := g.calls.set i new }
      { queue := { c.queue with slots_ := c.queue.slots_.set idx nc },
        calls := c.calls.set i new } := by
  refine ⟨by rw [hsim.calls_eq], hsim.head_eq, hsim.tail_eq,
    by simpa using hsim.slots_len, ?_⟩
  intro j slg slc h1 h2
  rcases getElem?_set_cases h1 with ⟨hj, e1⟩ | ⟨hj, e1⟩
  · rcases getElem?_set_cases h2 with ⟨_, e2⟩ | ⟨hj2, _⟩
    · subst e1 e2 hj
      exact ⟨hturn, hst⟩
    · exact absurd hj hj2
  · rcases getElem?_set_cases h2 with ⟨hj2, _⟩ | ⟨_, e2⟩
    · exact absurd hj2 hj
    · refine ⟨(hsim.slot j slg slc e1 e2).1, fun hl => (hsim.slot j slg slc e1 e2).2 ?_⟩
      refine Live_of_set hc ?_ ?_ hl
      · intro t r h e
        exact hj (e.symm.trans (hold t r h))
      · intro t v h e
        exact hj (e.symm.trans (hnew t v h))

end simstep

section simrun
variable {T : Type}

/-- While a pop owns a slot, no push holds a value stored into it. -/
theorem no_push_on_pop_slot {k : Nat} (hk : k < 64) (h2 : 2 ≤ 2 ^ k) {c : System T}
    (hown : Own (2 ^ k) c) {n t t2 : Nat} {d : Call T} {v : T}
    (hc : c.calls[n]? = some d) (hd : d.popOwner = some t)
    (hm : Call.pushPublish t2 v ∈ c.calls) : t2 % 2 ^ k ≠ t % 2 ^ k := by
  intro e
  obtain ⟨m, hm⟩ := List.mem_iff_getElem?.1 hm
  obtain ⟨sl1, hs1, ht1⟩ := hown.push_owner m _ t2 hm rfl
  obtain ⟨sl2, hs2, ht2⟩ := hown.pop_owner n d t hc hd
  rw [e, hs2] at hs1
  cases Option.some.inj hs1
  have h3 : t2 % 2 ^ k = (t + 1) % 2 ^ k := by
    rw [← ht1, ht2, mod_SIZE_mod hk]
  exact succ_mod_ne h2 t (h3.symm.trans e)

/-- While a pop is about to read a slot, no other pop holds a value read from it. -/
theorem no_read_on_popLoad_slot {k : Nat} {ops : List (Op T)} {c : System T}
    (hinv : Inv (2 ^ k) ops c) (hown : Own (2 ^ k) c) {i t t2 : Nat} {r : Option T}
    (hc : c.calls[i]? = some (.popLoad t))
    (hm : Call.popPublish t2 r ∈ c.calls) : t2 % 2 ^ k ≠ t % 2 ^ k := by
  intro e
  have hm0 := hm
  obtain ⟨m, hm⟩ := List.mem_iff_getElem?.1 hm
  obtain ⟨sl1, hs1, ht1⟩ := hown.pop_owner m _ t2 hm rfl
  obtain ⟨sl2, hs2, ht2⟩ := hown.pop_owner i _ t hc rfl
  rw [e, hs2] at hs1
  cases Option.some.inj hs1
  have e2 : t2 = t :=
    succ_mod_SIZE_inj (hinv.pop_ticket_lt _ hm0 t2 rfl)
      (hinv.pop_ticket_lt _ (mem_of_getElem? hc) t rfl) (ht1.symm.trans ht2)
  subst e2
  have := hown.pop_unique i m _ _ t2 hc hm rfl rfl
  subst this
  rw [hc] at hm
  cases Option.some.inj hm

/-- One step of the same call keeps the two executions related, for `2 ^ k ≥ 2` slots. -/
theorem Sim_step (moved : T → T) {k : Nat} (hk : k < 64) (h2 : 2 ≤ 2 ^ k)
    {ops : List (Op T)} {g c : System T} (hinv : Inv (2 ^ k) ops c) (hown : Own (2 ^ k) c)
    (hsim : Sim (2 ^ k) g c) (i : Nat) :
    ∃ g' c', stepMove moved (2 ^ k) g i = some g' ∧ step (2 ^ k) c i = some c' ∧
      Sim (2 ^ k) g' c' := by
  have hgc : g.calls[i]? = c.calls[i]? := by rw [hsim.calls_eq]
  cases hc : c.calls[i]? with
  | none =>
    have hg : g.calls[i]? = none := hgc.trans hc
    have hs := step_none (N := 2 ^ k) hg
    rw [← stepMove_eq_step moved (2 ^ k) (by rw [hg]; simp)] at hs
    exact ⟨g, c, hs, step_none hc, hsim⟩
  | some call =>
    have hg : g.calls[i]? = some call := hgc.trans hc
    cases call with
    | pushIdle v =>
      obtain ⟨slc, hslc⟩ := slot_lookup hk hinv.slots_len c.queue.head_
      obtain ⟨slg, hslg⟩ := slot_lookup hk hsim.slots_len g.queue.head_
      have hs := step_pushIdle hg hslg
      rw [← stepMove_eq_step moved (2 ^ k) (by rw [hg]; simp)] at hs
      refine ⟨_, _, hs, step_pushIdle hc hslc, ?_⟩
      rw [hsim.head_eq]
      exact Sim_calls hsim hc (by simp) (by simp) _ _ rfl hsim.tail_eq rfl rfl
    | pushWait t v =>
      obtain ⟨slc, hslc⟩ := slot_lookup hk hinv.slots_len t
      obtain ⟨slg, hslg⟩ := slot_lookup hk hsim.slots_len t
      have hs := step_pushWait hg hslg
      rw [← stepMove_eq_step moved (2 ^ k) (by rw [hg]; simp)] at hs
      have ht : slg.turn = slc.turn := (hsim.slot _ slg slc hslg hslc).1
      refine ⟨_, _, hs, step_pushWait hc hslc, ?_⟩
      rw [ht]
      by_cases hturn : slc.turn = t
      · rw [if_pos hturn, if_pos hturn]
        exact Sim_calls hsim hc (by simp) (by simp) _ _ hsim.head_eq hsim.tail_eq rfl rfl
      · rw [if_neg hturn, if_neg hturn]
        exact hsim
    | pushStore t v =>
      obtain ⟨slc, hslc⟩ := slot_lookup hk hinv.slots_len t
      obtain ⟨slg, hslg⟩ := slot_lookup hk hsim.slots_len t
      have hs := step_pushStore hg hslg
      rw [← stepMove_eq_step moved (2 ^ k) (by rw [hg]; simp)] at hs
      refine ⟨_, _, hs, step_pushStore hc hslc, ?_⟩
      refine Sim_slot hsim hc (by simp) ?_ _ _ (hsim.slot _ slg slc hslg hslc).1
        (fun _ => rfl)
      intro t2 v2 h
      cases h
      exact (and_Divisor hk t).symm
    | pushPublish t v =>
      obtain ⟨slc, hslc⟩ := slot_lookup hk hinv.slots_len t
      obtain ⟨slg, hslg⟩ := slot_lookup hk hsim.slots_len t
      have hs := step_pushPublish hg hslg
      rw [← stepMove_eq_step moved (2 ^ k) (by rw [hg]; simp)] at hs
      refine ⟨_, _, hs, step_pushPublish hc hslc, ?_⟩
      have hst : slg.storage = slc.storage :=
        (hsim.slot _ slg slc hslg hslc).2
          (Or.inr ⟨t, v, mem_of_getElem? hc, (and_Divisor hk t).symm⟩)
      exact Sim_slot hsim hc (by simp) (by simp) _ _ rfl (fun _ => hst)
    | pushDone t v =>
      have hs := step_pushDone (N := 2 ^ k) hg
      rw [← stepMove_eq_step moved (2 ^ k) (by rw [hg]; simp)] at hs
      exact ⟨g, c, hs, step_pushDone hc, hsim⟩
    | popIdle =>
      obtain ⟨slc, hslc⟩ := slot_lookup hk hinv.slots_len c.queue.tail_
      obtain ⟨slg, hslg⟩ := slot_lookup hk hsim.slots_len g.queue.tail_
      have hs := step_popIdle hg hslg
      rw [← stepMove_eq_step moved (2 ^ k) (by rw [hg]; simp)] at hs
      refine ⟨_, _, hs, step_popIdle hc hslc, ?_⟩
      rw [hsim.tail_eq]
      exact Sim_calls hsim hc (by simp) (by simp) _ _ hsim.head_eq rfl rfl rfl
    | popWait t =>
      obtain ⟨slc, hslc⟩ := slot_lookup hk hinv.slots_len t
      obtain ⟨slg, hslg⟩ := slot_lookup hk hsim.slots_len t
      have hs := step_popWait hg hslg
      rw [← stepMove_eq_step moved (2 ^ k) (by rw [hg]; simp)] at hs
      have ht : slg.turn = slc.turn := (hsim.slot _ slg slc hslg hslc).1
      refine ⟨_, _, hs, step_popWait hc hslc, ?_⟩
      rw [ht]
      by_cases hturn : slc.turn = (t + 1) % SIZE
      · rw [if_pos hturn, if_pos hturn]
        exact Sim_calls hsim hc (by simp) (by simp) _ _ hsim.head_eq hsim.tail_eq rfl rfl
      · rw [if_neg hturn, if_neg hturn]
        exact hsim
    | popLoad t =>
      obtain ⟨slc, hslc⟩ := slot_lookup hk hinv.slots_len t
      obtain ⟨slg, hslg⟩ := slot_lookup hk hsim.slots_len t
      have hidx : t &&& Divisor (2 ^ k) = t % 2 ^ k := and_Divisor hk t
      obtain ⟨sl2, hs2, ht2⟩ := hown.pop_owner i _ t hc rfl
      have hturn : slc.turn = (t + 1) % SIZE := by
        rw [hidx, hs2] at hslc
        cases Option.some.inj hslc
        exact ht2
      have hlive : Live (2 ^ k) c.calls (t &&& Divisor (2 ^ k)) slc.turn := by
        left
        rw [hidx, hturn, mod_SIZE_mod hk]
        exact ⟨succ_mod_ne h2 t, fun t2 r hm => no_read_on_popLoad_slot hinv hown hc hm⟩
      have hst : slg.storage = slc.storage := (hsim.slot _ slg slc hslg hslc).2 hlive
      have hs := stepMove_popLoad moved hg hslg
      have hs2 : step (2 ^ k) c i =
          some { queue := { c.queue with
                   slots_ := c.queue.slots_.set (t &&& Divisor (2 ^ k)) slc },
                 calls := c.calls.set i (.popPublish t slc.storage) } := by
        rw [set_same hslc]
        exact step_popLoad hc hslc
      rw [hst] at hs
      refine ⟨_, _, hs, hs2, ?_⟩
      refine Sim_slot hsim hc (by simp) (by simp) _ _ (hsim.slot _ slg slc hslg hslc).1 ?_
      intro hl
      exfalso
      rcases hl with ⟨_, hl⟩ | ⟨t2, v2, hm, e⟩
      · exact hl t slc.storage (List.mem_iff_getElem?.2
          ⟨i, by rw [List.getElem?_set_self (List.getElem?_eq_some.1 hc).1]⟩) hidx.symm
      · rcases List.mem_or_eq_of_mem_set hm with hm | he
        · exact no_push_on_pop_slot hk h2 hown hc rfl hm (e.trans hidx)
        · cases he
    | popPublish t r =>
      obtain ⟨slc, hslc⟩ := slot_lookup hk hinv.slots_len t
      obtain ⟨slg, hslg⟩ := slot_lookup hk hsim.slots_len t
      have hidx : t &&& Divisor (2 ^ k) = t % 2 ^ k := and_Divisor hk t
      have hs := step_popPublish hg hslg
      rw [← stepMove_eq_step moved (2 ^ k) (by rw [hg]; simp)] at hs
      refine ⟨_, _, hs, step_popPublish hc hslc, ?_⟩
      refine Sim_slot hsim hc ?_ (by simp) _ _ rfl ?_
      · intro t2 r2 h
        cases h
        exact hidx.symm
      · intro hl
        exfalso
        rcases hl with ⟨hl, _⟩ | ⟨t2, v2, hm, e⟩
        · apply hl
          show (t + 2 ^ k) % SIZE % 2 ^ k = t &&& Divisor (2 ^ k)
          rw [hidx, mod_SIZE_mod hk, Nat.add_mod_right]
        · rcases List.mem_or_eq_of_mem_set hm with hm | he
          · exact no_push_on_pop_slot hk h2 hown hc rfl hm (e.trans hidx)
          · cases he
    | popDone t r =>
      have hs := step_popDone (N := 2 ^ k) hg
      rw [← stepMove_eq_step moved (2 ^ k) (by rw [hg]; simp)] at hs
      exact ⟨g, c, hs, step_popDone hc, hsim⟩

end simrun

theorem Sim_fresh {T : Type} (N : Nat) (ops : List (Op T)) :
    Sim N (System.fresh N ops) (System.fresh N ops) := by
  refine ⟨rfl, rfl, rfl, (Inv_fresh N ops).slots_len, ?_⟩
  intro j slg slc h1 h2
  rw [h1] at h2
  cases Option.some.inj h2
  exact ⟨rfl, fun _ => rfl⟩

/-- The same along a schedule. -/
theorem Sim_run {T : Type} (moved : T → T) {k : Nat} (hk : k < 64) (h2 : 2 ≤ 2 ^ k)
    {ops : List (Op T)} (hb : ops.length < SIZE) {g c : System T}
    (hinv : Inv (2 ^ k) ops c) (hown : Own (2 ^ k) c) (hsim : Sim (2 ^ k) g c)
    (sched : List Nat) :
    ∃ g' c', runMove moved (2 ^ k) g sched = some g' ∧ run (2 ^ k) c sched = some c' ∧
      Inv (2 ^ k) ops c' ∧ Own (2 ^ k) c' ∧ Sim (2 ^ k) g' c' := by
  induction sched generalizing g c with
  | nil => exact ⟨g, c, rfl, rfl, hinv, hown, hsim⟩
  | cons i sched ih =>
    obtain ⟨c1, hc1, hinv1, hown1⟩ := Own_step hk h2 hb hinv hown i
    obtain ⟨g1, c1', hg1, hc1', hsim1⟩ := Sim_step moved hk h2 hinv hown hsim i
    rw [hc1] at hc1'
    cases Option.some.inj hc1'
    obtain ⟨g', c', hg', hc', hinv', hown', hsim'⟩ := ih hinv1 hown1 hsim1
    exact ⟨g', c', by simp [runMove, hg1, hg'], by simp [run, hc1, hc'], hinv', hown', hsim'⟩

/-- With `2 ^ k ≥ 2` slots (fewer than `2 ^ 64` calls) what the move of mpmc.hpp:67 leaves
in the cell is immaterial: along every schedule the queue for an element type with any
move and the queue for an element type that a move leaves unchanged are both defined and
end with the same calls (tickets and values received), the same counters and the same
turns. -/
theorem move_immaterial_two_slots {T : Type} (moved : T → T) (k : Nat) (hk : k < 64)
    (h2 : 2 ≤ 2 ^ k) (ops : List (Op T)) (hb : ops.length < SIZE) (sched : List Nat) :
    ∃ g c, runMove moved (2 ^ k) (System.fresh (2 ^ k) ops) sched = some g ∧
      run (2 ^ k) (System.fresh (2 ^ k) ops) sched = some c ∧
      g.calls = c.calls ∧ g.queue.head_ = c.queue.head_ ∧ g.queue.tail_ = c.queue.tail_ ∧
      g.queue.slots_.map Slot.turn = c.queue.slots_.map Slot.turn := by
  obtain ⟨g, c, hg, hc, hinv, hown, hsim⟩ :=
    Sim_run moved hk h2 hb (Inv_fresh (2 ^ k) ops) (Own_fresh (2 ^ k) ops)
      (Sim_fresh (2 ^ k) ops) sched
  refine ⟨g, c, hg, hc, hsim.calls_eq, hsim.head_eq, hsim.tail_eq, ?_⟩
  apply List.ext_getElem?
  intro j
  rw [List.getElem?_map, List.getElem?_map]
  cases h1 : g.queue.slots_[j]? with
  | none =>
    have : c.queue.slots_[j]? = none := by
      rw [List.getElem?_eq_none_iff] at h1 ⊢
      rw [hinv.slots_len]
      rw [hsim.slots_len] at h1
      exact h1
    rw [this]
  | some slg =>
    cases h2 : c.queue.slots_[j]? with
    | none =>
      rw [List.getElem?_eq_none_iff, hinv.slots_len, ← hsim.slots_len,
        ← List.getElem?_eq_none_iff] at h2
      rw [h2] at h1
      cases h1
    | some slc =>
      simp [(hsim.slot j slg slc h1 h2).1]

/-- Strict FIFO by ticket for every capacity `2 ^ k ≥ 2` (fewer than `2 ^ 64` calls) and
every element type, whatever its move leaves behind: in every state reached from the
fresh queue, a pop that has read with ticket `t` has read the value passed to the one
push holding ticket `t`, and that push has returned.  In particular no pop returns a value
that was not pushed. -/
theorem fifo_any_move_two_slots {T : Type} (moved : T → T) (k : Nat) (hk : k < 64)
    (h2 : 2 ≤ 2 ^ k) (ops : List (Op T)) (hb : ops.length < SIZE) (sched : List Nat) :
    ∃ s, runMove moved (2 ^ k) (System.fresh (2 ^ k) ops) sched = some s ∧
      ∀ (i t : Nat) (r : Option T),
        (s.calls[i]? = some (Call.popPublish t r) ∨ s.calls[i]? = some (Call.popDone t r)) →
        ∃ (j : Nat) (v : T), r = some v ∧ ops[j]? = some (Op.push v) ∧
          s.calls[j]? = some (Call.pushDone t v) ∧
          ∀ (n : Nat) (d : Call T), s.calls[n]? = some d → d.pushTicket = some t → n = j := by
  obtain ⟨g, c, hg, _, hinv, hown, hsim⟩ :=
    Sim_run moved hk h2 hb (Inv_fresh (2 ^ k) ops) (Own_fresh (2 ^ k) ops)
      (Sim_fresh (2 ^ k) ops) sched
  refine ⟨g, hg, ?_⟩
  rw [hsim.calls_eq]
  intro i t r hc
  have hfifo : ∃ v, r = some v ∧ Call.pushDone t v ∈ c.calls := by
    rcases hc with hc | hc
    · exact hown.fifo _ (mem_of_getElem? hc) t r (Or.inl rfl)
    · exact hown.fifo _ (mem_of_getElem? hc) t r (Or.inr rfl)
  obtain ⟨v, hv, hm⟩ := hfifo
  obtain ⟨j, hj⟩ := List.mem_iff_getElem?.1 hm
  refine ⟨j, v, hv, ?_, hj, ?_⟩
  · rw [← hinv.calls_op, List.getElem?_map, hj]
    rfl
  · intro n d hd hdt
    exact hown.push_unique n j d _ t hd hj hdt rfl

end MPMC
